import Mathlib

/-!
# Navigation engine of the `md` terminal pager

A shallow embedding of `internal/tui` (Go) and the properties of its
navigation and view-synchronisation logic.

Modelling conventions.

* A Go `string` is a list of Unicode code points (`Str`); the texts handled here
  are valid UTF-8, on which the byte-level operations of the source
  (`strings.HasPrefix`, `strings.Contains`, the `'#'` and ESC scans) agree with
  their code-point counterparts.
* A Go `int` is an `Int`; `len(xs)` is `(xs.length : Int)`.
* A run-time panic (index out of range) is `none` in `Option`.
* `unicode.IsSpace` is the fixed White_Space set (`isSpace`); the rune
  lower-casing of `strings.ToLower` belongs to the Go library tables and is a
  parameter `lowerRune : Char → Char`.
-/

namespace Md

/-! ## Strings -/

/-- A Go string, as its sequence of code points. -/
abbrev Str := List Char

/-- Go `unicode.IsSpace`. -/
def isSpace (c : Char) : Bool :=
  let n := c.toNat
  (9 ≤ n && n ≤ 13) || n == 32 || n == 0x85 || n == 0xA0 || n == 0x1680 ||
    (0x2000 ≤ n && n ≤ 0x200A) || n == 0x2028 || n == 0x2029 || n == 0x202F ||
    n == 0x205F || n == 0x3000

/-- Go `strings.TrimSpace`. -/
def trimSpace (s : Str) : Str :=
  ((s.dropWhile isSpace).reverse.dropWhile isSpace).reverse

/-- Go `strings.HasPrefix(s, p)`. -/
def hasPrefix (s p : Str) : Bool := p.isPrefixOf s

/-- Go `strings.Contains(s, sub)`. -/
def strContains : Str → Str → Bool
  | [], sub => sub.isEmpty
  | c :: cs, sub => hasPrefix (c :: cs) sub || strContains cs sub

/-- Go `strings.ReplaceAll(s, "\r\n", "\n")`. -/
def replaceCRLF : Str → Str
  | [] => []
  | [c] => [c]
  | c :: d :: rest =>
    if c = '\r' ∧ d = '\n' then '\n' :: replaceCRLF rest
    else c :: replaceCRLF (d :: rest)

/-- Go `strings.Split(s, "\n")`: always at least one piece. -/
def splitNL : Str → List Str
  | [] => [[]]
  | c :: cs =>
    if c = '\n' then [] :: splitNL cs
    else
      match splitNL cs with
      | [] => [[c]]
      | l :: ls => (c :: l) :: ls

/-- The scan of Go `strings.Fields`: `cur` is the field being read. -/
def fieldsAux : Str → Str → List Str
  | [], cur => if cur = [] then [] else [cur]
  | c :: cs, cur =>
    if isSpace c then
      if cur = [] then fieldsAux cs [] else cur :: fieldsAux cs []
    else fieldsAux cs (cur ++ [c])

/-- Go `strings.Fields`. -/
def fields (s : Str) : List Str := fieldsAux s []

/-- Go `strings.Join(parts, " ")`. -/
def joinSpace (parts : List Str) : Str := List.intercalate [' '] parts

/-- Go `strings.ToLower`, over the rune mapping `lowerRune`. -/
def toLower (lowerRune : Char → Char) (s : Str) : Str := s.map lowerRune

/-- Slice indexing `xs[i]` with a Go `int` index. -/
def idx? {α : Type} (xs : List α) (i : Int) : Option α :=
  if i < 0 then none else xs[i.toNat]?

/-! ## view.go: integer helpers and text normalisation -/

def clamp (v lo hi : Int) : Int :=
  if v < lo then lo else if v > hi then hi else v

def imax (a b : Int) : Int := if a > b then a else b

def imin (a b : Int) : Int := if a < b then a else b

def normalizeText (lowerRune : Char → Char) (s : Str) : Str :=
  let s := trimSpace s
  if s = [] then []
  else toLower lowerRune (joinSpace (fields s))

/-! ## display_index.go -/

inductive displayIndexKind where
  | displayIndexIdentity
  | displayIndexList
  deriving DecidableEq, Repr

open displayIndexKind

structure displayIndex where
  kind : displayIndexKind
  size : Int
  lines : List Int
  deriving DecidableEq, Repr

def newIdentityDisplayIndex (size : Int) : displayIndex :=
  { kind := displayIndexIdentity, size := size, lines := [] }

def newListDisplayIndex (lines : List Int) : displayIndex :=
  { kind := displayIndexList, size := lines.length, lines := lines }

def displayIndex.Len (d : displayIndex) : Int := d.size

def displayIndex.At (d : displayIndex) (row : Int) : Option Int :=
  if row < 0 then some 0
  else
    match d.kind with
    | displayIndexList =>
      if row ≥ d.lines.length then idx? d.lines ((d.lines.length : Int) - 1)
      else idx? d.lines row
    | displayIndexIdentity =>
      if row ≥ d.size then some (d.size - 1)
      else some row

/-! ## toc.go: heading extraction -/

structure heading where
  Level : Int
  Text : Str
  Line : Int
  deriving DecidableEq, Repr

def isFenceLine (t : Str) : Bool :=
  hasPrefix t ['`', '`', '`'] || hasPrefix t ['~', '~', '~']

def countPrefix : Str → Char → Int
  | [], _ => 0
  | c :: cs, ch => if c = ch then countPrefix cs ch + 1 else 0

/-- The body of the `for i, ln := range lines` loop of `parseHeadings`, from
line index `i` on, with the loop variables `inFence`, `fence` and `hs`. -/
def parseHeadingsLoop : List Str → Int → Bool → Str → List heading → List heading
  | [], _, _, _, hs => hs
  | ln :: rest, i, inFence, fence, hs =>
    let t := trimSpace ln
    if isFenceLine t then
      if !inFence then parseHeadingsLoop rest (i + 1) true (t.take 3) hs
      else if fence ≠ [] ∧ hasPrefix t fence then parseHeadingsLoop rest (i + 1) false [] hs
      else parseHeadingsLoop rest (i + 1) inFence fence hs
    else if inFence then parseHeadingsLoop rest (i + 1) inFence fence hs
    else if !hasPrefix t ['#'] then parseHeadingsLoop rest (i + 1) inFence fence hs
    else
      let n := countPrefix t '#'
      if n < 1 ∨ n > 6 then parseHeadingsLoop rest (i + 1) inFence fence hs
      else
        let rest' := trimSpace (t.drop n.toNat)
        if rest' = [] then parseHeadingsLoop rest (i + 1) inFence fence hs
        else
          parseHeadingsLoop rest (i + 1) inFence fence
            (hs ++ [{ Level := n, Text := rest', Line := i }])

def parseHeadings (md : Str) : List heading :=
  parseHeadingsLoop (splitNL (replaceCRLF md)) 0 false [] []

/-! ## heading_nav.go -/

structure headingLoc where
  Heading : heading
  RenderedLine : Int
  deriving DecidableEq, Repr

/-- One scanning loop `for i := cursor; i < len(plain); i++ { if p(plain[i]) { found = i; break } }`
of the locator, over the lines from index `i` on; `-1` when no line qualifies. -/
def scanFrom (p : Str → Bool) : List Str → Int → Int
  | [], _ => -1
  | ln :: rest, i => if p ln then i else scanFrom p rest (i + 1)

/-- The `for _, h := range hs` loop of `computeHeadingLocsFromRendered`, with
the loop variables `cursor` and `out`. -/
def headingLocsLoop (lowerRune : Char → Char) (plain : List Str) :
    List heading → Int → List headingLoc → List headingLoc
  | [], _, out => out
  | h :: hs, cursor, out =>
    let target := normalizeText lowerRune h.Text
    if target = [] then headingLocsLoop lowerRune plain hs cursor out
    else
      let found := scanFrom (fun ln => normalizeText lowerRune ln == target)
        (plain.drop cursor.toNat) cursor
      let found :=
        if found = -1 then
          scanFrom (fun ln => strContains (normalizeText lowerRune ln) target)
            (plain.drop cursor.toNat) cursor
        else found
      if found = -1 then headingLocsLoop lowerRune plain hs cursor out
      else
        headingLocsLoop lowerRune plain hs (found + 1)
          (out ++ [{ Heading := h, RenderedLine := found }])

def computeHeadingLocsFromRendered (lowerRune : Char → Char) (plain : List Str)
    (hs : List heading) : List headingLoc :=
  if plain.length = 0 ∨ hs.length = 0 then []
  else headingLocsLoop lowerRune plain hs 0 []

/-- The binary-search loop of `currentHeadingIndex`; `fuel` bounds the number
of iterations (`hi - lo + 1` suffice). -/
def currentHeadingLoop (locs : List headingLoc) (anchorLine : Int) :
    Nat → Int → Int → Int → Option Int
  | 0, lo, hi, best => if lo ≤ hi then none else some best
  | fuel + 1, lo, hi, best =>
    if lo ≤ hi then
      let mid := (lo + hi).tdiv 2
      match idx? locs mid with
      | none => none
      | some l =>
        if l.RenderedLine ≤ anchorLine then
          currentHeadingLoop locs anchorLine fuel (mid + 1) hi mid
        else currentHeadingLoop locs anchorLine fuel lo (mid - 1) best
    else some best

def currentHeadingIndex (locs : List headingLoc) (anchorLine : Int) : Option Int :=
  if locs.length = 0 then some (-1)
  else
    let anchorLine := if anchorLine < 0 then 0 else anchorLine
    currentHeadingLoop locs anchorLine locs.length 0 ((locs.length : Int) - 1) (-1)

/-- The backward walk `for i := idx - 1; i >= 0 && level > 1; i--` of
`breadcrumbForIndex`; the counter is `i + 1`. -/
def breadcrumbLoop (locs : List headingLoc) :
    Nat → Int → List headingLoc → Option (List headingLoc)
  | 0, _, chain => some chain
  | i + 1, level, chain =>
    if level > 1 then
      match locs[i]? with
      | none => none
      | some h =>
        if h.Heading.Level < level then
          breadcrumbLoop locs i h.Heading.Level (chain ++ [h])
        else breadcrumbLoop locs i level chain
    else some chain

def breadcrumbForIndex (locs : List headingLoc) (idx : Int) : Option (List headingLoc) :=
  if idx < 0 ∨ idx ≥ locs.length then some []
  else
    match idx? locs idx with
    | none => none
    | some cur =>
      match breadcrumbLoop locs idx.toNat cur.Heading.Level [cur] with
      | none => none
      | some chain => some chain.reverse

/-! ## search.go: matcher and ANSI stripping -/

structure searchMatcher where
  query : Str
  lower : Str
  sensitive : Bool
  deriving DecidableEq, Repr

def hasUpper (s : Str) : Bool :=
  s.any (fun r => decide ('A' ≤ r ∧ r ≤ 'Z'))

def newSearchMatcher (lowerRune : Char → Char) (q : Str) : searchMatcher :=
  let sensitive := hasUpper q
  { query := q, sensitive := sensitive,
    lower := if !sensitive then toLower lowerRune q else [] }

def searchMatcher.Contains (lowerRune : Char → Char) (m : searchMatcher) (line : Str) : Bool :=
  if m.sensitive then strContains line m.query
  else strContains (toLower lowerRune line) m.lower

/-- The scanning loop of `stripANSI`; `inCSI` holds while the inner loop is
skipping a CSI sequence up to and including its final byte. -/
def stripANSIAux : Str → Bool → Str
  | [], _ => []
  | c :: cs, true =>
    if 0x40 ≤ c.toNat ∧ c.toNat ≤ 0x7e then stripANSIAux cs false
    else stripANSIAux cs true
  | c :: cs, false =>
    if c.toNat ≠ 0x1b then c :: stripANSIAux cs false
    else
      match cs with
      | [] => []
      | d :: rest =>
        if d ≠ '[' then stripANSIAux (d :: rest) false
        else stripANSIAux rest true

def stripANSI (s : Str) : Str := stripANSIAux s false

def dropLastRune (s : Str) : Str :=
  if s = [] then []
  else if s.length ≤ 1 then []
  else s.take (s.length - 1)

/-! ## Go maps keyed by `int` -/

/-- A Go `map[int]β`: its entries, one per key. -/
abbrev IntMap (β : Type) := List (Int × β)

/-- Map lookup `v, ok := m[k]`. -/
def IntMap.get? {β : Type} (m : IntMap β) (k : Int) : Option β :=
  (m.find? (fun e => e.1 == k)).map (fun e => e.2)

/-- Map assignment `m[k] = v`. -/
def IntMap.set {β : Type} (m : IntMap β) (k : Int) (v : β) : IntMap β :=
  (k, v) :: m.filter (fun e => e.1 != k)

/-! ## view.go: the model -/

/-- The `render.Options` of the renderer. -/
structure Options where
  Style : Str
  Width : Int
  deriving DecidableEq, Repr

/-- The external renderer `render.RenderMarkdown`: styled text, or the text of
an error. -/
abbrev Renderer := Str → Options → Except Str Str

/-- The fields of `model` that the state transitions read or write: `theme`
only styles the views, and `headingSet` is filled by `ViewMarkdown` and never
read. `lastErr` holds the error text. -/
structure model where
  title : Str
  md : Str
  renderOpts : Options
  lines : List Str
  plain : List Str
  offset : Int
  foldLevel : Int
  display : displayIndex
  width : Int
  height : Int
  ready : Bool
  showHelp : Bool
  showTOC : Bool
  headings : List heading
  headingLocs : List headingLoc
  headingLocsWidth : Int
  headingLineSet : IntMap Bool
  headingByMDLine : IntMap Int
  tocIdx : Int
  tocFilterMode : Bool
  tocFilterDraft : Str
  tocFilter : Str
  tocOffsetCache : IntMap Int
  tocOffsetCacheWidth : Int
  searchMode : Bool
  searchSavedQuery : Str
  searchDraft : Str
  searchQuery : Str
  searchMatches : List Int
  searchIdx : Int
  searchSet : IntMap Bool
  searchCurrentLine : Int
  statusMessage : Str
  lastErr : Option Str
  deriving DecidableEq, Repr

/-- The model that `ViewMarkdown` hands to the event loop. -/
def initialModel (title md : Str) (opts : Options) : model :=
  { title := title, md := md, renderOpts := opts,
    lines := [], plain := [], offset := 0, foldLevel := 0,
    display := newIdentityDisplayIndex 0,
    width := 0, height := 0, ready := false, showHelp := false, showTOC := false,
    headings := parseHeadings md, headingLocs := [], headingLocsWidth := 0,
    headingLineSet := [], headingByMDLine := [],
    tocIdx := 0, tocFilterMode := false, tocFilterDraft := [], tocFilter := [],
    tocOffsetCache := [], tocOffsetCacheWidth := 0,
    searchMode := false, searchSavedQuery := [], searchDraft := [], searchQuery := [],
    searchMatches := [], searchIdx := 0, searchSet := [], searchCurrentLine := 0,
    statusMessage := [], lastErr := none }

def model.pageSize (m : model) : Int := imax 1 (m.height - 2)

def model.maxOffset (m : model) : Int := imax 0 (m.display.Len - m.pageSize)

/-- The statement `m.offset = clamp(m.offset, 0, m.maxOffset())`. -/
def model.clampOffset (m : model) : model :=
  { m with offset := clamp m.offset 0 m.maxOffset }

def splitLines (s : Str) : List Str :=
  let s := replaceCRLF s
  let s := (s.reverse.dropWhile (fun c => c == '\n')).reverse
  if s = [] then [] else splitNL s

def model.bodyTextWidth (m : model) : Int := imax 10 (m.width - 3 - 1)

def model.currentRenderWidth (m : model) : Int :=
  if m.renderOpts.Width ≤ 0 then m.bodyTextWidth else m.renderOpts.Width

/-- The binary-search loop of `displayRowForRenderedLine`; `fuel` bounds the
number of iterations. -/
def displayRowLoop (lines : List Int) (line : Int) : Nat → Int → Int → Int → Option Int
  | 0, lo, hi, best => if lo ≤ hi then none else some best
  | fuel + 1, lo, hi, best =>
    if lo ≤ hi then
      let mid := (lo + hi).tdiv 2
      match idx? lines mid with
      | none => none
      | some v =>
        if v ≤ line then displayRowLoop lines line fuel (mid + 1) hi mid
        else displayRowLoop lines line fuel lo (mid - 1) best
    else some best

def model.displayRowForRenderedLine (m : model) (line : Int) : Option Int :=
  if m.display.kind = displayIndexIdentity then
    some (clamp line 0 (imax 0 (m.display.Len - 1)))
  else
    displayRowLoop m.display.lines line m.display.lines.length 0
      ((m.display.lines.length : Int) - 1) 0

def model.setOffsetForRenderedLine (m : model) (line : Int) : Option model :=
  match m.displayRowForRenderedLine line with
  | none => none
  | some r => some (model.clampOffset { m with offset := r })

def model.anchorLine (m : model) : Option Int :=
  if m.display.Len = 0 then some 0
  else m.display.At (clamp (m.offset + 1) 0 (m.display.Len - 1))

/-! ## search.go: search state -/

/-- The loop `for i := 0; i < len(m.plain); i++` of `recomputeSearch`, from
line index `i` on, with the lists built so far. -/
def recomputeSearchLoop (lowerRune : Char → Char) (matcher : searchMatcher) :
    List Str → Int → List Int → IntMap Bool → List Int × IntMap Bool
  | [], _, ms, set => (ms, set)
  | ln :: rest, i, ms, set =>
    if matcher.Contains lowerRune ln then
      recomputeSearchLoop lowerRune matcher rest (i + 1) (ms ++ [i]) (set.set i true)
    else recomputeSearchLoop lowerRune matcher rest (i + 1) ms set

def model.recomputeSearch (lowerRune : Char → Char) (m : model) : Option model :=
  let m := { m with searchMatches := [], searchSet := [], searchCurrentLine := -1 }
  if m.searchQuery = [] then some m
  else
    let matcher := newSearchMatcher lowerRune m.searchQuery
    let r := recomputeSearchLoop lowerRune matcher m.plain 0 m.searchMatches m.searchSet
    let m := { m with searchMatches := r.1, searchSet := r.2 }
    if m.searchMatches.length = 0 then some { m with searchIdx := 0 }
    else if m.searchIdx ≥ 0 ∧ m.searchIdx < m.searchMatches.length then
      match idx? m.searchMatches m.searchIdx with
      | none => none
      | some v => some { m with searchCurrentLine := v }
    else some m

/-- The loop `for i < len(m.searchMatches) && m.searchMatches[i] < m.offset { i++ }`. -/
def firstMatchLoop : List Int → Int → Int → Int
  | [], _, i => i
  | v :: rest, offset, i => if v < offset then firstMatchLoop rest offset (i + 1) else i

def model.setSearchQueryNoJump (lowerRune : Char → Char) (m : model) (q : Str) : Option model :=
  let q := trimSpace q
  let m := { m with searchQuery := q, searchDraft := q, searchIdx := 0,
                    searchCurrentLine := -1, searchMatches := [], searchSet := [] }
  if q = [] then some m
  else
    match m.recomputeSearch lowerRune with
    | none => none
    | some m =>
      if m.searchMatches.length = 0 then some m
      else
        let i := firstMatchLoop m.searchMatches m.offset 0
        let i := if i ≥ m.searchMatches.length then 0 else i
        let m := { m with searchIdx := i }
        match idx? m.searchMatches m.searchIdx with
        | none => none
        | some v => some { m with searchCurrentLine := v }

def model.setSearchQuery (lowerRune : Char → Char) (m : model) (q : Str) : Option model :=
  match m.setSearchQueryNoJump lowerRune q with
  | none => none
  | some m =>
    if m.searchCurrentLine ≥ 0 then m.setOffsetForRenderedLine m.searchCurrentLine
    else some m

def model.jumpNextMatch (m : model) (delta : Int) : Option model :=
  if m.searchQuery = [] ∨ m.searchMatches.length = 0 then some m
  else
    let m :=
      if delta ≥ 0 then
        { m with searchIdx := (m.searchIdx + 1).tmod m.searchMatches.length }
      else
        let m := { m with searchIdx := m.searchIdx - 1 }
        if m.searchIdx < 0 then { m with searchIdx := (m.searchMatches.length : Int) - 1 }
        else m
    match idx? m.searchMatches m.searchIdx with
    | none => none
    | some v =>
      let m := { m with searchCurrentLine := v }
      m.setOffsetForRenderedLine m.searchCurrentLine

def model.currentMatchNumber (m : model) : Int :=
  if m.searchQuery = [] ∨ m.searchMatches.length = 0 then 0
  else m.searchIdx + 1

/-- A key event: `name` is what `msg.String()` returns, `Runes` is `msg.Runes`. -/
structure KeyMsg where
  name : String
  Runes : Str
  deriving DecidableEq, Repr

def model.handleSearchKey (lowerRune : Char → Char) (m : model) (msg : KeyMsg) : Option model :=
  if msg.name = "esc" then
    let m := { m with searchMode := false, searchDraft := m.searchSavedQuery }
    m.setSearchQueryNoJump lowerRune m.searchSavedQuery
  else if msg.name = "enter" then
    let m := { m with searchMode := false }
    m.setSearchQuery lowerRune m.searchDraft
  else if msg.name = "backspace" ∨ msg.name = "ctrl+h" then
    if m.searchDraft = [] then some m
    else
      let m := { m with searchDraft := dropLastRune m.searchDraft }
      m.setSearchQueryNoJump lowerRune m.searchDraft
  else if msg.name = "ctrl+u" then
    let m := { m with searchDraft := [] }
    m.setSearchQueryNoJump lowerRune m.searchDraft
  else if msg.Runes.length > 0 then
    let m := { m with searchDraft := m.searchDraft ++ msg.Runes }
    m.setSearchQueryNoJump lowerRune m.searchDraft
  else some m

/-! ## toc.go: table of contents -/

def model.tocFilteredHeadings (lowerRune : Char → Char) (m : model) : List heading :=
  let active := if m.tocFilterMode then trimSpace m.tocFilterDraft else trimSpace m.tocFilter
  if active = [] then m.headings
  else
    let matcher := newSearchMatcher lowerRune active
    m.headings.filter (fun h => matcher.Contains lowerRune h.Text)

def model.computeOffsetForMarkdownLine (render : Renderer) (m : model) (line : Int) :
    Option Int :=
  let raw := splitNL (replaceCRLF m.md)
  let line := if line < 0 then 0 else line
  let line := if line > raw.length then (raw.length : Int) else line
  if line + 1 > raw.length then none
  else
    let pfx := List.intercalate ['\n'] (raw.take (line + 1).toNat) ++ ['\n']
    match render pfx { Style := m.renderOpts.Style, Width := m.currentRenderWidth } with
    | Except.error _ => some 0
    | Except.ok out => some (imax 0 ((splitLines out).length - 1))

def model.jumpToHeading (render : Renderer) (lowerRune : Char → Char) (m : model) :
    Option model :=
  let hs := m.tocFilteredHeadings lowerRune
  if hs.length = 0 ∨ m.tocIdx < 0 ∨ m.tocIdx ≥ hs.length then some m
  else
    match idx? hs m.tocIdx with
    | none => none
    | some h =>
      match (if m.headingLocsWidth = m.currentRenderWidth then m.headingByMDLine.get? h.Line
             else none) with
      | some off => m.setOffsetForRenderedLine off
      | none =>
        let cached := m.tocOffsetCache.get? h.Line
        if cached = none ∨ m.tocOffsetCacheWidth ≠ m.currentRenderWidth then
          let m := { m with tocOffsetCacheWidth := m.currentRenderWidth }
          match m.computeOffsetForMarkdownLine render h.Line with
          | none => none
          | some off =>
            let m := { m with tocOffsetCache := m.tocOffsetCache.set h.Line off }
            m.setOffsetForRenderedLine off
        else m.setOffsetForRenderedLine (cached.getD 0)

/-- The statement `m.tocIdx = clamp(m.tocIdx, 0, max(0, len(m.tocFilteredHeadings())-1))`. -/
def model.clampTocIdx (lowerRune : Char → Char) (m : model) : model :=
  { m with tocIdx := clamp m.tocIdx 0 (imax 0 ((m.tocFilteredHeadings lowerRune).length - 1)) }

def model.handleTOCFilterKey (lowerRune : Char → Char) (m : model) (msg : KeyMsg) : model :=
  if msg.name = "esc" then
    let m := { m with tocFilterMode := false, tocFilterDraft := m.tocFilter }
    m.clampTocIdx lowerRune
  else if msg.name = "enter" then
    { m with tocFilterMode := false, tocFilter := trimSpace m.tocFilterDraft, tocIdx := 0 }
  else if msg.name = "backspace" ∨ msg.name = "ctrl+h" then
    if m.tocFilterDraft = [] then m
    else
      let m := { m with tocFilterDraft := dropLastRune m.tocFilterDraft }
      m.clampTocIdx lowerRune
  else if msg.name = "ctrl+u" then
    let m := { m with tocFilterDraft := [] }
    m.clampTocIdx lowerRune
  else
    let m :=
      if msg.Runes.length > 0 then { m with tocFilterDraft := m.tocFilterDraft ++ msg.Runes }
      else m
    m.clampTocIdx lowerRune

def model.handleTOCKey (render : Renderer) (lowerRune : Char → Char) (m : model)
    (msg : KeyMsg) : Option model :=
  if m.tocFilterMode then some (m.handleTOCFilterKey lowerRune msg)
  else if msg.name = "esc" ∨ msg.name = "q" ∨ msg.name = "t" then
    some { m with showTOC := false }
  else if msg.name = "/" then
    some { m with tocFilterMode := true, tocFilterDraft := m.tocFilter }
  else if msg.name = "j" ∨ msg.name = "down" then
    some (model.clampTocIdx lowerRune { m with tocIdx := m.tocIdx + 1 })
  else if msg.name = "k" ∨ msg.name = "up" then
    some (model.clampTocIdx lowerRune { m with tocIdx := m.tocIdx - 1 })
  else if msg.name = "home" ∨ msg.name = "g" then
    some (model.clampTocIdx lowerRune { m with tocIdx := 0 })
  else if msg.name = "end" ∨ msg.name = "G" then
    some (model.clampTocIdx lowerRune { m with tocIdx := (m.tocFilteredHeadings lowerRune).length - 1 })
  else if msg.name = "enter" then
    match m.jumpToHeading render lowerRune with
    | none => none
    | some m => some { m with showTOC := false }
  else some (m.clampTocIdx lowerRune)

/-! ## view.go: heading navigation, fold rebuild and re-render -/

def model.currentHeadingMDLine (m : model) : Option (Int × Bool) :=
  if m.headingLocs.length = 0 then some (0, false)
  else
    match m.anchorLine with
    | none => none
    | some a =>
      match currentHeadingIndex m.headingLocs a with
      | none => none
      | some idx =>
        if idx < 0 then some (0, false)
        else
          match idx? m.headingLocs idx with
          | none => none
          | some l => some (l.Heading.Line, true)

def model.jumpHeading (m : model) (delta : Int) : Option model :=
  if m.headingLocs.length = 0 ∨ delta = 0 then some m
  else
    let filtered := m.headingLocs.filter (fun loc => loc.Heading.Level ≤ m.foldLevel)
    let locs := if m.foldLevel > 0 ∧ filtered.length > 0 then filtered else m.headingLocs
    match m.anchorLine with
    | none => none
    | some a =>
      match currentHeadingIndex locs a with
      | none => none
      | some idx =>
        if idx < 0 ∧ ¬ delta > 0 then some m
        else
          let idx := if idx < 0 then -1 else idx
          let next := clamp (idx + delta) 0 ((locs.length : Int) - 1)
          match idx? locs next with
          | none => none
          | some l => m.setOffsetForRenderedLine l.RenderedLine

/-- The loop `for i := 0; i < len(hs); i++ { if hs[i].Line == mdLine { ... } }` of
`syncTOCToCurrentHeading`: the first index whose heading has that source line. -/
def syncTOCLoop : List heading → Int → Int → Option Int
  | [], _, _ => none
  | h :: rest, mdLine, i => if h.Line = mdLine then some i else syncTOCLoop rest mdLine (i + 1)

def model.syncTOCToCurrentHeading (lowerRune : Char → Char) (m : model) : Option model :=
  match m.currentHeadingMDLine with
  | none => none
  | some (mdLine, ok) =>
    if !ok then some m
    else
      match syncTOCLoop (m.tocFilteredHeadings lowerRune) mdLine 0 with
      | none => some m
      | some i => some { m with tocIdx := i }

def model.refreshHeadingLocs (lowerRune : Char → Char) (m : model) (renderWidth : Int) : model :=
  if m.headings.length = 0 ∨ m.plain.length = 0 then
    { m with headingLocs := [], headingLineSet := [], headingByMDLine := [],
             headingLocsWidth := renderWidth }
  else if m.headingLocsWidth = renderWidth ∧ m.headingLocs.length > 0 ∧
      m.headingLineSet.length > 0 then m
  else
    let locs := computeHeadingLocsFromRendered lowerRune m.plain m.headings
    let lineSet : IntMap Bool := locs.foldl (fun s loc => s.set loc.RenderedLine true) []
    let byMD : IntMap Int := locs.foldl (fun s loc => s.set loc.Heading.Line loc.RenderedLine) []
    { m with headingLocs := locs, headingLineSet := lineSet, headingByMDLine := byMD,
             headingLocsWidth := renderWidth }

/-- The loop `for _, v := range idx { if v <= anchor { target = v; continue }; break }`. -/
def anchorTargetLoop : List Int → Int → Int → Int
  | [], _, target => target
  | v :: rest, anchor, target => if v ≤ anchor then anchorTargetLoop rest anchor v else target

def model.rebuildDisplay (m : model) : Option model :=
  if m.lines.length = 0 then
    some { m with display := newIdentityDisplayIndex 0, offset := 0 }
  else if m.foldLevel ≤ 0 then
    some (model.clampOffset { m with display := newIdentityDisplayIndex m.lines.length })
  else if m.headingLocs.length = 0 then
    some (model.clampOffset { m with display := newIdentityDisplayIndex m.lines.length })
  else
    let idx := (m.headingLocs.filter (fun loc => loc.Heading.Level ≤ m.foldLevel)).map
      (fun loc => loc.RenderedLine)
    if idx.length = 0 then
      some (model.clampOffset { m with display := newIdentityDisplayIndex m.lines.length })
    else
      match m.anchorLine with
      | none => none
      | some anchor =>
        match idx? idx 0 with
        | none => none
        | some first =>
          let target := anchorTargetLoop idx anchor first
          let m := { m with display := newListDisplayIndex idx }
          match m.displayRowForRenderedLine target with
          | none => none
          | some r => some (model.clampOffset { m with offset := r })

def model.reRender (render : Renderer) (lowerRune : Char → Char) (m : model) : Option model :=
  let renderWidth := if m.renderOpts.Width ≤ 0 then m.bodyTextWidth else m.renderOpts.Width
  match render m.md { Style := m.renderOpts.Style, Width := renderWidth } with
  | Except.error err =>
    some { m with lastErr := some err,
                  lines := ["(render error)".data, err],
                  plain := ["(render error)".data, err],
                  headingLocs := [], headingLineSet := [], headingByMDLine := [] }
  | Except.ok out =>
    let m := { m with lastErr := none, lines := splitLines out }
    let m := { m with plain := m.lines.map stripANSI }
    let m := m.refreshHeadingLocs lowerRune renderWidth
    match m.rebuildDisplay with
    | none => none
    | some m =>
      if m.searchQuery ≠ [] then m.recomputeSearch lowerRune
      else some m

/-! ## view.go: the state transition -/

inductive MouseEventType where
  | MouseWheelUp
  | MouseWheelDown
  | MouseOther
  deriving DecidableEq, Repr

/-- The events delivered to `Update`; `otherMsg` is any other `tea.Msg`. -/
inductive Msg where
  | KeyMsg (msg : KeyMsg)
  | MouseMsg (type : MouseEventType)
  | WindowSizeMsg (Width Height : Int)
  | clearStatusMsg
  | otherMsg
  deriving DecidableEq, Repr

/-- The command returned by `Update`: `nil`, `tea.Quit`, or the tick of `statusTick`. -/
inductive Cmd where
  | nil
  | Quit
  | statusTick
  deriving DecidableEq, Repr

/-- The tail of `Update` after its `switch`: the final clamp and `return m, nil`. -/
def model.finish (m : model) : Option (model × Cmd) := some (m.clampOffset, Cmd.nil)

/-- The second `switch msg.String()` of the `tea.KeyMsg` arm of `Update` (fold,
movement, heading and match jumps, clear search), reached when no overlay is
open; the cases that do not return fall through to the tail of `Update`. -/
def model.updateKeyMain (lowerRune : Char → Char) (m : model) (msg : KeyMsg) :
    Option (model × Cmd) :=
  if msg.name = "0" then
    let m := { m with foldLevel := 0 }
    match m.rebuildDisplay with
    | none => none
    | some m =>
      some ({ m with statusMessage := "Outline: off (press 1-6 to fold)".data }, Cmd.statusTick)
  else if msg.name = "j" ∨ msg.name = "down" then
    model.finish { m with offset := m.offset + 1 }
  else if msg.name = "k" ∨ msg.name = "up" then
    model.finish { m with offset := m.offset - 1 }
  else if msg.name = "1" ∨ msg.name = "2" ∨ msg.name = "3" ∨ msg.name = "4" ∨
      msg.name = "5" ∨ msg.name = "6" then
    let m := { m with foldLevel := ((msg.name.get 0).toNat : Int) - ('0'.toNat : Int) }
    match m.rebuildDisplay with
    | none => none
    | some m =>
      some ({ m with statusMessage :=
                "Outline: H".data ++ (toString m.foldLevel).data ++
                  " (press 0 to show all)".data },
            Cmd.statusTick)
  else if msg.name = "d" then
    model.finish { m with offset := m.offset + imax 1 (m.pageSize.tdiv 2) }
  else if msg.name = "u" then
    model.finish { m with offset := m.offset - imax 1 (m.pageSize.tdiv 2) }
  else if msg.name = "pgdown" ∨ msg.name = "f" ∨ msg.name = " " then
    model.finish { m with offset := m.offset + imax 1 m.pageSize }
  else if msg.name = "pgup" ∨ msg.name = "b" then
    model.finish { m with offset := m.offset - imax 1 m.pageSize }
  else if msg.name = "home" ∨ msg.name = "g" then
    model.finish { m with offset := 0 }
  else if msg.name = "end" ∨ msg.name = "G" then
    model.finish { m with offset := m.maxOffset }
  else if msg.name = "]" then
    match m.jumpHeading 1 with
    | none => none
    | some m => m.finish
  else if msg.name = "[" then
    match m.jumpHeading (-1) with
    | none => none
    | some m => m.finish
  else if msg.name = "n" then
    match m.jumpNextMatch 1 with
    | none => none
    | some m => m.finish
  else if msg.name = "N" then
    match m.jumpNextMatch (-1) with
    | none => none
    | some m => m.finish
  else if msg.name = "c" then
    match m.setSearchQuery lowerRune [] with
    | none => none
    | some m => m.finish
  else m.finish

/-- The `case tea.KeyMsg:` arm of `Update`. -/
def model.updateKey (render : Renderer) (lowerRune : Char → Char) (m : model) (msg : KeyMsg) :
    Option (model × Cmd) :=
  if m.searchMode then
    match m.handleSearchKey lowerRune msg with
    | none => none
    | some m => some (m.clampOffset, Cmd.nil)
  else if m.showTOC then
    match m.handleTOCKey render lowerRune msg with
    | none => none
    | some m => some (m.clampOffset, Cmd.nil)
  else if msg.name = "q" ∨ msg.name = "esc" ∨ msg.name = "ctrl+c" then
    some (m, Cmd.Quit)
  else if msg.name = "?" then
    some ({ m with showHelp := !m.showHelp }, Cmd.nil)
  else if msg.name = "t" then
    let m := { m with showTOC := !m.showTOC, showHelp := false }
    if m.showTOC then
      let m := { m with tocIdx := clamp m.tocIdx 0 (imax 0 ((m.headings.length : Int) - 1)) }
      match m.syncTOCToCurrentHeading lowerRune with
      | none => none
      | some m => some ({ m with tocFilterMode := false, tocFilterDraft := m.tocFilter }, Cmd.nil)
    else some (m, Cmd.nil)
  else if msg.name = "/" then
    let m := { m with searchMode := true, searchSavedQuery := m.searchQuery,
                      searchDraft := m.searchQuery }
    match m.setSearchQueryNoJump lowerRune m.searchDraft with
    | none => none
    | some m => some ({ m with showHelp := false, showTOC := false }, Cmd.nil)
  else if m.showHelp then
    some (m, Cmd.nil)
  else m.updateKeyMain lowerRune msg

/-- The `case tea.MouseMsg:` arm of `Update`. -/
def model.updateMouse (m : model) (type : MouseEventType) : Option (model × Cmd) :=
  if m.showHelp then some (m, Cmd.nil)
  else
    match type with
    | MouseEventType.MouseWheelUp => model.finish { m with offset := m.offset - 3 }
    | MouseEventType.MouseWheelDown => model.finish { m with offset := m.offset + 3 }
    | MouseEventType.MouseOther => m.finish

/-- The `case tea.WindowSizeMsg:` arm of `Update`. -/
def model.updateWindowSize (render : Renderer) (lowerRune : Char → Char) (m : model)
    (Width Height : Int) : Option (model × Cmd) :=
  let m := { m with width := Width, height := Height, ready := true,
                    tocOffsetCache := [], tocOffsetCacheWidth := 0 }
  match m.reRender render lowerRune with
  | none => none
  | some m => m.finish

def model.Update (render : Renderer) (lowerRune : Char → Char) (m : model) :
    Msg → Option (model × Cmd)
  | Msg.KeyMsg msg => m.updateKey render lowerRune msg
  | Msg.MouseMsg type => m.updateMouse type
  | Msg.WindowSizeMsg Width Height => m.updateWindowSize render lowerRune Width Height
  | Msg.clearStatusMsg => model.finish { m with statusMessage := [] }
  | Msg.otherMsg => m.finish

/-! ## Specification vocabulary -/

/-- Position `j` holds the nearest entry before position `k` whose level is
strictly lower than the level at `k`. -/
def NearestParent (locs : List headingLoc) (j k : Nat) : Prop :=
  j < k ∧ ∃ lj lk, locs[j]? = some lj ∧ locs[k]? = some lk ∧
    lj.Heading.Level < lk.Heading.Level ∧
    ∀ (t : Nat) (l : headingLoc), j < t → t < k → locs[t]? = some l →
      lk.Heading.Level ≤ l.Heading.Level

/-- The fence state as the specification words it, after one more line: off
(`none`) until a line whose trimmed text starts with three backticks or three
tildes turns it on, remembering those three characters; on (`some f`) until a
line whose trimmed text starts with the remembered characters `f`. -/
def fenceStep (st : Option Str) (ln : Str) : Option Str :=
  let t := trimSpace ln
  match st with
  | none =>
    if hasPrefix t ['`', '`', '`'] || hasPrefix t ['~', '~', '~'] then some (t.take 3)
    else none
  | some f => if hasPrefix t f then none else some f

/-- The fence state in force when line `k` is reached. -/
def fenceBefore (lines : List Str) (k : Nat) : Option Str :=
  (lines.take k).foldl fenceStep none

/-- The heading the specification recognises on line `i`: the trimmed text
starts with exactly `n` characters `#`, `1 ≤ n ≤ 6`, and what follows them is
not empty after trimming. -/
def headingOfLine (i : Int) (ln : Str) : Option heading :=
  let t := trimSpace ln
  let n := (t.takeWhile (fun c => c == '#')).length
  let text := trimSpace (t.drop n)
  if 1 ≤ n ∧ n ≤ 6 ∧ text ≠ [] then some { Level := n, Text := text, Line := i } else none

/-- The heading, if any, that the specification reports for line `k`. -/
def specHeadingAt (lines : List Str) (k : Nat) : Option heading :=
  match lines[k]? with
  | none => none
  | some ln => if fenceBefore lines k = none then headingOfLine k ln else none

/-- The heading list of the specification: line by line, in order. -/
def specHeadings (lines : List Str) : List heading :=
  (List.range lines.length).filterMap (specHeadingAt lines)

/-- The loop state `(inFence, fence)` of `parseHeadings` encodes the fence
state `st` of the specification. -/
def FenceEnc (st : Option Str) (inFence : Bool) (fence : Str) : Prop :=
  (st = none ∧ inFence = false) ∨
    (st = some fence ∧ inFence = true ∧
      (fence = ['`', '`', '`'] ∨ fence = ['~', '~', '~']))

/-- Index `r` is the first index at or after `cursor` whose line satisfies `q`. -/
def IsFirstFrom (q : Str → Prop) (plain : List Str) (cursor r : Int) : Prop :=
  cursor ≤ r ∧ (∃ ln, idx? plain r = some ln ∧ q ln) ∧
    ∀ (i : Int) (ln : Str), cursor ≤ i → i < r → idx? plain i = some ln → ¬ q ln

/-- Some line at or after `cursor` has the normalized text of `h` as its
normalized text. -/
def ExactFrom (lowerRune : Char → Char) (plain : List Str) (cursor : Int) (h : heading) : Prop :=
  ∃ (i : Int) (ln : Str), cursor ≤ i ∧ idx? plain i = some ln ∧
    normalizeText lowerRune ln = normalizeText lowerRune h.Text

/-- The match rule of the locator: with the scan starting at `cursor`, heading
`h` is located at line `r`. -/
def Located (lowerRune : Char → Char) (plain : List Str) (cursor : Int) (h : heading)
    (r : Int) : Prop :=
  normalizeText lowerRune h.Text ≠ [] ∧
  (ExactFrom lowerRune plain cursor h →
    IsFirstFrom (fun ln => normalizeText lowerRune ln = normalizeText lowerRune h.Text)
      plain cursor r) ∧
  (¬ ExactFrom lowerRune plain cursor h →
    IsFirstFrom (fun ln => normalizeText lowerRune h.Text <:+: normalizeText lowerRune ln)
      plain cursor r)

/-- The drop rule of the locator: the normalized text of `h` is empty, or no
line at or after `cursor` contains it. -/
def Dropped (lowerRune : Char → Char) (plain : List Str) (cursor : Int) (h : heading) : Prop :=
  normalizeText lowerRune h.Text = [] ∨
    ∀ (i : Int) (ln : Str), cursor ≤ i → idx? plain i = some ln →
      ¬ (normalizeText lowerRune h.Text <:+: normalizeText lowerRune ln)

/-- The locator as a relation: headings are taken in order; a dropped heading
leaves the cursor where it is, a located one moves it past its line. -/
inductive LocRel (lowerRune : Char → Char) (plain : List Str) :
    List heading → Int → List headingLoc → Prop where
  | done (cursor : Int) : LocRel lowerRune plain [] cursor []
  | drop (h : heading) (hs : List heading) (cursor : Int) (out : List headingLoc) :
      Dropped lowerRune plain cursor h → LocRel lowerRune plain hs cursor out →
      LocRel lowerRune plain (h :: hs) cursor out
  | locate (h : heading) (hs : List heading) (cursor r : Int) (out : List headingLoc) :
      Located lowerRune plain cursor h r → LocRel lowerRune plain hs (r + 1) out →
      LocRel lowerRune plain (h :: hs) cursor ({ Heading := h, RenderedLine := r } :: out)

/-- The cursor after the headings `located` have been placed, starting from `c`. -/
def cursorAfter (c : Int) (located : List headingLoc) : Int :=
  match located.getLast? with
  | none => c
  | some l => l.RenderedLine + 1

/-- The offset invariant of the viewport: `0 ≤ offset ≤ max(0, display.Len() - pageSize)`
with `pageSize = max(1, height - 2)`. -/
def OffsetOk (m : model) : Prop :=
  0 ≤ m.offset ∧ m.offset ≤ max 0 (m.display.Len - max 1 (m.height - 2))

/-- The model states reachable from the initial model by `Update` events; each
event may meet any renderer behaviour (and any rune lower-casing). -/
inductive Reachable (title md : Str) (opts : Options) : model → Prop where
  | init : Reachable title md opts (initialModel title md opts)
  | step (render : Renderer) (lowerRune : Char → Char) (msg : Msg) (m m' : model) (cmd : Cmd) :
      Reachable title md opts m → m.Update render lowerRune msg = some (m', cmd) →
      Reachable title md opts m'

/-- Two models show the same viewport data: offset, display index and height. -/
def SameView (m m' : model) : Prop :=
  m'.offset = m.offset ∧ m'.display = m.display ∧ m'.height = m.height

/-- A display index as the constructors build it: a List variant has at least
one entry. -/
def DisplayWF (d : displayIndex) : Prop :=
  d.kind = displayIndexList → d.lines ≠ []

/-- The rendered lines of the heading locations whose level is at most `L`,
in order. -/
def foldLines (locs : List headingLoc) (L : Int) : List Int :=
  (locs.filter (fun loc => loc.Heading.Level ≤ L)).map (fun loc => loc.RenderedLine)

/-- A deterministic renderer for examples: five lines at render width 76, an
error at any other width. -/
def widthSensitiveRenderer : Renderer :=
  fun _ o => if o.Width = 76 then Except.ok "a\nb\nc\nd\ne".data else Except.error "boom".data

/-- A rune lower-casing for examples: Go's `unicode.ToLower` on ASCII and on
U+00C9 (`É`, mapped to U+00E9 `é`); other runes are left as they are. -/
def lowerLatin (c : Char) : Char :=
  if c = Char.ofNat 0xC9 then Char.ofNat 0xE9 else c.toLower

/-- The search index of a model lists its query: `searchMatches` is the strictly
ascending list of exactly the indices of the plain lines that the smart-case
matcher of the query matches, and `searchSet` holds exactly those indices. -/
def SearchListed (lowerRune : Char → Char) (m : model) : Prop :=
  m.searchMatches.Pairwise (fun a b => a < b) ∧
  (∀ i : Int, i ∈ m.searchMatches ↔
    ∃ ln, idx? m.plain i = some ln ∧
      (newSearchMatcher lowerRune m.searchQuery).Contains lowerRune ln = true) ∧
  (∀ i : Int, m.searchSet.get? i = some true ↔ i ∈ m.searchMatches) ∧
  (∀ i : Int, m.searchSet.get? i ≠ some false)

/-- The search index of a model is up to date: a non-empty query is listed, and
with an empty query there are no matches and no current match line. -/
def SearchOk (lowerRune : Char → Char) (m : model) : Prop :=
  (m.searchQuery ≠ [] → SearchListed lowerRune m) ∧
  (m.searchQuery = [] →
    m.searchMatches = [] ∧ m.searchSet = [] ∧ m.searchCurrentLine = -1)

/-- The key `n` (Next) pressed `t` times in a row: `jumpNextMatch(+1)` iterated. -/
def jumpNextTimes : Nat → model → Option model
  | 0, m => some m
  | t + 1, m =>
    match m.jumpNextMatch 1 with
    | none => none
    | some m1 => jumpNextTimes t m1

/-- A renderer for examples: a heading line `H` followed by the body line `foo`. -/
def headingAndBodyRenderer : Renderer :=
  fun _ _ => Except.ok "H\nfoo".data

/-- The signed step of a movement key as the specification words it, for page
size `P`: one line for `j`/`down` and `k`/`up`, half a page (at least 1) for
`d`/`u`, a page (at least 1) for `pgdown`/`f`/space and `pgup`/`b`. -/
def specMovementDelta (P : Int) (name : String) : Option Int :=
  if name = "j" ∨ name = "down" then some 1
  else if name = "k" ∨ name = "up" then some (-1)
  else if name = "d" then some (max 1 (P / 2))
  else if name = "u" then some (-(max 1 (P / 2)))
  else if name = "pgdown" ∨ name = "f" ∨ name = " " then some (max 1 P)
  else if name = "pgup" ∨ name = "b" then some (-(max 1 P))
  else none

/-! ## view.go: scrollbar -/

/-- The geometry fields of `scrollbarModel`; the styled `track` and `thumb`
strings are left out. -/
structure scrollbarModel where
  enabled : Bool
  thumbTop : Int
  thumbSize : Int
  deriving DecidableEq, Repr

/-- The method `scrollbar(visible)`. The source computes the thumb position as
`int(float64(offset) * float64(visible-thumbSize) / float64(maxOff))`; the
conversion truncates toward zero, and the floating-point product and quotient
give the truncated exact quotient as long as
`|offset| * (visible-thumbSize) + maxOff < 2^53`, which is the range modelled
here by `Int.tdiv`. -/
def model.scrollbar (m : model) (visible : Int) : scrollbarModel :=
  let total := m.display.Len
  if total ≤ visible ∨ visible ≤ 0 then
    { enabled := false, thumbTop := 0, thumbSize := 0 }
  else
    let thumbSize := imax 1 ((visible * visible).tdiv total)
    let thumbSize := imin visible thumbSize
    let maxOff := m.maxOffset
    let thumbTop :=
      if maxOff > 0 ∧ visible > thumbSize then
        (m.offset * (visible - thumbSize)).tdiv maxOff
      else 0
    let thumbTop := clamp thumbTop 0 (imax 0 (visible - thumbSize))
    { enabled := true, thumbTop := thumbTop, thumbSize := thumbSize }

/-- A renderer for examples that fails on every input. -/
def failingRenderer : Renderer :=
  fun _ _ => Except.error "boom".data

/-- A renderer for examples: the lines `A`, `x`, `B`, `y`, `C`, the rendering of a
document with the headings `A`, `B`, `C` on its source lines 0, 2 and 4. -/
def threeHeadingRenderer : Renderer :=
  fun _ _ => Except.ok "A\nx\nB\ny\nC".data

/-- The model states reachable from the initial model by `Update` events when
every event meets the same (deterministic) renderer `render`. -/
inductive ReachableWith (render : Renderer) (title md : Str) (opts : Options) : model → Prop where
  | init : ReachableWith render title md opts (initialModel title md opts)
  | step (lowerRune : Char → Char) (msg : Msg) (m m' : model) (cmd : Cmd) :
      ReachableWith render title md opts m → m.Update render lowerRune msg = some (m', cmd) →
      ReachableWith render title md opts m'

/-- Every entry of the TOC jump cache is the offset that
`computeOffsetForMarkdownLine` computes for its source line in this state, that
is, at the current render width. -/
def CacheValid (render : Renderer) (m : model) : Prop :=
  ∀ k off : Int, m.tocOffsetCache.get? k = some off →
    m.computeOffsetForMarkdownLine render k = some off

/-- Two models have the same document, render options and window width, hence
the same render width. -/
def SameDoc (m m' : model) : Prop :=
  m'.md = m.md ∧ m'.renderOpts = m.renderOpts ∧ m'.width = m.width

/-- Two models have the same document and render width and the same TOC jump
cache. -/
def SameSource (m m' : model) : Prop :=
  SameDoc m m' ∧ m'.tocOffsetCache = m.tocOffsetCache

/-- A transition keeps the document and the render width, and keeps the jump
cache valid. -/
def CacheStep (render : Renderer) (m m' : model) : Prop :=
  SameDoc m m' ∧ (CacheValid render m → CacheValid render m')

/-- A deterministic renderer for examples whose output reflows with the width:
three lines `a` at render width 76, the two lines `a`, `b` at any other width. -/
def reflowRenderer : Renderer :=
  fun _ o => if o.Width = 76 then Except.ok "a\na\na".data else Except.ok "a\nb".data

/-! ## view.go: document range and progress -/

/-- The method `visibleDocRange()`: the 1-based first and last rendered line
shown and the number of rendered lines. -/
def model.visibleDocRange (m : model) : Option (Int × Int × Int) :=
  let total : Int := m.lines.length
  if total = 0 ∨ m.display.Len = 0 then some (0, 0, total)
  else
    let topRow := clamp m.offset 0 (m.display.Len - 1)
    let bottomRow := clamp (m.offset + m.pageSize - 1) 0 (m.display.Len - 1)
    match m.display.At topRow with
    | none => none
    | some a =>
      match m.display.At bottomRow with
      | none => none
      | some b =>
        let start := clamp (a + 1) 1 (imax 1 total)
        let stop := clamp (b + 1) start total
        some (start, stop, total)

/-- The method `progressPercent()`. The source computes
`int(float64(top) * 100.0 / float64(docMaxOff))`; the conversion truncates, and
the floating-point result is the truncated exact quotient for line counts below
`2^45`, which is the range modelled here by `Int.tdiv`. -/
def model.progressPercent (m : model) : Option Int :=
  if m.lines.length = 0 then some 0
  else
    let docMaxOff := imax 0 ((m.lines.length : Int) - m.pageSize)
    if docMaxOff = 0 then some 100
    else
      match m.visibleDocRange with
      | none => none
      | some (top, _, _) => some ((top * 100).tdiv docMaxOff)

/-! ## Invariants of the heading list, the search text and the TOC selection -/

/-- The document and its parsed headings. -/
def docKey (m : model) : Str × List heading := (m.md, m.headings)

/-- The TOC selection state: selection, applied filter, filter draft, filter
input mode and whether the TOC is open. -/
def tocKey (m : model) : Int × Str × Str × Bool × Bool :=
  (m.tocIdx, m.tocFilter, m.tocFilterDraft, m.tocFilterMode, m.showTOC)

/-- The search text: the draft of the prompt and the active query. -/
def searchKey (m : model) : Str × Str := (m.searchDraft, m.searchQuery)

/-- The fields that the invariants below read. -/
def navKey (m : model) : (Str × List heading) × (Int × Str × Str × Bool × Bool) × (Str × Str) :=
  (docKey m, tocKey m, searchKey m)

/-- The search draft equals the query, and the query has no leading or trailing
white space. -/
def SearchTextOk (m : model) : Prop :=
  m.searchDraft = m.searchQuery ∧ trimSpace m.searchQuery = m.searchQuery

/-- The TOC selection is within the filtered heading list, and the filter input
is open only while the TOC is open. -/
def TocIdxOk (lowerRune : Char → Char) (m : model) : Prop :=
  0 ≤ m.tocIdx ∧
    m.tocIdx ≤ max 0 (((m.tocFilteredHeadings lowerRune).length : Int) - 1) ∧
    (m.tocFilterMode = true → m.showTOC = true)

/-- A transition leaves the search text alone or sets draft and query to one
trimmed text. -/
def SearchStep (m m' : model) : Prop :=
  searchKey m' = searchKey m ∨ ∃ q : Str, searchKey m' = (trimSpace q, trimSpace q)

/-- A transition keeps the document and its headings, treats the search text as
`SearchStep` says, and keeps the TOC selection in range. -/
def NavStep (lowerRune : Char → Char) (m m' : model) : Prop :=
  docKey m' = docKey m ∧ SearchStep m m' ∧ (TocIdxOk lowerRune m → TocIdxOk lowerRune m')

/-- The model states reachable from the initial model by `Update` events with
one renderer and one rune lower-casing. -/
inductive ReachableBy (render : Renderer) (lowerRune : Char → Char) (title md : Str)
    (opts : Options) : model → Prop where
  | init : ReachableBy render lowerRune title md opts (initialModel title md opts)
  | step (msg : Msg) (m m' : model) (cmd : Cmd) :
      ReachableBy render lowerRune title md opts m →
      m.Update render lowerRune msg = some (m', cmd) →
      ReachableBy render lowerRune title md opts m'

/-! # Properties -/

/-! ## Integer helpers -/

theorem clamp_bounds (v lo hi : Int) (h : lo ≤ hi) : lo ≤ clamp v lo hi ∧ clamp v lo hi ≤ hi := by
  unfold clamp
  split
  · omega
  · split <;> omega

theorem imax_eq (a b : Int) : imax a b = max a b := by
  unfold imax
  split <;> omega

theorem idx?_eq_some {α : Type} (xs : List α) (i : Nat) (h : i < xs.length) :
    idx? xs (i : Int) = some (xs.get ⟨i, h⟩) := by
  unfold idx?
  have : ¬ ((i : Int) < 0) := by omega
  simp [this, List.getElem?_eq_getElem h]

theorem idx?_of_lt {α : Type} (xs : List α) (i : Int) (h0 : 0 ≤ i) (h : i < xs.length) :
    idx? xs i = xs[i.toNat]? ∧ i.toNat < xs.length := by
  unfold idx?
  have : ¬ (i < 0) := by omega
  simp [this]
  omega

/-! ## display_index.go -/

/-- C9. For every size `n ≥ 1` and every integer row, the identity display index
maps the row to `clamp(row, 0, n-1)` (without failing), and its length is `n`. -/
theorem identity_At_eq_clamp (n row : Int) (_hn : 1 ≤ n) :
    (newIdentityDisplayIndex n).At row = some (clamp row 0 (n - 1)) ∧
      (newIdentityDisplayIndex n).Len = n := by
  refine ⟨?_, rfl⟩
  unfold displayIndex.At newIdentityDisplayIndex clamp
  by_cases h0 : row < 0
  · simp [h0]
  · by_cases h1 : row ≥ n
    · have h2 : row > n - 1 := by omega
      simp [h0, h1, h2]
    · have h2 : ¬ row > n - 1 := by omega
      simp [h0, h1, h2]

theorem identity_At_eq_clamp_witness :
    (newIdentityDisplayIndex 3).At 7 = some (clamp 7 0 (3 - 1)) ∧
      (newIdentityDisplayIndex 3).Len = 3 :=
  identity_At_eq_clamp 3 7 (by decide)

theorem list_At_of_nonneg (indices : List Int) (row : Int) (hne : indices ≠ []) (h0 : 0 ≤ row) :
    (newListDisplayIndex indices).At row =
      idx? indices (clamp row 0 ((indices.length : Int) - 1)) := by
  have hlen : 0 < indices.length := List.length_pos.mpr hne
  have hneg : ¬ row < 0 := by omega
  unfold displayIndex.At newListDisplayIndex clamp
  simp only [hneg, if_false]
  by_cases h1 : row ≥ (indices.length : Int)
  · have h2 : row > (indices.length : Int) - 1 := by omega
    simp [h1, h2]
  · have h2 : ¬ row > (indices.length : Int) - 1 := by omega
    simp [h1, h2]

theorem list_At_of_neg (indices : List Int) (row : Int) (h0 : row < 0) :
    (newListDisplayIndex indices).At row = some 0 := by
  unfold displayIndex.At
  simp [h0]

/-- C10, at the failing input. For the list display index over `[5]` the row `-1`
is mapped to `0`, which is neither the first entry `5` nor any entry of the
list, while the row `7` beyond the end is mapped to the last entry. -/
theorem list_At_negative_row :
    (newListDisplayIndex [5]).At (-1) = some 0 ∧
      idx? [5] (clamp (-1) 0 (([5] : List Int).length - 1)) = some 5 ∧
      (newListDisplayIndex [5]).At 7 = some 5 := by
  decide

/-! ## heading_nav.go: current heading -/

theorem currentHeadingLoop_spec (locs : List headingLoc) (a : Int) :
    ∀ (fuel : Nat) (lo hi : Int), 0 ≤ lo → hi < locs.length → lo ≤ hi + 1 →
      hi - lo + 1 ≤ fuel →
      (∀ (i : Nat) (h : i < locs.length), (i : Int) < lo → (locs.get ⟨i, h⟩).RenderedLine ≤ a) →
      (∀ (i : Nat) (h : i < locs.length), hi < (i : Int) → a < (locs.get ⟨i, h⟩).RenderedLine) →
      (∀ (i j : Nat) (hi : i < locs.length) (hj : j < locs.length), i ≤ j →
        (locs.get ⟨i, hi⟩).RenderedLine ≤ (locs.get ⟨j, hj⟩).RenderedLine) →
      ∃ r : Int, currentHeadingLoop locs a fuel lo hi (lo - 1) = some r ∧ -1 ≤ r ∧
        r < locs.length ∧
        (∀ (i : Nat) (h : i < locs.length), (i : Int) ≤ r → (locs.get ⟨i, h⟩).RenderedLine ≤ a) ∧
        (∀ (i : Nat) (h : i < locs.length), r < (i : Int) → a < (locs.get ⟨i, h⟩).RenderedLine) := by
  intro fuel
  induction fuel with
  | zero =>
    intro lo hi h0 hlen hle hfuel hlow hhigh _
    have hnot : ¬ lo ≤ hi := by omega
    refine ⟨lo - 1, by simp [currentHeadingLoop, hnot], by omega, by omega, ?_, ?_⟩
    · intro i h hi'
      exact hlow i h (by omega)
    · intro i h hi'
      exact hhigh i h (by omega)
  | succ fuel ih =>
    intro lo hi h0 hlen hle hfuel hlow hhigh hsorted
    by_cases hc : lo ≤ hi
    · have hmid : (lo + hi).tdiv 2 = (lo + hi) / 2 := Int.tdiv_eq_ediv (by omega) (by omega)
      have hm0 : 0 ≤ (lo + hi) / 2 := by omega
      have hm1 : (lo + hi) / 2 < locs.length := by omega
      obtain ⟨n, hn⟩ : ∃ n : Nat, (lo + hi) / 2 = (n : Int) := ⟨((lo + hi) / 2).toNat, by omega⟩
      have hnlt : n < locs.length := by omega
      have hget := idx?_eq_some locs n hnlt
      unfold currentHeadingLoop
      simp only [hc, if_true, hmid, hn, hget]
      by_cases hv : (locs.get ⟨n, hnlt⟩).RenderedLine ≤ a
      · simp only [hv, if_true]
        have := ih ((n : Int) + 1) hi (by omega) hlen (by omega) (by omega)
          (by
            intro i h hi'
            exact le_trans (hsorted i n h hnlt (by omega)) hv)
          hhigh hsorted
        simpa using this
      · simp only [hv, if_false]
        have := ih lo ((n : Int) - 1) h0 (by omega) (by omega) (by omega) hlow
          (by
            intro i h hi'
            have := hsorted n i hnlt h (by omega)
            omega)
          hsorted
        exact this
    · refine ⟨lo - 1, by simp [currentHeadingLoop, hc], by omega, by omega, ?_, ?_⟩
      · intro i h hi'
        exact hlow i h (by omega)
      · intro i h hi'
        exact hhigh i h (by omega)

/-- C7. For every location list whose rendered lines are non-decreasing and every
anchor line `≥ 0`, `currentHeadingIndex` returns (without failing) an index `r`
with `-1 ≤ r < len(locs)` such that exactly the entries at indices `≤ r` have
`RenderedLine ≤ anchorLine`: `r` is the largest qualifying index, and `r = -1`
when no entry qualifies (in particular for the empty list). For locations at
`0, 10, 20` the anchors `0, 15, 100` give `0, 1, 2`. -/
theorem currentHeadingIndex_spec (locs : List headingLoc) (anchorLine : Int)
    (hsorted : locs.Pairwise (fun x y => x.RenderedLine ≤ y.RenderedLine))
    (hanchor : 0 ≤ anchorLine) :
    (∃ r : Int, currentHeadingIndex locs anchorLine = some r ∧ -1 ≤ r ∧ r < locs.length ∧
      (∀ (i : Nat) (h : i < locs.length),
        (locs.get ⟨i, h⟩).RenderedLine ≤ anchorLine ↔ (i : Int) ≤ r)) ∧
    (locs = [] → currentHeadingIndex locs anchorLine = some (-1)) ∧
    (let l3 : List headingLoc :=
        [⟨⟨1, ['A'], 0⟩, 0⟩, ⟨⟨2, ['B'], 1⟩, 10⟩, ⟨⟨2, ['C'], 2⟩, 20⟩]
     currentHeadingIndex l3 0 = some 0 ∧ currentHeadingIndex l3 15 = some 1 ∧
       currentHeadingIndex l3 100 = some 2) := by
  refine ⟨?_, ?_, by decide⟩
  · by_cases hlen : locs.length = 0
    · refine ⟨-1, by simp [currentHeadingIndex, hlen], by omega, by omega, ?_⟩
      intro i h
      omega
    · have hs : ∀ (i j : Nat) (hi : i < locs.length) (hj : j < locs.length), i ≤ j →
          (locs.get ⟨i, hi⟩).RenderedLine ≤ (locs.get ⟨j, hj⟩).RenderedLine := by
        intro i j hi hj hij
        rcases Nat.lt_or_eq_of_le hij with hlt | heq
        · exact (List.pairwise_iff_get.mp hsorted) ⟨i, hi⟩ ⟨j, hj⟩ hlt
        · subst heq
          exact le_refl _
      have hneg : ¬ anchorLine < 0 := by omega
      obtain ⟨r, hr, h1, h2, h3, h4⟩ := currentHeadingLoop_spec locs anchorLine locs.length 0
        ((locs.length : Int) - 1) (by omega) (by omega) (by omega) (by omega)
        (by intro i h hi; omega) (by intro i h hi; omega) hs
      refine ⟨r, ?_, h1, h2, ?_⟩
      · simpa [currentHeadingIndex, hlen, hneg] using hr
      · intro i h
        constructor
        · intro hle
          by_contra hcon
          have := h4 i h (by omega)
          omega
        · exact h3 i h
  · intro hnil
    subst hnil
    rfl

theorem currentHeadingIndex_spec_witness :
    ∃ r : Int, currentHeadingIndex [⟨⟨1, ['A'], 0⟩, 3⟩, ⟨⟨2, ['B'], 1⟩, 8⟩] 5 = some r ∧
      -1 ≤ r ∧ r < ([⟨⟨1, ['A'], 0⟩, 3⟩, ⟨⟨2, ['B'], 1⟩, 8⟩] : List headingLoc).length ∧
      (∀ (i : Nat) (h : i < ([⟨⟨1, ['A'], 0⟩, 3⟩, ⟨⟨2, ['B'], 1⟩, 8⟩] : List headingLoc).length),
        (([⟨⟨1, ['A'], 0⟩, 3⟩, ⟨⟨2, ['B'], 1⟩, 8⟩] : List headingLoc).get ⟨i, h⟩).RenderedLine ≤ 5 ↔
          (i : Int) ≤ r) :=
  (currentHeadingIndex_spec [⟨⟨1, ['A'], 0⟩, 3⟩, ⟨⟨2, ['B'], 1⟩, 8⟩] 5
    (by decide) (by decide)).1


/-! ## heading_nav.go: breadcrumb -/

theorem breadcrumbLoop_spec (locs : List headingLoc) :
    ∀ (n : Nat) (level : Int) (chain : List headingLoc) (p : Nat) (js : List Nat)
      (lp : headingLoc),
      List.Forall₂ (fun c j => locs[j]? = some c) chain.reverse (p :: js) →
      locs[p]? = some lp → lp.Heading.Level = level → n ≤ p →
      List.Chain' (NearestParent locs) (p :: js) →
      (∀ (t : Nat) (l : headingLoc), n ≤ t → t < p → locs[t]? = some l →
        level ≤ l.Heading.Level) →
      ∃ (chain' : List headingLoc) (q : Nat) (js' : List Nat) (lq : headingLoc),
        breadcrumbLoop locs n level chain = some chain' ∧
        List.Forall₂ (fun c j => locs[j]? = some c) chain'.reverse (q :: js') ∧
        List.Chain' (NearestParent locs) (q :: js') ∧
        (q :: js').getLast? = (p :: js).getLast? ∧
        chain'.head? = chain.head? ∧
        locs[q]? = some lq ∧
        (lq.Heading.Level ≤ 1 ∨
          ∀ (t : Nat) (l : headingLoc), t < q → locs[t]? = some l →
            lq.Heading.Level ≤ l.Heading.Level) := by
  intro n
  induction n with
  | zero =>
    intro level chain p js lp hf hp hlev _ hch hlow
    refine ⟨chain, p, js, lp, rfl, hf, hch, rfl, rfl, hp, Or.inr ?_⟩
    intro t l ht hl
    rw [hlev]
    exact hlow t l (Nat.zero_le _) ht hl
  | succ n ih =>
    intro level chain p js lp hf hp hlev hnp hch hlow
    by_cases hl1 : level > 1
    · have hplt : p < locs.length := by
        rcases Nat.lt_or_ge p locs.length with h | h
        · exact h
        · rw [List.getElem?_eq_none h] at hp
          cases hp
      have hnlt : n < locs.length := by omega
      have hn : locs[n]? = some (locs.get ⟨n, hnlt⟩) := List.getElem?_eq_getElem hnlt
      unfold breadcrumbLoop
      simp only [hl1, if_true, hn]
      by_cases hlt : (locs.get ⟨n, hnlt⟩).Heading.Level < level
      · simp only [hlt, if_true]
        have hf' : List.Forall₂ (fun c j => locs[j]? = some c)
            (chain ++ [locs.get ⟨n, hnlt⟩]).reverse (n :: p :: js) := by
          rw [List.reverse_append]
          exact List.Forall₂.cons hn hf
        have hch' : List.Chain' (NearestParent locs) (n :: p :: js) := by
          rw [List.chain'_cons]
          refine ⟨⟨by omega, _, lp, hn, hp, by rw [hlev]; exact hlt, ?_⟩, hch⟩
          intro t l h1 h2 h3
          rw [hlev]
          exact hlow t l (by omega) h2 h3
        obtain ⟨chain', q, js', lq, h1, h2, h3, h4, h5, h6, h7⟩ :=
          ih (locs.get ⟨n, hnlt⟩).Heading.Level (chain ++ [locs.get ⟨n, hnlt⟩]) n (p :: js)
            (locs.get ⟨n, hnlt⟩) hf' hn rfl (le_refl _) hch'
            (by intro t l h1 h2; omega)
        refine ⟨chain', q, js', lq, h1, h2, h3, ?_, ?_, h6, h7⟩
        · rw [h4]
          simp [List.getLast?_cons_cons]
        · rw [h5]
          cases chain with
          | nil => simp at hf
          | cons c cs => simp
      · simp only [hlt, if_false]
        exact ih level chain p js lp hf hp hlev (by omega) hch
          (by
            intro t l h1 h2 h3
            rcases Nat.lt_or_ge t (n + 1) with h | h
            · have : t = n := by omega
              subst this
              rw [hn] at h3
              cases h3
              omega
            · exact hlow t l h h2 h3)
    · refine ⟨chain, p, js, lp, ?_, hf, hch, rfl, rfl, hp, Or.inl (by omega)⟩
      unfold breadcrumbLoop
      simp [hl1]

theorem forall₂_level_chain (locs : List headingLoc) :
    ∀ (chain : List headingLoc) (js : List Nat),
      List.Forall₂ (fun c j => locs[j]? = some c) chain js →
      List.Chain' (NearestParent locs) js →
      List.Chain' (fun a b : headingLoc => a.Heading.Level < b.Heading.Level) chain := by
  intro chain js hf
  induction hf with
  | nil => intro _; exact List.chain'_nil
  | cons h1 hrest ih =>
    rename_i c j cs js'
    intro hch
    cases hrest with
    | nil => exact List.chain'_singleton _
    | cons h2 hrest' =>
      rename_i c2 j2 cs2 js2
      rw [List.chain'_cons] at hch ⊢
      refine ⟨?_, ih hch.2⟩
      obtain ⟨_, lj, lk, e1, e2, hlt, _⟩ := hch.1
      rw [h1] at e1
      rw [h2] at e2
      cases e1
      cases e2
      exact hlt

/-- C8. For a valid index `idx`, `breadcrumbForIndex` returns (without failing) a
chain that sits at strictly increasing positions `js` of the list, the last
being `idx` (so the chain ends with `locs[idx]`); levels increase strictly from
first to last; each element other than the last is the nearest earlier entry
whose level is strictly lower than its successor's; and the first element has
level `≤ 1` or no earlier entry has a lower level. For an index outside the list
the chain is empty, and for levels H1, H2, H3, H2b and `idx = 2` the chain is
`[H1, H2, H3]`. -/
theorem breadcrumbForIndex_spec (locs : List headingLoc) (idx : Int) :
    ((0 ≤ idx ∧ idx < locs.length) →
      ∃ (chain : List headingLoc) (js : List Nat),
        breadcrumbForIndex locs idx = some chain ∧
        List.Forall₂ (fun c j => locs[j]? = some c) chain js ∧
        js.getLast? = some idx.toNat ∧
        chain.getLast? = locs[idx.toNat]? ∧
        chain.Pairwise (fun a b => a.Heading.Level < b.Heading.Level) ∧
        js.Chain' (NearestParent locs) ∧
        (∀ (q : Nat) (lq : headingLoc), js.head? = some q → locs[q]? = some lq →
          lq.Heading.Level ≤ 1 ∨
            ∀ (t : Nat) (l : headingLoc), t < q → locs[t]? = some l →
              lq.Heading.Level ≤ l.Heading.Level)) ∧
    ((idx < 0 ∨ idx ≥ locs.length) → breadcrumbForIndex locs idx = some []) ∧
    (let h1 : headingLoc := ⟨⟨1, ['H', '1'], 0⟩, 0⟩
     let h2 : headingLoc := ⟨⟨2, ['H', '2'], 1⟩, 5⟩
     let h3 : headingLoc := ⟨⟨3, ['H', '3'], 2⟩, 10⟩
     let h2b : headingLoc := ⟨⟨2, ['H', '2', 'b'], 3⟩, 15⟩
     breadcrumbForIndex [h1, h2, h3, h2b] 2 = some [h1, h2, h3]) := by
  refine ⟨?_, ?_, by decide⟩
  · rintro ⟨h0, hlen⟩
    obtain ⟨n, rfl⟩ : ∃ n : Nat, idx = (n : Int) := ⟨idx.toNat, by omega⟩
    have hn : n < locs.length := by omega
    have hget : locs[n]? = some (locs.get ⟨n, hn⟩) := List.getElem?_eq_getElem hn
    obtain ⟨chain', q, js', lq, e1, e2, e3, e4, e5, e6, e7⟩ :=
      breadcrumbLoop_spec locs n (locs.get ⟨n, hn⟩).Heading.Level [locs.get ⟨n, hn⟩] n []
        (locs.get ⟨n, hn⟩) (by simp [hget]) hget rfl (le_refl _)
        (List.chain'_singleton _) (by intro t l h1 h2; omega)
    have hcond : ¬ ((n : Int) < 0 ∨ (n : Int) ≥ locs.length) := by omega
    refine ⟨chain'.reverse, q :: js', ?_, e2, ?_, ?_, ?_, e3, ?_⟩
    · unfold breadcrumbForIndex
      simp only [hcond, if_false, idx?_eq_some locs n hn, Int.toNat_ofNat, e1]
    · simpa using e4
    · rw [List.getLast?_reverse, e5]
      simp [hget]
    · have hchain := forall₂_level_chain locs _ _ e2 e3
      haveI : IsTrans headingLoc (fun a b => a.Heading.Level < b.Heading.Level) :=
        ⟨fun a b c h1 h2 => lt_trans h1 h2⟩
      exact (List.chain'_iff_pairwise
        (R := fun a b : headingLoc => a.Heading.Level < b.Heading.Level)).mp hchain
    · intro q' lq' hq hl
      simp only [List.head?_cons, Option.some.injEq] at hq
      subst hq
      rw [e6] at hl
      cases hl
      exact e7
  · intro h
    unfold breadcrumbForIndex
    simp [h]

theorem breadcrumbForIndex_spec_witness :
    ∃ (chain : List headingLoc) (js : List Nat),
      breadcrumbForIndex [⟨⟨1, ['a'], 0⟩, 0⟩, ⟨⟨2, ['b'], 1⟩, 5⟩, ⟨⟨2, ['c'], 2⟩, 9⟩] 2 =
        some chain ∧
      js.getLast? = some 2 ∧
      chain.Pairwise (fun a b => a.Heading.Level < b.Heading.Level) :=
  have h := (breadcrumbForIndex_spec
    [⟨⟨1, ['a'], 0⟩, 0⟩, ⟨⟨2, ['b'], 1⟩, 5⟩, ⟨⟨2, ['c'], 2⟩, 9⟩] 2).1 (by decide)
  match h with
  | ⟨chain, js, e1, _, e3, _, e5, _, _⟩ => ⟨chain, js, e1, e3, e5⟩


/-! ## toc.go: heading extraction -/

theorem countPrefix_eq_takeWhile (t : Str) :
    countPrefix t '#' = ((t.takeWhile (fun c => c == '#')).length : Int) := by
  induction t with
  | nil => rfl
  | cons c cs ih =>
    by_cases h : c = '#'
    · simp [countPrefix, List.takeWhile_cons, h, ih]
    · simp [countPrefix, List.takeWhile_cons, h]

theorem hasPrefix_take (t p : Str) (h : hasPrefix t p = true) : t.take p.length = p := by
  unfold hasPrefix at h
  have h' : p <+: t := List.isPrefixOf_iff_prefix.mp h
  exact List.prefix_iff_eq_take.mp h' |>.symm

theorem isFenceLine_take (t : Str) (h : isFenceLine t = true) :
    t.take 3 = ['`', '`', '`'] ∨ t.take 3 = ['~', '~', '~'] := by
  unfold isFenceLine at h
  rw [Bool.or_eq_true] at h
  rcases h with h | h
  · exact Or.inl (hasPrefix_take t _ h)
  · exact Or.inr (hasPrefix_take t _ h)

theorem isFenceLine_not_hash (t : Str) (h : isFenceLine t = true) :
    t.takeWhile (fun c => c == '#') = [] := by
  rcases isFenceLine_take t h with h3 | h3
  · match t, h3 with
    | c :: _, h3 =>
      have hc : c = '`' := by
        simp only [List.take] at h3
        exact (List.cons.inj h3).1
      subst hc
      rfl
  · match t, h3 with
    | c :: _, h3 =>
      have hc : c = '~' := by
        simp only [List.take] at h3
        exact (List.cons.inj h3).1
      subst hc
      rfl

theorem headingOfLine_fence (i : Int) (ln : Str) (h : isFenceLine (trimSpace ln) = true) :
    headingOfLine i ln = none := by
  unfold headingOfLine
  simp [isFenceLine_not_hash _ h]


theorem takeWhile_hash_nil (t : Str) (h : hasPrefix t ['#'] = false) :
    t.takeWhile (fun c => c == '#') = [] := by
  cases t with
  | nil => rfl
  | cons c cs =>
    have hc : c ≠ '#' := by
      intro hc
      subst hc
      simp [hasPrefix, List.isPrefixOf] at h
    simp [List.takeWhile_cons, hc]

theorem parseHeadingsLoop_step (ln : Str) (rest : List Str) (i : Int) (inFence : Bool)
    (fence : Str) (hs : List heading) (st : Option Str) (henc : FenceEnc st inFence fence) :
    ∃ (inFence' : Bool) (fence' : Str), FenceEnc (fenceStep st ln) inFence' fence' ∧
      parseHeadingsLoop (ln :: rest) i inFence fence hs =
        parseHeadingsLoop rest (i + 1) inFence' fence'
          (hs ++ (if st = none then headingOfLine i ln else none).toList) := by
  rcases henc with ⟨hst, hin⟩ | ⟨hst, hin, hf⟩
  · subst hst
    subst hin
    by_cases hfl : isFenceLine (trimSpace ln) = true
    · refine ⟨true, (trimSpace ln).take 3, ?_, ?_⟩
      · right
        refine ⟨?_, rfl, isFenceLine_take _ hfl⟩
        unfold isFenceLine at hfl
        simp [fenceStep, hfl]
      · rw [parseHeadingsLoop]
        simp [hfl, headingOfLine_fence i ln hfl]
    · have hfl' : isFenceLine (trimSpace ln) = false := by simpa using hfl
      refine ⟨false, fence, ?_, ?_⟩
      · left
        refine ⟨?_, rfl⟩
        unfold isFenceLine at hfl'
        simp [fenceStep, hfl']
      · rw [parseHeadingsLoop]
        simp only [hfl', Bool.false_eq_true, if_false, if_true]
        by_cases hp : hasPrefix (trimSpace ln) ['#'] = true
        · simp only [hp, Bool.not_true, Bool.false_eq_true, if_false]
          rw [countPrefix_eq_takeWhile]
          unfold headingOfLine
          simp only [Int.toNat_ofNat]
          by_cases hn : 1 ≤ ((trimSpace ln).takeWhile (fun c => c == '#')).length ∧
              ((trimSpace ln).takeWhile (fun c => c == '#')).length ≤ 6
          · have hn' : ¬ ((((trimSpace ln).takeWhile (fun c => c == '#')).length : Int) < 1 ∨
                (((trimSpace ln).takeWhile (fun c => c == '#')).length : Int) > 6) := by omega
            simp only [hn', if_false]
            by_cases hr : trimSpace ((trimSpace ln).drop
                ((trimSpace ln).takeWhile (fun c => c == '#')).length) = []
            · simp [hr]
            · simp [hr, hn]
          · have hn' : ((((trimSpace ln).takeWhile (fun c => c == '#')).length : Int) < 1 ∨
                (((trimSpace ln).takeWhile (fun c => c == '#')).length : Int) > 6) := by omega
            have hn2 : ¬ (1 ≤ ((trimSpace ln).takeWhile (fun c => c == '#')).length ∧
              ((trimSpace ln).takeWhile (fun c => c == '#')).length ≤ 6 ∧
              trimSpace ((trimSpace ln).drop
                ((trimSpace ln).takeWhile (fun c => c == '#')).length) ≠ []) := by
              intro h
              exact hn ⟨h.1, h.2.1⟩
            simp only [hn', if_true, hn2, if_false]
            simp
        · have hp' : hasPrefix (trimSpace ln) ['#'] = false := by simpa using hp
          simp only [hp', Bool.not_false, if_true]
          unfold headingOfLine
          simp [takeWhile_hash_nil _ hp']
  · subst hst
    subst hin
    have hne : fence ≠ [] := by
      rcases hf with hf | hf <;> (rw [hf]; simp)
    have himp : hasPrefix (trimSpace ln) fence = true → isFenceLine (trimSpace ln) = true := by
      intro h
      unfold isFenceLine
      rcases hf with hf | hf <;> (rw [hf] at h; simp [h])
    by_cases hp : hasPrefix (trimSpace ln) fence = true
    · refine ⟨false, [], ?_, ?_⟩
      · left
        simp [fenceStep, hp]
      · rw [parseHeadingsLoop]
        simp [himp hp, hp, hne]
    · have hp' : hasPrefix (trimSpace ln) fence = false := by simpa using hp
      refine ⟨true, fence, ?_, ?_⟩
      · right
        refine ⟨?_, rfl, hf⟩
        simp [fenceStep, hp']
      · rw [parseHeadingsLoop]
        by_cases hfl : isFenceLine (trimSpace ln) = true
        · simp [hfl, hp']
        · have hfl' : isFenceLine (trimSpace ln) = false := by simpa using hfl
          simp [hfl']

theorem fenceBefore_append (pre rest : List Str) :
    fenceBefore (pre ++ rest) pre.length = pre.foldl fenceStep none := by
  unfold fenceBefore
  rw [List.take_left']
  rfl

theorem parseHeadingsLoop_spec :
    ∀ (rest pre : List Str) (inFence : Bool) (fence : Str) (hs : List heading),
      FenceEnc (pre.foldl fenceStep none) inFence fence →
      hs = (List.range pre.length).filterMap (specHeadingAt (pre ++ rest)) →
      parseHeadingsLoop rest pre.length inFence fence hs = specHeadings (pre ++ rest) := by
  intro rest
  induction rest with
  | nil =>
    intro pre inFence fence hs _ hhs
    rw [parseHeadingsLoop, hhs]
    simp [specHeadings]
  | cons ln rest ih =>
    intro pre inFence fence hs henc hhs
    obtain ⟨inFence', fence', henc', hstep⟩ :=
      parseHeadingsLoop_step ln rest pre.length inFence fence hs _ henc
    rw [hstep]
    have hall : pre ++ ln :: rest = (pre ++ [ln]) ++ rest := by simp
    have hlen : ((pre.length : Int) + 1) = ((pre ++ [ln]).length : Int) := by simp
    rw [hlen, hall]
    apply ih
    · rw [List.foldl_append]
      exact henc'
    · rw [hhs, List.length_append, List.length_singleton, List.range_succ,
        List.filterMap_append, ← hall]
      congr 1
      have hget : (pre ++ ln :: rest)[pre.length]? = some ln := by
        rw [List.getElem?_append_right (le_refl _)]
        simp
      simp only [List.filterMap_cons, List.filterMap_nil, specHeadingAt, hget,
        fenceBefore_append]
      by_cases hst : pre.foldl fenceStep none = none
      · simp only [hst, if_true]
        cases headingOfLine (pre.length : Int) ln <;> rfl
      · simp [hst]

theorem parseHeadings_eq_spec (md : Str) :
    parseHeadings md = specHeadings (splitNL (replaceCRLF md)) := by
  unfold parseHeadings
  have := parseHeadingsLoop_spec (splitNL (replaceCRLF md)) [] false [] []
    (Or.inl ⟨rfl, rfl⟩) rfl
  simpa using this

theorem mem_specHeadings (lines : List Str) (h : heading) :
    h ∈ specHeadings lines ↔
      ∃ (k : Nat) (ln : Str), lines[k]? = some ln ∧ fenceBefore lines k = none ∧
        headingOfLine k ln = some h := by
  unfold specHeadings
  rw [List.mem_filterMap]
  constructor
  · rintro ⟨k, _, hk⟩
    unfold specHeadingAt at hk
    cases hl : lines[k]? with
    | none => simp [hl] at hk
    | some ln =>
      simp only [hl] at hk
      by_cases hf : fenceBefore lines k = none
      · simp only [hf, if_true] at hk
        exact ⟨k, ln, hl, hf, hk⟩
      · simp [hf] at hk
  · rintro ⟨k, ln, hl, hf, hh⟩
    refine ⟨k, ?_, ?_⟩
    · rw [List.mem_range]
      rcases Nat.lt_or_ge k lines.length with h' | h'
      · exact h'
      · rw [List.getElem?_eq_none h'] at hl
        cases hl
    · simp [specHeadingAt, hl, hf, hh]

theorem headingOfLine_line (i : Int) (ln : Str) (h : heading)
    (hh : headingOfLine i ln = some h) :
    h.Line = i ∧ 1 ≤ h.Level ∧ h.Level ≤ 6 ∧ h.Text ≠ [] := by
  unfold headingOfLine at hh
  simp only at hh
  split at hh
  · rename_i hc
    cases hh
    refine ⟨rfl, ?_, ?_, hc.2.2⟩
    · simp only
      omega
    · simp only
      omega
  · cases hh

theorem specHeadings_sorted (lines : List Str) :
    (specHeadings lines).Pairwise (fun a b => a.Line < b.Line) := by
  unfold specHeadings
  rw [List.pairwise_filterMap]
  refine List.Pairwise.imp ?_ (List.pairwise_lt_range lines.length)
  intro a b hab x hx y hy
  have hxa : x.Line = a := by
    unfold specHeadingAt at hx
    cases hl : lines[a]? with
    | none => simp [hl] at hx
    | some ln =>
      simp only [hl] at hx
      split at hx
      · exact (headingOfLine_line _ _ _ hx).1
      · cases hx
  have hyb : y.Line = b := by
    unfold specHeadingAt at hy
    cases hl : lines[b]? with
    | none => simp [hl] at hy
    | some ln =>
      simp only [hl] at hy
      split at hy
      · exact (headingOfLine_line _ _ _ hy).1
      · cases hy
  rw [hxa, hyb]
  exact_mod_cast hab

theorem trimSpace_eq_rdropWhile (s : Str) :
    trimSpace s = (s.dropWhile isSpace).rdropWhile isSpace := rfl

theorem trimSpace_idem (s : Str) : trimSpace (trimSpace s) = trimSpace s := by
  have hpre : (s.dropWhile isSpace).rdropWhile isSpace <+: s.dropWhile isSpace :=
    List.rdropWhile_prefix isSpace _
  have h1 : (trimSpace s).dropWhile isSpace = trimSpace s := by
    rw [trimSpace_eq_rdropWhile]
    cases hu : (s.dropWhile isSpace).rdropWhile isSpace with
    | nil => rfl
    | cons c cs =>
      rw [hu] at hpre
      obtain ⟨t, ht⟩ := hpre
      have hhead : (s.dropWhile isSpace).head? = some c := by
        rw [← ht]
        rfl
      have hnot := List.head?_dropWhile_not isSpace s
      rw [hhead] at hnot
      simp only at hnot
      simp [List.dropWhile_cons, hnot]
  rw [trimSpace_eq_rdropWhile (trimSpace s), h1, trimSpace_eq_rdropWhile,
    List.rdropWhile_idempotent]

theorem headingOfLine_trimmed (i : Int) (ln : Str) (h : heading)
    (hh : headingOfLine i ln = some h) : trimSpace h.Text = h.Text := by
  unfold headingOfLine at hh
  simp only at hh
  split at hh
  · cases hh
    exact trimSpace_idem _
  · cases hh

/-- C2. Every heading reported by `parseHeadings` comes from a line that is
reached with the fence state off and that is not itself a fence delimiter, where
the fence state starts off, is turned on by a line whose trimmed text starts
with three backticks or three tildes (remembering them) and is turned off only
by a later line whose trimmed text starts with the remembered characters. The
test document yields exactly the headings `A` (level 1) and `B` (level 2). -/
theorem parseHeadings_fence_exclusion (md : Str) :
    (∀ h ∈ parseHeadings md, ∃ (k : Nat) (ln : Str), h.Line = k ∧
      (splitNL (replaceCRLF md))[k]? = some ln ∧
      fenceBefore (splitNL (replaceCRLF md)) k = none ∧
      isFenceLine (trimSpace ln) = false) ∧
    parseHeadings "# A\n\n```go\n# not a heading\n```\n\n## B\n".data =
      [{ Level := 1, Text := ['A'], Line := 0 }, { Level := 2, Text := ['B'], Line := 6 }] := by
  refine ⟨?_, by decide⟩
  intro h hmem
  rw [parseHeadings_eq_spec, mem_specHeadings] at hmem
  obtain ⟨k, ln, hl, hf, hh⟩ := hmem
  refine ⟨k, ln, (headingOfLine_line _ _ _ hh).1, hl, hf, ?_⟩
  by_contra hcon
  have hfl : isFenceLine (trimSpace ln) = true := by simpa using hcon
  rw [headingOfLine_fence _ _ hfl] at hh
  cases hh

theorem parseHeadings_fence_exclusion_witness :
    ∃ (k : Nat) (ln : Str), (0 : Int) = k ∧
      (splitNL (replaceCRLF "# A\n```\n# x\n```\n".data))[k]? = some ln ∧
      fenceBefore (splitNL (replaceCRLF "# A\n```\n# x\n```\n".data)) k = none ∧
      isFenceLine (trimSpace ln) = false :=
  (parseHeadings_fence_exclusion "# A\n```\n# x\n```\n".data).1
    { Level := 1, Text := ['A'], Line := 0 } (by decide)

/-- C3. `parseHeadings` is total and returns exactly the headings the
specification recognises: one for each line reached with the fence state off
whose trimmed text starts with exactly `n` characters `#`, `1 ≤ n ≤ 6`, followed
by a remainder that is not empty after trimming, with level `n`, the trimmed
remainder as text and the 0-based line index as source line; in strictly
ascending source-line order, and nothing else, so every heading has its level
in `[1, 6]` and a non-empty trimmed text. -/
theorem parseHeadings_recognition (md : Str) :
    parseHeadings md = specHeadings (splitNL (replaceCRLF md)) ∧
    (∀ h : heading, h ∈ parseHeadings md ↔
      ∃ (k : Nat) (ln : Str), (splitNL (replaceCRLF md))[k]? = some ln ∧
        fenceBefore (splitNL (replaceCRLF md)) k = none ∧
        headingOfLine k ln = some h) ∧
    (parseHeadings md).Pairwise (fun a b => a.Line < b.Line) ∧
    (∀ h ∈ parseHeadings md,
      1 ≤ h.Level ∧ h.Level ≤ 6 ∧ h.Text ≠ [] ∧ trimSpace h.Text = h.Text) := by
  refine ⟨parseHeadings_eq_spec md, ?_, ?_, ?_⟩
  · intro h
    rw [parseHeadings_eq_spec, mem_specHeadings]
  · rw [parseHeadings_eq_spec]
    exact specHeadings_sorted _
  · intro h hmem
    rw [parseHeadings_eq_spec, mem_specHeadings] at hmem
    obtain ⟨k, ln, _, _, hh⟩ := hmem
    have h1 := headingOfLine_line _ _ _ hh
    exact ⟨h1.2.1, h1.2.2.1, h1.2.2.2, headingOfLine_trimmed _ _ _ hh⟩

theorem parseHeadings_recognition_witness :
    1 ≤ (3 : Int) ∧ (3 : Int) ≤ 6 ∧ ['T'] ≠ ([] : Str) ∧ trimSpace ['T'] = ['T'] :=
  (parseHeadings_recognition " ### T \n".data).2.2.2
    { Level := 3, Text := ['T'], Line := 0 } (by decide)


/-! ## heading_nav.go: the heading locator -/

theorem strContains_iff (s sub : Str) : strContains s sub = true ↔ sub <:+: s := by
  induction s with
  | nil =>
    cases sub with
    | nil => simp [strContains]
    | cons c cs => simp [strContains]
  | cons c cs ih =>
    rw [strContains, Bool.or_eq_true, ih, List.infix_cons_iff]
    unfold hasPrefix
    rw [List.isPrefixOf_iff_prefix]

theorem idx?_natCast {α : Type} (xs : List α) (n : Nat) : idx? xs (n : Int) = xs[n]? := by
  unfold idx?
  have : ¬ ((n : Int) < 0) := by omega
  simp [this]

theorem idx?_some_range {α : Type} (xs : List α) (i : Int) (x : α) (h : idx? xs i = some x) :
    0 ≤ i ∧ i < xs.length := by
  unfold idx? at h
  by_cases h0 : i < 0
  · simp [h0] at h
  · simp only [h0, if_false] at h
    have := (List.getElem?_eq_some_iff.mp h).1
    omega

theorem scanFrom_drop (p : Str → Bool) (q : Str → Prop) (hpq : ∀ ln, p ln = true ↔ q ln)
    (plain : List Str) :
    ∀ (l : List Str) (n : Nat), l = plain.drop n →
      (scanFrom p l n = -1 ∧
        ∀ (i : Int) (ln : Str), (n : Int) ≤ i → idx? plain i = some ln → ¬ q ln) ∨
      (scanFrom p l n ≠ -1 ∧ IsFirstFrom q plain n (scanFrom p l n)) := by
  intro l
  induction l with
  | nil =>
    intro n hl
    left
    refine ⟨rfl, ?_⟩
    intro i ln hi hget
    exfalso
    have hr := idx?_some_range _ _ _ hget
    have hlen : plain.length ≤ n := by
      have := congrArg List.length hl
      simp at this
      omega
    omega
  | cons x l ih =>
    intro n hl
    have hx : plain[n]? = some x := by
      have := congrArg List.head? hl
      simp only [List.head?_cons, List.head?_drop] at this
      exact this.symm
    have hl' : l = plain.drop (n + 1) := by
      have := congrArg List.tail hl
      simp only [List.tail_cons, List.tail_drop] at this
      exact this
    by_cases hp : p x = true
    · right
      have hs : scanFrom p (x :: l) n = n := by simp [scanFrom, hp]
      rw [hs]
      refine ⟨by omega, le_refl _, ⟨x, ?_, (hpq x).mp hp⟩, ?_⟩
      · rw [idx?_natCast]
        exact hx
      · intro i ln h1 h2
        omega
    · have hs : scanFrom p (x :: l) n = scanFrom p l ((n : Int) + 1) := by simp [scanFrom, hp]
      have hcast : ((n : Int) + 1) = ((n + 1 : Nat) : Int) := by simp
      rw [hs, hcast]
      have hnq : ¬ q x := fun h => hp ((hpq x).mpr h)
      rcases ih (n + 1) hl' with ⟨h1, h2⟩ | ⟨h1, h2, h3, h4⟩
      · left
        refine ⟨h1, ?_⟩
        intro i ln hi hget
        by_cases hin : i = n
        · subst hin
          rw [idx?_natCast, hx] at hget
          cases hget
          exact hnq
        · exact h2 i ln (by omega) hget
      · right
        refine ⟨h1, by omega, h3, ?_⟩
        intro i ln hi hlt hget
        by_cases hin : i = n
        · subst hin
          rw [idx?_natCast, hx] at hget
          cases hget
          exact hnq
        · exact h4 i ln (by omega) hlt hget

theorem scanFrom_spec (p : Str → Bool) (q : Str → Prop) (hpq : ∀ ln, p ln = true ↔ q ln)
    (plain : List Str) (c : Int) (hc : 0 ≤ c) :
    (scanFrom p (plain.drop c.toNat) c = -1 ∧
      ∀ (i : Int) (ln : Str), c ≤ i → idx? plain i = some ln → ¬ q ln) ∨
    (scanFrom p (plain.drop c.toNat) c ≠ -1 ∧
      IsFirstFrom q plain c (scanFrom p (plain.drop c.toNat) c)) := by
  obtain ⟨n, rfl⟩ : ∃ n : Nat, c = (n : Int) := ⟨c.toNat, by omega⟩
  simpa using scanFrom_drop p q hpq plain (plain.drop n) n rfl

theorem headingLocsLoop_step (lowerRune : Char → Char) (plain : List Str) (h : heading)
    (hs : List heading) (c : Int) (out : List headingLoc) (hc : 0 ≤ c) :
    (Dropped lowerRune plain c h ∧
      headingLocsLoop lowerRune plain (h :: hs) c out = headingLocsLoop lowerRune plain hs c out) ∨
    (∃ r : Int, Located lowerRune plain c h r ∧ ¬ Dropped lowerRune plain c h ∧
      headingLocsLoop lowerRune plain (h :: hs) c out =
        headingLocsLoop lowerRune plain hs (r + 1)
          (out ++ [{ Heading := h, RenderedLine := r }])) := by
  by_cases ht : normalizeText lowerRune h.Text = []
  · left
    refine ⟨Or.inl ht, ?_⟩
    rw [headingLocsLoop]
    simp [ht]
  · have hexact := scanFrom_spec
      (fun ln => normalizeText lowerRune ln == normalizeText lowerRune h.Text)
      (fun ln => normalizeText lowerRune ln = normalizeText lowerRune h.Text)
      (by intro ln; simp) plain c hc
    have hsub := scanFrom_spec
      (fun ln => strContains (normalizeText lowerRune ln) (normalizeText lowerRune h.Text))
      (fun ln => normalizeText lowerRune h.Text <:+: normalizeText lowerRune ln)
      (by intro ln; exact strContains_iff _ _) plain c hc
    rcases hexact with ⟨he1, he2⟩ | ⟨he1, he2⟩
    · have hnoexact : ¬ ExactFrom lowerRune plain c h := by
        rintro ⟨i, ln, h1, h2, h3⟩
        exact he2 i ln h1 h2 h3
      rcases hsub with ⟨hs1, hs2⟩ | ⟨hs1, hs2⟩
      · left
        refine ⟨Or.inr hs2, ?_⟩
        rw [headingLocsLoop]
        simp only [ht, if_false, he1, if_true, hs1]
      · right
        refine ⟨_, ⟨ht, fun hex => absurd hex hnoexact, fun _ => hs2⟩, ?_, ?_⟩
        · rintro (hd | hd)
          · exact ht hd
          · obtain ⟨hc1, ⟨ln, hl1, hl2⟩, _⟩ := hs2
            exact hd _ ln hc1 hl1 hl2
        · rw [headingLocsLoop]
          simp only [ht, if_false, he1, if_true, hs1]
    · right
      have hex : ExactFrom lowerRune plain c h := by
        obtain ⟨h1, ⟨ln, hl1, hl2⟩, _⟩ := he2
        exact ⟨_, ln, h1, hl1, hl2⟩
      refine ⟨_, ⟨ht, fun _ => he2, fun hne => absurd hex hne⟩, ?_, ?_⟩
      · rintro (hd | hd)
        · exact ht hd
        · obtain ⟨i, ln, h1, h2, h3⟩ := hex
          apply hd i ln h1 h2
          rw [h3]
      · rw [headingLocsLoop]
        simp only [ht, if_false, he1]

theorem headingLocsLoop_acc (lowerRune : Char → Char) (plain : List Str) :
    ∀ (hs : List heading) (c : Int) (out : List headingLoc),
      headingLocsLoop lowerRune plain hs c out =
        out ++ headingLocsLoop lowerRune plain hs c [] := by
  intro hs
  induction hs with
  | nil =>
    intro c out
    simp [headingLocsLoop]
  | cons h hs ih =>
    intro c out
    rw [headingLocsLoop, headingLocsLoop]
    simp only
    split_ifs
    · exact ih c out
    · exact ih c out
    · rw [ih _ (out ++ _), ih _ ([] ++ _)]
      simp
    · rw [ih _ (out ++ _), ih _ ([] ++ _)]
      simp

theorem Located.range {lowerRune : Char → Char} {plain : List Str} {c : Int} {h : heading}
    {r : Int} (hl : Located lowerRune plain c h r) : c ≤ r ∧ r < plain.length := by
  obtain ⟨_, h1, h2⟩ := hl
  by_cases hex : ExactFrom lowerRune plain c h
  · obtain ⟨hc, ⟨ln, hget, _⟩, _⟩ := h1 hex
    exact ⟨hc, (idx?_some_range _ _ _ hget).2⟩
  · obtain ⟨hc, ⟨ln, hget, _⟩, _⟩ := h2 hex
    exact ⟨hc, (idx?_some_range _ _ _ hget).2⟩

theorem headingLocsLoop_rel (lowerRune : Char → Char) (plain : List Str) :
    ∀ (hs : List heading) (c : Int), 0 ≤ c →
      LocRel lowerRune plain hs c (headingLocsLoop lowerRune plain hs c []) := by
  intro hs
  induction hs with
  | nil =>
    intro c _
    exact LocRel.done c
  | cons h hs ih =>
    intro c hc
    rcases headingLocsLoop_step lowerRune plain h hs c [] hc with ⟨hd, heq⟩ | ⟨r, hl, _, heq⟩
    · rw [heq]
      exact LocRel.drop h hs c _ hd (ih c hc)
    · rw [heq, headingLocsLoop_acc]
      have hr := hl.range
      exact LocRel.locate h hs c r _ hl (ih (r + 1) (by omega))

theorem headingLocsLoop_nil_plain (lowerRune : Char → Char) :
    ∀ (hs : List heading) (c : Int) (out : List headingLoc),
      headingLocsLoop lowerRune [] hs c out = out := by
  intro hs
  induction hs with
  | nil => intro c out; rfl
  | cons h hs ih =>
    intro c out
    rw [headingLocsLoop]
    simp only [List.drop_nil, scanFrom, if_true]
    split_ifs <;> exact ih c out

theorem computeHeadingLocs_eq_loop (lowerRune : Char → Char) (plain : List Str)
    (hs : List heading) :
    computeHeadingLocsFromRendered lowerRune plain hs = headingLocsLoop lowerRune plain hs 0 [] := by
  unfold computeHeadingLocsFromRendered
  by_cases hp : plain.length = 0
  · have hp' : plain = [] := List.length_eq_zero.mp hp
    subst hp'
    simp only [List.length_nil, true_or, if_true]
    exact (headingLocsLoop_nil_plain lowerRune hs 0 []).symm
  · by_cases hh : hs.length = 0
    · have hh' : hs = [] := List.length_eq_zero.mp hh
      subst hh'
      simp [headingLocsLoop]
    · simp [hp, hh]

theorem computeHeadingLocs_rel (lowerRune : Char → Char) (plain : List Str) (hs : List heading) :
    LocRel lowerRune plain hs 0 (computeHeadingLocsFromRendered lowerRune plain hs) := by
  rw [computeHeadingLocs_eq_loop]
  exact headingLocsLoop_rel lowerRune plain hs 0 (le_refl _)

theorem cursorAfter_nil (c : Int) : cursorAfter c [] = c := rfl

theorem cursorAfter_cons (c : Int) (x : headingLoc) (l : List headingLoc) :
    cursorAfter c (x :: l) = cursorAfter (x.RenderedLine + 1) l := by
  cases l with
  | nil => rfl
  | cons y ys =>
    unfold cursorAfter
    rw [List.getLast?_cons_cons]
    cases h : (y :: ys).getLast? with
    | none => simp at h
    | some l => rfl

theorem LocRel.bounds {lowerRune : Char → Char} {plain : List Str} {hs : List heading}
    {c : Int} {out : List headingLoc} (hrel : LocRel lowerRune plain hs c out) :
    out.Pairwise (fun a b => a.RenderedLine < b.RenderedLine) ∧
      ∀ l ∈ out, c ≤ l.RenderedLine ∧ l.RenderedLine < plain.length := by
  induction hrel with
  | done c => exact ⟨List.Pairwise.nil, by intro l hl; cases hl⟩
  | drop h hs c out _ _ ih => exact ih
  | locate h hs c r out hl _ ih =>
    have hr := hl.range
    refine ⟨List.Pairwise.cons ?_ ih.1, ?_⟩
    · intro l hmem
      have := (ih.2 l hmem).1
      simp only
      omega
    · intro l hmem
      rcases List.mem_cons.mp hmem with heq | hmem'
      · subst heq
        exact hr
      · have := ih.2 l hmem'
        omega

theorem LocRel.located {lowerRune : Char → Char} {plain : List Str} {hs : List heading}
    {c : Int} {out : List headingLoc} (hrel : LocRel lowerRune plain hs c out) :
    ∀ (j : Nat) (hj : j < out.length),
      Located lowerRune plain (cursorAfter c (out.take j)) (out.get ⟨j, hj⟩).Heading
        (out.get ⟨j, hj⟩).RenderedLine := by
  induction hrel with
  | done c => intro j hj; simp at hj
  | drop h hs c out _ _ ih => exact ih
  | locate h hs c r out hl _ ih =>
    intro j hj
    cases j with
    | zero => simpa [cursorAfter_nil] using hl
    | succ j =>
      have hj' : j < out.length := by simpa using hj
      have := ih j hj'
      simpa [List.take_succ_cons, cursorAfter_cons] using this

theorem LocRel.sublist {lowerRune : Char → Char} {plain : List Str} {hs : List heading}
    {c : Int} {out : List headingLoc} (hrel : LocRel lowerRune plain hs c out) :
    (out.map (fun l => l.Heading)).Sublist hs := by
  induction hrel with
  | done c => exact List.Sublist.slnil
  | drop h hs c out _ _ ih => exact List.Sublist.cons h ih
  | locate h hs c r out _ _ ih =>
    simp only [List.map_cons]
    exact List.Sublist.cons₂ h ih

theorem headingLocsLoop_append (lowerRune : Char → Char) (plain : List Str) :
    ∀ (a b : List heading) (c : Int),
      headingLocsLoop lowerRune plain (a ++ b) c [] =
        headingLocsLoop lowerRune plain a c [] ++
          headingLocsLoop lowerRune plain b
            (cursorAfter c (headingLocsLoop lowerRune plain a c [])) [] := by
  intro a
  induction a with
  | nil =>
    intro b c
    simp [headingLocsLoop, cursorAfter_nil]
  | cons h a ih =>
    intro b c
    rw [List.cons_append, headingLocsLoop, headingLocsLoop]
    simp only
    split_ifs
    · exact ih b c
    · exact ih b c
    · rw [headingLocsLoop_acc _ _ (a ++ b), headingLocsLoop_acc _ _ a, ih]
      simp [cursorAfter_cons]
    · rw [headingLocsLoop_acc _ _ (a ++ b), headingLocsLoop_acc _ _ a, ih]
      simp [cursorAfter_cons]

theorem cursorAfter_nonneg (c : Int) (out : List headingLoc) (hc : 0 ≤ c)
    (hout : ∀ l ∈ out, 0 ≤ l.RenderedLine) : 0 ≤ cursorAfter c out := by
  unfold cursorAfter
  cases h : out.getLast? with
  | none => exact hc
  | some l =>
    have := hout l (List.mem_of_getLast?_eq_some h)
    simp only
    omega

theorem scanFrom_congr (p p' : Str → Bool) :
    ∀ (l : List Str) (i : Int), (∀ x ∈ l, p x = p' x) → scanFrom p l i = scanFrom p' l i := by
  intro l
  induction l with
  | nil => intro i _; rfl
  | cons x l ih =>
    intro i h
    rw [scanFrom, scanFrom, h x (List.mem_cons_self _ _),
      ih (i + 1) (fun y hy => h y (List.mem_cons_of_mem _ hy))]

theorem headingLocsLoop_congr (f g : Char → Char) (plain : List Str)
    (hplain : ∀ s ∈ plain, normalizeText f s = normalizeText g s) :
    ∀ (hs : List heading) (c : Int) (out : List headingLoc),
      (∀ h ∈ hs, normalizeText f h.Text = normalizeText g h.Text) →
      headingLocsLoop f plain hs c out = headingLocsLoop g plain hs c out := by
  intro hs
  induction hs with
  | nil => intro c out _; rfl
  | cons h hs ih =>
    intro c out hh
    have ht := hh h (List.mem_cons_self _ _)
    have hrest : ∀ h' ∈ hs, normalizeText f h'.Text = normalizeText g h'.Text :=
      fun h' hm => hh h' (List.mem_cons_of_mem _ hm)
    have h1 : scanFrom (fun ln => normalizeText f ln == normalizeText g h.Text)
        (plain.drop c.toNat) c =
        scanFrom (fun ln => normalizeText g ln == normalizeText g h.Text)
          (plain.drop c.toNat) c := by
      apply scanFrom_congr
      intro x hx
      simp only [hplain x (List.mem_of_mem_drop hx)]
    have h2 : scanFrom (fun ln => strContains (normalizeText f ln) (normalizeText g h.Text))
        (plain.drop c.toNat) c =
        scanFrom (fun ln => strContains (normalizeText g ln) (normalizeText g h.Text))
          (plain.drop c.toNat) c := by
      apply scanFrom_congr
      intro x hx
      simp only [hplain x (List.mem_of_mem_drop hx)]
    rw [headingLocsLoop, headingLocsLoop]
    simp only [ht, h1, h2, ih _ _ hrest]

theorem normalizeText_map (f : Char → Char) (s : Str) :
    normalizeText f s = (normalizeText id s).map f := by
  unfold normalizeText toLower
  simp only
  split
  · rfl
  · simp

theorem normalizeText_ascii (lowerRune : Char → Char)
    (hlow : ∀ c : Char, c.toNat < 128 → lowerRune c = c.toLower) (s : Str)
    (hs : ∀ c ∈ normalizeText id s, c.toNat < 128) :
    normalizeText lowerRune s = normalizeText Char.toLower s := by
  rw [normalizeText_map lowerRune, normalizeText_map Char.toLower]
  apply List.map_congr_left
  intro c hc
  exact hlow c (hs c hc)

theorem computeHeadingLocs_ascii (lowerRune : Char → Char)
    (hlow : ∀ c : Char, c.toNat < 128 → lowerRune c = c.toLower)
    (plain : List Str) (hs : List heading)
    (hplain : ∀ s ∈ plain, ∀ c ∈ normalizeText id s, c.toNat < 128)
    (hhs : ∀ h ∈ hs, ∀ c ∈ normalizeText id h.Text, c.toNat < 128) :
    computeHeadingLocsFromRendered lowerRune plain hs =
      computeHeadingLocsFromRendered Char.toLower plain hs := by
  rw [computeHeadingLocs_eq_loop, computeHeadingLocs_eq_loop]
  exact headingLocsLoop_congr lowerRune Char.toLower plain
    (fun s hs' => normalizeText_ascii lowerRune hlow s (hplain s hs')) hs 0 []
    (fun h hh => normalizeText_ascii lowerRune hlow h.Text (hhs h hh))

/-- C4. For every list of rendered plain lines and every heading list, the
rendered lines produced by `computeHeadingLocsFromRendered` are strictly
increasing (so each rendered line is taken by at most one heading) and each is a
valid index into the plain lines. For any rune lower-casing that acts on ASCII
as Go does, the plain lines `Title, intro, Section A, body, Section B, tail` and
the headings `Title, Section A, Section B` give the rendered lines `0, 2, 4`. -/
theorem computeHeadingLocs_monotone (lowerRune : Char → Char) :
    (∀ (plain : List Str) (hs : List heading),
      (computeHeadingLocsFromRendered lowerRune plain hs).Pairwise
        (fun a b => a.RenderedLine < b.RenderedLine) ∧
      ∀ l ∈ computeHeadingLocsFromRendered lowerRune plain hs,
        0 ≤ l.RenderedLine ∧ l.RenderedLine < plain.length) ∧
    ((∀ c : Char, c.toNat < 128 → lowerRune c = c.toLower) →
      (computeHeadingLocsFromRendered lowerRune
        ["Title".data, "intro".data, "Section A".data, "body".data, "Section B".data,
          "tail".data]
        [{ Level := 1, Text := "Title".data, Line := 0 },
          { Level := 2, Text := "Section A".data, Line := 10 },
          { Level := 2, Text := "Section B".data, Line := 20 }]).map
        (fun l => l.RenderedLine) = [0, 2, 4]) := by
  refine ⟨?_, ?_⟩
  · intro plain hs
    exact (computeHeadingLocs_rel lowerRune plain hs).bounds
  · intro hlow
    rw [computeHeadingLocs_ascii lowerRune hlow _ _ (by decide) (by decide)]
    decide

theorem computeHeadingLocs_monotone_witness :
    (computeHeadingLocsFromRendered Char.toLower
        ["Title".data, "intro".data, "Section A".data, "body".data, "Section B".data,
          "tail".data]
        [{ Level := 1, Text := "Title".data, Line := 0 },
          { Level := 2, Text := "Section A".data, Line := 10 },
          { Level := 2, Text := "Section B".data, Line := 20 }]).map
        (fun l => l.RenderedLine) = [0, 2, 4] :=
  (computeHeadingLocs_monotone Char.toLower).2 (fun _ _ => rfl)

theorem fieldsAux_spaces (ws : Str) (hws : ∀ c ∈ ws, isSpace c = true) :
    ∀ (rest cur : Str), fieldsAux (ws ++ rest) cur =
      if ws = [] then fieldsAux rest cur
      else if cur = [] then fieldsAux rest [] else cur :: fieldsAux rest [] := by
  induction ws with
  | nil =>
    intro rest cur
    simp
  | cons c cs ih =>
    intro rest cur
    have hc : isSpace c = true := hws c (List.mem_cons_self _ _)
    have ih' := ih (fun x hx => hws x (List.mem_cons_of_mem _ hx)) rest []
    show fieldsAux (c :: (cs ++ rest)) cur = _
    rw [fieldsAux]
    simp only [hc, if_true, List.cons_ne_nil, if_false]
    have hcs : fieldsAux (cs ++ rest) [] = fieldsAux rest [] := by
      rw [ih']
      by_cases h : cs = []
      · rw [if_pos h]
      · rw [if_neg h, if_pos rfl]
    rw [hcs]

theorem fieldsAux_append_spaces (ws : Str) (hws : ∀ c ∈ ws, isSpace c = true) :
    ∀ (l cur : Str), fieldsAux (l ++ ws) cur = fieldsAux l cur := by
  intro l
  induction l with
  | nil =>
    intro cur
    have h := fieldsAux_spaces ws hws [] cur
    rw [List.append_nil] at h
    rw [List.nil_append, h]
    by_cases hw : ws = []
    · rw [if_pos hw]
    · rw [if_neg hw]
      by_cases hc : cur = []
      · rw [if_pos hc, hc]
      · rw [if_neg hc]
        simp [fieldsAux, hc]
  | cons c cs ih =>
    intro cur
    show fieldsAux (c :: (cs ++ ws)) cur = fieldsAux (c :: cs) cur
    rw [fieldsAux, fieldsAux]
    simp only [ih]

theorem fieldsAux_congr_after (u : Str) (r1 r2 : Str)
    (h : ∀ cur : Str, fieldsAux r1 cur = fieldsAux r2 cur) :
    ∀ cur : Str, fieldsAux (u ++ r1) cur = fieldsAux (u ++ r2) cur := by
  induction u with
  | nil => exact h
  | cons c cs ih =>
    intro cur
    show fieldsAux (c :: (cs ++ r1)) cur = fieldsAux (c :: (cs ++ r2)) cur
    rw [fieldsAux, fieldsAux]
    simp only [ih]

theorem fields_collapse (u ws v : Str) (hne : ws ≠ []) (hws : ∀ c ∈ ws, isSpace c = true) :
    fields (u ++ ws ++ v) = fields (u ++ [' '] ++ v) := by
  unfold fields
  rw [List.append_assoc, List.append_assoc]
  apply fieldsAux_congr_after
  intro cur
  have e1 := fieldsAux_spaces ws hws v cur
  rw [if_neg hne] at e1
  have e2 := fieldsAux_spaces [' '] (by decide) v cur
  rw [if_neg (List.cons_ne_nil _ _)] at e2
  rw [e1, e2]

theorem fields_trim (ws1 s ws2 : Str) (h1 : ∀ c ∈ ws1, isSpace c = true)
    (h2 : ∀ c ∈ ws2, isSpace c = true) : fields (ws1 ++ s ++ ws2) = fields s := by
  unfold fields
  rw [fieldsAux_append_spaces ws2 h2, fieldsAux_spaces ws1 h1 s []]
  by_cases h : ws1 = []
  · rw [if_pos h]
  · rw [if_neg h, if_pos rfl]

theorem trimSpace_decompose (s : Str) :
    ∃ ws1 ws2 : Str, (∀ c ∈ ws1, isSpace c = true) ∧ (∀ c ∈ ws2, isSpace c = true) ∧
      s = ws1 ++ trimSpace s ++ ws2 := by
  refine ⟨s.takeWhile isSpace, ((s.dropWhile isSpace).reverse.takeWhile isSpace).reverse,
    fun c hc => (List.mem_takeWhile_imp hc), ?_, ?_⟩
  · intro c hc
    exact List.mem_takeWhile_imp (List.mem_reverse.mp hc)
  · unfold trimSpace
    rw [List.append_assoc, ← List.reverse_append, List.takeWhile_append_dropWhile,
      List.reverse_reverse, List.takeWhile_append_dropWhile]

theorem fields_trimSpace (s : Str) : fields (trimSpace s) = fields s := by
  obtain ⟨ws1, ws2, h1, h2, hs⟩ := trimSpace_decompose s
  conv_rhs => rw [hs]
  exact (fields_trim ws1 (trimSpace s) ws2 h1 h2).symm

theorem normalizeText_eq_fields (lowerRune : Char → Char) (s : Str) :
    normalizeText lowerRune s = (List.intercalate [' '] (fields s)).map lowerRune := by
  unfold normalizeText toLower joinSpace
  simp only
  by_cases h : trimSpace s = []
  · rw [if_pos h]
    have hf : fields s = [] := by
      rw [← fields_trimSpace, h]
      rfl
    rw [hf]
    rfl
  · rw [if_neg h, fields_trimSpace]

theorem fieldsAux_words :
    ∀ (s cur : Str), (∀ c ∈ cur, isSpace c = false) →
      ∀ w ∈ fieldsAux s cur, w ≠ [] ∧ ∀ c ∈ w, isSpace c = false := by
  intro s
  induction s with
  | nil =>
    intro cur hcur w hw
    rw [fieldsAux] at hw
    by_cases hc : cur = []
    · rw [if_pos hc] at hw
      simp at hw
    · rw [if_neg hc] at hw
      have : w = cur := by simpa using hw
      rw [this]
      exact ⟨hc, hcur⟩
  | cons c cs ih =>
    intro cur hcur w hw
    rw [fieldsAux] at hw
    by_cases hsp : isSpace c = true
    · rw [if_pos hsp] at hw
      by_cases hc : cur = []
      · rw [if_pos hc] at hw
        exact ih [] (by simp) w hw
      · rw [if_neg hc] at hw
        rcases List.mem_cons.mp hw with h | h
        · rw [h]
          exact ⟨hc, hcur⟩
        · exact ih [] (by simp) w h
    · rw [if_neg hsp] at hw
      refine ih (cur ++ [c]) ?_ w hw
      intro x hx
      rcases List.mem_append.mp hx with h | h
      · exact hcur x h
      · have : x = c := by simpa using h
        rw [this]
        simpa using hsp

/-- C5. For every located heading, with the cursor `0` for the first located
heading and the previous located rendered line plus one afterwards, its
normalized text is not empty and its rendered line is the first index at or
after the cursor whose normalized line equals the heading's normalized text, if
any index at or after the cursor does; otherwise it is the first index at or
after the cursor whose normalized line contains the normalized text. An exact
match anywhere at or after the cursor thus wins over an earlier substring match.
Normalization is: the white-space separated words of the text (each non-empty
and free of white space), joined by single spaces, lower-cased rune by rune; so
leading and trailing white space is dropped and every run of white space counts
as one space. Example: for the lines `see Section A here`, `  SECTION <tab> a `,
`Section A` the heading `Section  A` is located on line 1. -/
theorem computeHeadingLocs_match_rule (lowerRune : Char → Char) :
    (∀ (plain : List Str) (hs : List heading) (j : Nat)
      (hj : j < (computeHeadingLocsFromRendered lowerRune plain hs).length),
      let out := computeHeadingLocsFromRendered lowerRune plain hs
      let cursor := cursorAfter 0 (out.take j)
      let h := (out.get ⟨j, hj⟩).Heading
      let r := (out.get ⟨j, hj⟩).RenderedLine
      normalizeText lowerRune h.Text ≠ [] ∧
      ((∃ (i : Int) (ln : Str), cursor ≤ i ∧ idx? plain i = some ln ∧
          normalizeText lowerRune ln = normalizeText lowerRune h.Text) →
        IsFirstFrom (fun ln => normalizeText lowerRune ln = normalizeText lowerRune h.Text)
          plain cursor r) ∧
      ((¬ ∃ (i : Int) (ln : Str), cursor ≤ i ∧ idx? plain i = some ln ∧
          normalizeText lowerRune ln = normalizeText lowerRune h.Text) →
        IsFirstFrom (fun ln => normalizeText lowerRune h.Text <:+: normalizeText lowerRune ln)
          plain cursor r)) ∧
    (∀ s : Str,
      normalizeText lowerRune s = (List.intercalate [' '] (fields s)).map lowerRune) ∧
    (∀ s : Str, ∀ w ∈ fields s, w ≠ [] ∧ ∀ c ∈ w, isSpace c = false) ∧
    (∀ ws1 s ws2 : Str, (∀ c ∈ ws1, isSpace c = true) → (∀ c ∈ ws2, isSpace c = true) →
      normalizeText lowerRune (ws1 ++ s ++ ws2) = normalizeText lowerRune s) ∧
    (∀ u ws v : Str, ws ≠ [] → (∀ c ∈ ws, isSpace c = true) →
      normalizeText lowerRune (u ++ ws ++ v) = normalizeText lowerRune (u ++ [' '] ++ v)) ∧
    ((∀ c : Char, c.toNat < 128 → lowerRune c = c.toLower) →
      normalizeText lowerRune " \tSection   A  ".data = "section a".data ∧
      (computeHeadingLocsFromRendered lowerRune
          ["see Section A here".data, "  SECTION \t a ".data, "Section A".data]
          [{ Level := 2, Text := "Section  A".data, Line := 7 }]).map
        (fun l => l.RenderedLine) = [1]) := by
  refine ⟨fun plain hs j hj => (computeHeadingLocs_rel lowerRune plain hs).located j hj,
    normalizeText_eq_fields lowerRune, fun s w hw => fieldsAux_words s [] (by simp) w hw,
    ?_, ?_, ?_⟩
  · intro ws1 s ws2 h1 h2
    rw [normalizeText_eq_fields, normalizeText_eq_fields, fields_trim ws1 s ws2 h1 h2]
  · intro u ws v hne hws
    rw [normalizeText_eq_fields, normalizeText_eq_fields, fields_collapse u ws v hne hws]
  · intro hlow
    rw [normalizeText_ascii lowerRune hlow _ (by decide),
      computeHeadingLocs_ascii lowerRune hlow _ _ (by decide) (by decide)]
    decide

theorem computeHeadingLocs_match_rule_witness :
    (normalizeText Char.toLower "Section  A".data ≠ [] ∧
      ((∃ (i : Int) (ln : Str), cursorAfter 0 [] ≤ i ∧
          idx? ["see Section A here".data, "  SECTION \t a ".data, "Section A".data] i =
            some ln ∧
          normalizeText Char.toLower ln = normalizeText Char.toLower "Section  A".data) →
        IsFirstFrom
          (fun ln => normalizeText Char.toLower ln = normalizeText Char.toLower "Section  A".data)
          ["see Section A here".data, "  SECTION \t a ".data, "Section A".data]
          (cursorAfter 0 []) 1)) ∧
    normalizeText Char.toLower " \tSection   A  ".data = "section a".data ∧
    (computeHeadingLocsFromRendered Char.toLower
        ["see Section A here".data, "  SECTION \t a ".data, "Section A".data]
        [{ Level := 2, Text := "Section  A".data, Line := 7 }]).map
      (fun l => l.RenderedLine) = [1] :=
  have h := (computeHeadingLocs_match_rule Char.toLower).1
    ["see Section A here".data, "  SECTION \t a ".data, "Section A".data]
    [{ Level := 2, Text := "Section  A".data, Line := 7 }] 0 (by decide)
  ⟨⟨h.1, h.2.1⟩, (computeHeadingLocs_match_rule Char.toLower).2.2.2.2.2 (fun _ _ => rfl)⟩

/-- C6. `computeHeadingLocsFromRendered` is a total function; the headings of
its output form a subsequence of the input headings, in order and unmodified.
A heading `h` that follows the headings `pre` is omitted exactly when its
normalized text is empty or no rendered line at or after the current cursor
contains it: in that case the result for `pre ++ h :: post` is the result for
`pre ++ post` (the cursor is left unchanged), and otherwise `h` is placed right
after the locations of `pre`. -/
theorem computeHeadingLocs_drops_unmatched (lowerRune : Char → Char) (plain : List Str) :
    (∀ hs : List heading,
      ((computeHeadingLocsFromRendered lowerRune plain hs).map (fun l => l.Heading)).Sublist hs) ∧
    (∀ (pre : List heading) (h : heading) (post : List heading),
      (Dropped lowerRune plain
          (cursorAfter 0 (computeHeadingLocsFromRendered lowerRune plain pre)) h →
        computeHeadingLocsFromRendered lowerRune plain (pre ++ h :: post) =
          computeHeadingLocsFromRendered lowerRune plain (pre ++ post)) ∧
      (¬ Dropped lowerRune plain
          (cursorAfter 0 (computeHeadingLocsFromRendered lowerRune plain pre)) h →
        ∃ (r : Int) (tail : List headingLoc),
          computeHeadingLocsFromRendered lowerRune plain (pre ++ h :: post) =
            computeHeadingLocsFromRendered lowerRune plain pre ++
              { Heading := h, RenderedLine := r } :: tail)) := by
  refine ⟨fun hs => (computeHeadingLocs_rel lowerRune plain hs).sublist, ?_⟩
  intro pre h post
  have hc : 0 ≤ cursorAfter 0 (computeHeadingLocsFromRendered lowerRune plain pre) := by
    apply cursorAfter_nonneg _ _ (le_refl _)
    intro l hl
    exact ((computeHeadingLocs_rel lowerRune plain pre).bounds.2 l hl).1
  simp only [computeHeadingLocs_eq_loop] at hc ⊢
  rw [headingLocsLoop_append lowerRune plain pre (h :: post),
    headingLocsLoop_append lowerRune plain pre post]
  rcases headingLocsLoop_step lowerRune plain h post _ [] hc with
    ⟨hd, heq⟩ | ⟨r, _, hnd, heq⟩
  · refine ⟨fun _ => by rw [heq], fun hn => absurd hd hn⟩
  · refine ⟨fun hd => absurd hd hnd, fun _ => ⟨r, headingLocsLoop lowerRune plain post (r + 1) [], ?_⟩⟩
    rw [heq, List.nil_append,
      headingLocsLoop_acc lowerRune plain post (r + 1) [{ Heading := h, RenderedLine := r }]]
    rfl

theorem computeHeadingLocs_drops_unmatched_witness :
    computeHeadingLocsFromRendered Char.toLower [['a'], ['b']]
        ([] ++ { Level := 1, Text := ['z'], Line := 0 } ::
          [{ Level := 1, Text := ['b'], Line := 1 }]) =
      computeHeadingLocsFromRendered Char.toLower [['a'], ['b']]
        ([] ++ [{ Level := 1, Text := ['b'], Line := 1 }]) :=
  ((computeHeadingLocs_drops_unmatched Char.toLower [['a'], ['b']]).2 []
    { Level := 1, Text := ['z'], Line := 0 } [{ Level := 1, Text := ['b'], Line := 1 }]).1
    (Or.inr (by
      intro i ln hi hget
      have hr := idx?_some_range _ _ _ hget
      have hcases : i = 0 ∨ i = 1 := by
        simp only [List.length_cons, List.length_nil] at hr
        omega
      rcases hcases with h0 | h1
      · subst h0
        cases hget
        decide
      · subst h1
        cases hget
        decide))


/-! ## view.go: the offset invariant -/

theorem SameView.offsetOk {m m' : model} (h : SameView m m') (hok : OffsetOk m) : OffsetOk m' := by
  unfold OffsetOk at *
  rw [h.1, h.2.1, h.2.2]
  exact hok

theorem clampOffset_ok (m : model) : OffsetOk m.clampOffset := by
  have hmax : m.maxOffset = max 0 (m.display.Len - max 1 (m.height - 2)) := by
    unfold model.maxOffset model.pageSize
    rw [imax_eq, imax_eq]
  have h0 : 0 ≤ m.maxOffset := by
    rw [hmax]
    exact le_max_left _ _
  have hb := clamp_bounds m.offset 0 m.maxOffset h0
  unfold OffsetOk model.clampOffset
  simp only
  rw [← hmax]
  exact hb

theorem finish_ok (m m' : model) (cmd : Cmd) (h : m.finish = some (m', cmd)) : OffsetOk m' := by
  unfold model.finish at h
  cases h
  exact clampOffset_ok m

theorem rebuildDisplay_ok (m m' : model) (h : m.rebuildDisplay = some m') : OffsetOk m' := by
  unfold model.rebuildDisplay at h
  simp only at h
  split_ifs at h
  · cases h
    refine ⟨le_refl _, ?_⟩
    exact le_max_left _ _
  · cases h
    exact clampOffset_ok _
  · cases h
    exact clampOffset_ok _
  · cases h
    exact clampOffset_ok _
  · split at h
    · cases h
    · split at h
      · cases h
      · split at h
        · cases h
        · cases h
          exact clampOffset_ok _

theorem recomputeSearch_sameView (lowerRune : Char → Char) (m m' : model)
    (h : m.recomputeSearch lowerRune = some m') : SameView m m' := by
  unfold model.recomputeSearch at h
  simp only at h
  split_ifs at h
  · cases h
    exact ⟨rfl, rfl, rfl⟩
  · cases h
    exact ⟨rfl, rfl, rfl⟩
  · split at h
    · cases h
    · cases h
      exact ⟨rfl, rfl, rfl⟩
  · cases h
    exact ⟨rfl, rfl, rfl⟩

theorem setSearchQueryNoJump_sameView (lowerRune : Char → Char) (m m' : model) (q : Str)
    (h : m.setSearchQueryNoJump lowerRune q = some m') : SameView m m' := by
  unfold model.setSearchQueryNoJump at h
  simp only at h
  split_ifs at h
  · cases h
    exact ⟨rfl, rfl, rfl⟩
  · split at h
    · cases h
    · rename_i m1 hm1
      have hv := recomputeSearch_sameView lowerRune _ _ hm1
      split_ifs at h <;>
        first
        | (cases h; exact hv)
        | (split at h <;> (cases h; try exact hv))

theorem syncTOC_sameView (lowerRune : Char → Char) (m m' : model)
    (h : m.syncTOCToCurrentHeading lowerRune = some m') : SameView m m' := by
  unfold model.syncTOCToCurrentHeading at h
  split at h
  · cases h
  · split_ifs at h
    · cases h
      exact ⟨rfl, rfl, rfl⟩
    · split at h
      · cases h
        exact ⟨rfl, rfl, rfl⟩
      · cases h
        exact ⟨rfl, rfl, rfl⟩

theorem updateKeyMain_offsetOk (lowerRune : Char → Char) (m : model) (msg : KeyMsg)
    (m' : model) (cmd : Cmd)
    (h : m.updateKeyMain lowerRune msg = some (m', cmd)) : OffsetOk m' := by
  unfold model.updateKeyMain at h
  by_cases c0 : msg.name = "0"
  · rw [if_pos c0] at h
    simp only at h
    split at h
    · cases h
    · rename_i m1 hm1
      cases h
      exact rebuildDisplay_ok _ m1 hm1
  rw [if_neg c0] at h
  by_cases c1 : msg.name = "j" ∨ msg.name = "down"
  · rw [if_pos c1] at h
    exact finish_ok _ _ _ h
  rw [if_neg c1] at h
  by_cases c2 : msg.name = "k" ∨ msg.name = "up"
  · rw [if_pos c2] at h
    exact finish_ok _ _ _ h
  rw [if_neg c2] at h
  by_cases c3 : msg.name = "1" ∨ msg.name = "2" ∨ msg.name = "3" ∨ msg.name = "4" ∨
      msg.name = "5" ∨ msg.name = "6"
  · rw [if_pos c3] at h
    simp only at h
    split at h
    · cases h
    · rename_i m1 hm1
      cases h
      exact rebuildDisplay_ok _ m1 hm1
  rw [if_neg c3] at h
  by_cases c4 : msg.name = "d"
  · rw [if_pos c4] at h
    exact finish_ok _ _ _ h
  rw [if_neg c4] at h
  by_cases c5 : msg.name = "u"
  · rw [if_pos c5] at h
    exact finish_ok _ _ _ h
  rw [if_neg c5] at h
  by_cases c6 : msg.name = "pgdown" ∨ msg.name = "f" ∨ msg.name = " "
  · rw [if_pos c6] at h
    exact finish_ok _ _ _ h
  rw [if_neg c6] at h
  by_cases c7 : msg.name = "pgup" ∨ msg.name = "b"
  · rw [if_pos c7] at h
    exact finish_ok _ _ _ h
  rw [if_neg c7] at h
  by_cases c8 : msg.name = "home" ∨ msg.name = "g"
  · rw [if_pos c8] at h
    exact finish_ok _ _ _ h
  rw [if_neg c8] at h
  by_cases c9 : msg.name = "end" ∨ msg.name = "G"
  · rw [if_pos c9] at h
    exact finish_ok _ _ _ h
  rw [if_neg c9] at h
  by_cases c10 : msg.name = "]"
  · rw [if_pos c10] at h
    split at h
    · cases h
    · exact finish_ok _ _ _ h
  rw [if_neg c10] at h
  by_cases c11 : msg.name = "["
  · rw [if_pos c11] at h
    split at h
    · cases h
    · exact finish_ok _ _ _ h
  rw [if_neg c11] at h
  by_cases c12 : msg.name = "n"
  · rw [if_pos c12] at h
    split at h
    · cases h
    · exact finish_ok _ _ _ h
  rw [if_neg c12] at h
  by_cases c13 : msg.name = "N"
  · rw [if_pos c13] at h
    split at h
    · cases h
    · exact finish_ok _ _ _ h
  rw [if_neg c13] at h
  by_cases c14 : msg.name = "c"
  · rw [if_pos c14] at h
    split at h
    · cases h
    · exact finish_ok _ _ _ h
  rw [if_neg c14] at h
  exact finish_ok _ _ _ h

theorem updateKey_offsetOk (render : Renderer) (lowerRune : Char → Char) (m : model)
    (msg : KeyMsg) (m' : model) (cmd : Cmd) (hok : OffsetOk m)
    (h : m.updateKey render lowerRune msg = some (m', cmd)) : OffsetOk m' := by
  unfold model.updateKey at h
  simp only at h
  split_ifs at h
  all_goals first
    | exact updateKeyMain_offsetOk _ _ _ _ _ h
    | (cases h; exact hok)
    | (split at h
       · cases h
       · rename_i m1 hm1
         first
         | (cases h; exact clampOffset_ok _)
         | (cases h; exact (setSearchQueryNoJump_sameView _ _ _ _ hm1).offsetOk hok)
         | (cases h; exact (syncTOC_sameView _ _ _ hm1).offsetOk hok))

theorem Update_offsetOk (render : Renderer) (lowerRune : Char → Char) (m : model) (msg : Msg)
    (m' : model) (cmd : Cmd) (hok : OffsetOk m)
    (h : m.Update render lowerRune msg = some (m', cmd)) : OffsetOk m' := by
  cases msg with
  | KeyMsg k => exact updateKey_offsetOk render lowerRune m k m' cmd hok h
  | MouseMsg t =>
    change m.updateMouse t = some (m', cmd) at h
    unfold model.updateMouse at h
    split_ifs at h
    · cases h
      exact hok
    · cases t <;> exact finish_ok _ _ _ h
  | WindowSizeMsg w ht =>
    change m.updateWindowSize render lowerRune w ht = some (m', cmd) at h
    unfold model.updateWindowSize at h
    simp only at h
    split at h
    · cases h
    · exact finish_ok _ _ _ h
  | clearStatusMsg => exact finish_ok _ _ _ h
  | otherMsg => exact finish_ok _ _ _ h

/-- C1. In every model state reachable from the initial model by any sequence of
`Update` events (keys, mouse wheel, window resize, clear-status tick, any other
message), whatever the renderer returns, the offset satisfies
`0 ≤ offset ≤ max(0, display.Len() - pageSize)` with `pageSize = max(1, height - 2)`;
and every `Update` that returns keeps this invariant. -/
theorem offset_invariant (title md : Str) (opts : Options) :
    (∀ m : model, Reachable title md opts m →
      0 ≤ m.offset ∧ m.offset ≤ max 0 (m.display.Len - max 1 (m.height - 2))) ∧
    (∀ (render : Renderer) (lowerRune : Char → Char) (m : model) (msg : Msg) (m' : model)
      (cmd : Cmd), OffsetOk m → m.Update render lowerRune msg = some (m', cmd) → OffsetOk m') := by
  refine ⟨?_, fun render lowerRune m msg m' cmd => Update_offsetOk render lowerRune m msg m' cmd⟩
  intro m hr
  induction hr with
  | init => exact ⟨le_refl _, le_max_left _ _⟩
  | step render lowerRune msg m m' cmd _ hstep ih =>
    exact Update_offsetOk render lowerRune m msg m' cmd ih hstep

theorem offset_invariant_witness :
    ∃ m : model, Reachable ['t'] ['x'] { Style := [], Width := 0 } m ∧
      m.lines.length = 2 ∧ m.display.Len = 5 ∧ m.height = 4 ∧ m.offset = 3 ∧
      (0 ≤ m.offset ∧ m.offset ≤ max 0 (m.display.Len - max 1 (m.height - 2))) :=
  have hr : Reachable ['t'] ['x'] { Style := [], Width := 0 } _ :=
    Reachable.step widthSensitiveRenderer Char.toLower (Msg.WindowSizeMsg 40 4) _ _ _
    (Reachable.step widthSensitiveRenderer Char.toLower Msg.clearStatusMsg _ _ _
    (Reachable.step widthSensitiveRenderer Char.toLower
      (Msg.MouseMsg MouseEventType.MouseWheelDown) _ _ _
    (Reachable.step widthSensitiveRenderer Char.toLower
      (Msg.KeyMsg { name := "j", Runes := ['j'] }) _ _ _
    (Reachable.step widthSensitiveRenderer Char.toLower
      (Msg.KeyMsg { name := "G", Runes := ['G'] }) _ _ _
    (Reachable.step widthSensitiveRenderer Char.toLower (Msg.WindowSizeMsg 80 4) _ _ _
      Reachable.init rfl) rfl) rfl) rfl) rfl) rfl
  ⟨_, hr, rfl, rfl, rfl, rfl,
    (offset_invariant ['t'] ['x'] { Style := [], Width := 0 }).1 _ hr⟩

/-- A concrete run: after a resize to 80x4 over a five-line rendering, the key
`j` scrolls to offset 1, and the maximal offset is 3. -/
theorem update_run_example :
    (match (initialModel ['t'] ['x'] { Style := [], Width := 0 }).Update
        (fun _ _ => Except.ok "a\nb\nc\nd\ne".data) Char.toLower (Msg.WindowSizeMsg 80 4) with
      | none => none
      | some (m1, _) =>
        match m1.Update (fun _ _ => Except.ok "a\nb\nc\nd\ne".data) Char.toLower
            (Msg.KeyMsg { name := "j", Runes := ['j'] }) with
        | none => none
        | some (m2, _) => some (m2.offset, m2.maxOffset)) = some (1, 3) := by
  rfl


/-! ## view.go: display rows and fold rebuild -/

theorem displayRowLoop_total (lines : List Int) (line : Int) :
    ∀ (fuel : Nat) (lo hi best : Int), 0 ≤ lo → hi < lines.length → hi - lo + 1 ≤ fuel →
      ∃ r : Int, displayRowLoop lines line fuel lo hi best = some r ∧
        (r = best ∨ (0 ≤ r ∧ r ≤ hi)) := by
  intro fuel
  induction fuel with
  | zero =>
    intro lo hi best h0 hlen hfuel
    have hnot : ¬ lo ≤ hi := by omega
    exact ⟨best, by simp [displayRowLoop, hnot], Or.inl rfl⟩
  | succ fuel ih =>
    intro lo hi best h0 hlen hfuel
    by_cases hc : lo ≤ hi
    · have hmid : (lo + hi).tdiv 2 = (lo + hi) / 2 := Int.tdiv_eq_ediv (by omega) (by omega)
      obtain ⟨n, hn⟩ : ∃ n : Nat, (lo + hi) / 2 = (n : Int) := ⟨((lo + hi) / 2).toNat, by omega⟩
      have hnlt : n < lines.length := by omega
      have hget := idx?_eq_some lines n hnlt
      unfold displayRowLoop
      simp only [hc, if_true, hmid, hn, hget]
      by_cases hv : lines.get ⟨n, hnlt⟩ ≤ line
      · simp only [hv, if_true]
        obtain ⟨r, hr, hcase⟩ := ih ((n : Int) + 1) hi n (by omega) hlen (by omega)
        refine ⟨r, hr, Or.inr ?_⟩
        rcases hcase with h | h
        · omega
        · omega
      · simp only [hv, if_false]
        obtain ⟨r, hr, hcase⟩ := ih lo ((n : Int) - 1) best h0 (by omega) (by omega)
        refine ⟨r, hr, ?_⟩
        rcases hcase with h | h
        · exact Or.inl h
        · exact Or.inr (by omega)
    · exact ⟨best, by simp [displayRowLoop, hc], Or.inl rfl⟩

theorem displayRowForRenderedLine_total (m : model) (line : Int) :
    ∃ r : Int, m.displayRowForRenderedLine line = some r ∧ 0 ≤ r ∧
      (m.display.kind = displayIndexList → r ≤ max 0 ((m.display.lines.length : Int) - 1)) := by
  unfold model.displayRowForRenderedLine
  by_cases hk : m.display.kind = displayIndexIdentity
  · simp only [hk, if_true]
    refine ⟨_, rfl, (clamp_bounds _ _ _ ?_).1, ?_⟩
    · rw [imax_eq]
      exact le_max_left _ _
    · intro h
      cases h
  · simp only [hk, if_false]
    obtain ⟨r, hr, hcase⟩ := displayRowLoop_total m.display.lines line m.display.lines.length 0
      ((m.display.lines.length : Int) - 1) 0 (le_refl _) (by omega) (by omega)
    refine ⟨r, hr, ?_, ?_⟩
    · rcases hcase with h | h <;> omega
    · intro _
      rcases hcase with h | h <;> omega

theorem setOffsetForRenderedLine_total (m : model) (line : Int) :
    ∃ r : Int, m.displayRowForRenderedLine line = some r ∧
      m.setOffsetForRenderedLine line = some (model.clampOffset { m with offset := r }) := by
  obtain ⟨r, hr, _⟩ := displayRowForRenderedLine_total m line
  refine ⟨r, hr, ?_⟩
  unfold model.setOffsetForRenderedLine
  simp only [hr]

theorem At_total (d : displayIndex) (row : Int) (hwf : DisplayWF d) :
    ∃ v : Int, d.At row = some v := by
  unfold displayIndex.At
  by_cases h0 : row < 0
  · exact ⟨0, by simp [h0]⟩
  · simp only [h0, if_false]
    cases hk : d.kind with
    | displayIndexIdentity =>
      simp only
      by_cases h1 : row ≥ d.size
      · exact ⟨d.size - 1, by simp [h1]⟩
      · exact ⟨row, by simp [h1]⟩
    | displayIndexList =>
      simp only
      have hne := hwf hk
      have hlen : 0 < d.lines.length := List.length_pos.mpr hne
      by_cases h1 : row ≥ (d.lines.length : Int)
      · simp only [h1, if_true]
        have := idx?_of_lt d.lines ((d.lines.length : Int) - 1) (by omega) (by omega)
        rw [this.1, List.getElem?_eq_getElem this.2]
        exact ⟨_, rfl⟩
      · simp only [h1, if_false]
        have := idx?_of_lt d.lines row (by omega) (by omega)
        rw [this.1, List.getElem?_eq_getElem this.2]
        exact ⟨_, rfl⟩

theorem anchorLine_total (m : model) (hwf : DisplayWF m.display) :
    ∃ a : Int, m.anchorLine = some a := by
  unfold model.anchorLine
  by_cases h : m.display.Len = 0
  · exact ⟨0, by simp [h]⟩
  · simp only [h, if_false]
    exact At_total _ _ hwf

/-- C11. For every model with at least one rendered line (and a display index
as the constructors build it), `rebuildDisplay` returns, and the new display
index is `Identity(len(lines))` when `foldLevel = 0`; when `foldLevel = L` with
`1 ≤ L ≤ 6` it is the List of the rendered lines of the heading locations with
level `≤ L`, in order, unless there is none (in particular when no heading is
located), in which case it is `Identity(len(lines))` and not an empty list. -/
theorem rebuildDisplay_rule (m : model) (hlines : m.lines ≠ []) (hwf : DisplayWF m.display) :
    ∃ m' : model, m.rebuildDisplay = some m' ∧
      (m.foldLevel = 0 → m'.display = newIdentityDisplayIndex m.lines.length) ∧
      (1 ≤ m.foldLevel ∧ m.foldLevel ≤ 6 →
        (foldLines m.headingLocs m.foldLevel ≠ [] →
          m'.display = newListDisplayIndex (foldLines m.headingLocs m.foldLevel)) ∧
        (foldLines m.headingLocs m.foldLevel = [] →
          m'.display = newIdentityDisplayIndex m.lines.length) ∧
        (m.headingLocs = [] → m'.display = newIdentityDisplayIndex m.lines.length)) := by
  have hlen : ¬ m.lines.length = 0 := fun h => hlines (List.length_eq_zero.mp h)
  unfold model.rebuildDisplay
  simp only [hlen, if_false]
  by_cases hf : m.foldLevel ≤ 0
  · simp only [hf, if_true]
    refine ⟨_, rfl, fun _ => rfl, ?_⟩
    intro h
    omega
  · simp only [hf, if_false]
    by_cases hl : m.headingLocs.length = 0
    · simp only [hl, if_true]
      have hnil : m.headingLocs = [] := List.length_eq_zero.mp hl
      refine ⟨_, rfl, fun h => by omega, fun _ => ⟨?_, fun _ => rfl, fun _ => rfl⟩⟩
      intro hne
      exact absurd (by simp [foldLines, hnil]) hne
    · simp only [hl, if_false]
      have hlne : m.headingLocs ≠ [] := fun h => hl (by simp [h])
      by_cases hi : (foldLines m.headingLocs m.foldLevel).length = 0
      · have hnil : foldLines m.headingLocs m.foldLevel = [] := List.length_eq_zero.mp hi
        unfold foldLines at hi
        simp only [hi, if_true]
        refine ⟨_, rfl, fun h => by omega, fun _ => ⟨fun hne => absurd hnil hne, fun _ => rfl,
          fun h => absurd h hlne⟩⟩
      · have hne : foldLines m.headingLocs m.foldLevel ≠ [] :=
          fun h => hi (by simp [h])
        have hi' := hi
        unfold foldLines at hi'
        simp only [hi', if_false]
        obtain ⟨a, ha⟩ := anchorLine_total m hwf
        obtain ⟨first, hfirst⟩ : ∃ v, idx? (foldLines m.headingLocs m.foldLevel) 0 = some v := by
          have := idx?_eq_some (foldLines m.headingLocs m.foldLevel) 0
            (List.length_pos.mpr hne)
          exact ⟨_, this⟩
        unfold foldLines at hfirst
        simp only [ha, hfirst]
        obtain ⟨r, hr, _⟩ := displayRowForRenderedLine_total
          { m with display := newListDisplayIndex (foldLines m.headingLocs m.foldLevel) }
          (anchorTargetLoop (foldLines m.headingLocs m.foldLevel) a first)
        unfold foldLines at hr
        simp only [hr]
        refine ⟨_, rfl, fun h => by omega, fun _ => ⟨fun _ => rfl, fun h => absurd h hne,
          fun h => absurd h hlne⟩⟩

theorem rebuildDisplay_rule_witness :
    ∃ m' : model,
      ({ initialModel ['t'] ['#', ' ', 'A'] { Style := [], Width := 0 } with
          lines := [['A'], ['x']], plain := [['A'], ['x']], foldLevel := 1,
          headingLocs := [{ Heading := { Level := 1, Text := ['A'], Line := 0 },
                            RenderedLine := 0 }] } : model).rebuildDisplay = some m' ∧
      m'.display = newListDisplayIndex [0] :=
  match rebuildDisplay_rule
    { initialModel ['t'] ['#', ' ', 'A'] { Style := [], Width := 0 } with
      lines := [['A'], ['x']], plain := [['A'], ['x']], foldLevel := 1,
      headingLocs := [{ Heading := { Level := 1, Text := ['A'], Line := 0 },
                        RenderedLine := 0 }] }
    (by decide) (by intro h; cases h) with
  | ⟨m', h1, _, h3⟩ => ⟨m', h1, (h3 (by decide)).1 (by decide)⟩


theorem displayRowLoop_spec (lines : List Int) (line : Int)
    (hsorted : ∀ (i j : Nat) (hi : i < lines.length) (hj : j < lines.length), i ≤ j →
      lines.get ⟨i, hi⟩ ≤ lines.get ⟨j, hj⟩) :
    ∀ (fuel : Nat) (lo hi : Int), 0 ≤ lo → hi < lines.length → lo ≤ hi + 1 →
      hi - lo + 1 ≤ fuel →
      (∀ (i : Nat) (h : i < lines.length), (i : Int) < lo → lines.get ⟨i, h⟩ ≤ line) →
      (∀ (i : Nat) (h : i < lines.length), hi < (i : Int) → line < lines.get ⟨i, h⟩) →
      ∃ r0 : Int, displayRowLoop lines line fuel lo hi (max (lo - 1) 0) = some (max r0 0) ∧
        -1 ≤ r0 ∧ r0 < lines.length ∧
        (∀ (i : Nat) (h : i < lines.length), (i : Int) ≤ r0 → lines.get ⟨i, h⟩ ≤ line) ∧
        (∀ (i : Nat) (h : i < lines.length), r0 < (i : Int) → line < lines.get ⟨i, h⟩) := by
  intro fuel
  induction fuel with
  | zero =>
    intro lo hi h0 hlen hle hfuel hlow hhigh
    have hnot : ¬ lo ≤ hi := by omega
    refine ⟨lo - 1, by simp [displayRowLoop, hnot], by omega, by omega, ?_, ?_⟩
    · intro i h hi'
      exact hlow i h (by omega)
    · intro i h hi'
      exact hhigh i h (by omega)
  | succ fuel ih =>
    intro lo hi h0 hlen hle hfuel hlow hhigh
    by_cases hc : lo ≤ hi
    · have hmid : (lo + hi).tdiv 2 = (lo + hi) / 2 := Int.tdiv_eq_ediv (by omega) (by omega)
      obtain ⟨n, hn⟩ : ∃ n : Nat, (lo + hi) / 2 = (n : Int) := ⟨((lo + hi) / 2).toNat, by omega⟩
      have hnlt : n < lines.length := by omega
      have hget := idx?_eq_some lines n hnlt
      unfold displayRowLoop
      simp only [hc, if_true, hmid, hn, hget]
      by_cases hv : lines.get ⟨n, hnlt⟩ ≤ line
      · simp only [hv, if_true]
        have hbest : (n : Int) = max ((n : Int) + 1 - 1) 0 := by
          rw [max_eq_left] <;> omega
        have := ih ((n : Int) + 1) hi (by omega) hlen (by omega) (by omega)
          (by
            intro i h hi'
            exact le_trans (hsorted i n h hnlt (by omega)) hv)
          hhigh
        rw [← hbest] at this
        exact this
      · simp only [hv, if_false]
        exact ih lo ((n : Int) - 1) h0 (by omega) (by omega) (by omega) hlow
          (by
            intro i h hi'
            have := hsorted n i hnlt h (by omega)
            omega)
    · refine ⟨lo - 1, by simp [displayRowLoop, hc], by omega, by omega, ?_, ?_⟩
      · intro i h hi'
        exact hlow i h (by omega)
      · intro i h hi'
        exact hhigh i h (by omega)

theorem sorted_get_of_pairwise_lt (l : List Int) (h : l.Pairwise (fun a b => a < b)) :
    ∀ (i j : Nat) (hi : i < l.length) (hj : j < l.length), i ≤ j →
      l.get ⟨i, hi⟩ ≤ l.get ⟨j, hj⟩ := by
  intro i j hi hj hij
  rcases Nat.lt_or_eq_of_le hij with hlt | heq
  · exact le_of_lt ((List.pairwise_iff_get.mp h) ⟨i, hi⟩ ⟨j, hj⟩ hlt)
  · subst heq
    exact le_refl _

/-- On a list display index with ascending entries, the row found for a
rendered line is the last row whose entry is `≤ line`, or row 0 if none is. -/
theorem displayRow_list_spec (m : model) (line : Int)
    (hk : m.display.kind = displayIndexList)
    (hsorted : m.display.lines.Pairwise (fun a b => a < b)) :
    ∃ r0 : Int, m.displayRowForRenderedLine line = some (max r0 0) ∧
      -1 ≤ r0 ∧ r0 < m.display.lines.length ∧
      (∀ (i : Nat) (h : i < m.display.lines.length),
        m.display.lines.get ⟨i, h⟩ ≤ line ↔ (i : Int) ≤ r0) := by
  have hne : ¬ m.display.kind = displayIndexIdentity := by rw [hk]; decide
  unfold model.displayRowForRenderedLine
  simp only [hne, if_false]
  obtain ⟨r0, hr, h1, h2, h3, h4⟩ := displayRowLoop_spec m.display.lines line
    (sorted_get_of_pairwise_lt _ hsorted) m.display.lines.length 0
    ((m.display.lines.length : Int) - 1) (le_refl _) (by omega) (by omega) (by omega)
    (by intro i h hi; omega) (by intro i h hi; omega)
  refine ⟨r0, ?_, h1, h2, ?_⟩
  · simpa using hr
  · intro i h
    constructor
    · intro hle
      by_contra hcon
      have := h4 i h (by omega)
      omega
    · exact h3 i h

theorem anchorTargetLoop_spec :
    ∀ (l : List Int) (anchor target : Int),
      (anchorTargetLoop l anchor target = target ∨ anchorTargetLoop l anchor target ∈ l) ∧
      (l.Pairwise (fun a b => a < b) →
        ((∃ v ∈ l, v ≤ anchor) →
          anchorTargetLoop l anchor target ∈ l ∧ anchorTargetLoop l anchor target ≤ anchor ∧
          ∀ v ∈ l, v ≤ anchor → v ≤ anchorTargetLoop l anchor target) ∧
        ((∀ v ∈ l, anchor < v) → anchorTargetLoop l anchor target = target)) := by
  intro l
  induction l with
  | nil =>
    intro anchor target
    refine ⟨Or.inl rfl, fun _ => ⟨?_, fun _ => rfl⟩⟩
    rintro ⟨v, hv, _⟩
    cases hv
  | cons x xs ih =>
    intro anchor target
    by_cases hx : x ≤ anchor
    · have hstep : anchorTargetLoop (x :: xs) anchor target = anchorTargetLoop xs anchor x := by
        simp [anchorTargetLoop, hx]
      rw [hstep]
      obtain ⟨h1, h2⟩ := ih anchor x
      have hmem : anchorTargetLoop xs anchor x ∈ x :: xs := by
        rcases h1 with h | h
        · rw [h]
          exact List.mem_cons_self _ _
        · exact List.mem_cons_of_mem _ h
      refine ⟨Or.inr hmem, fun hs => ⟨fun _ => ?_, fun hall => ?_⟩⟩
      · have hs' := List.pairwise_cons.mp hs
        by_cases hex : ∃ v ∈ xs, v ≤ anchor
        · obtain ⟨_, h4, h5⟩ := (h2 hs'.2).1 hex
          refine ⟨hmem, h4, ?_⟩
          intro v hv hva
          rcases List.mem_cons.mp hv with hvx | hvxs
          · obtain ⟨w, hw, hwa⟩ := hex
            have := h5 w hw hwa
            have := hs'.1 w hw
            omega
          · exact h5 v hvxs hva
        · have hall : ∀ v ∈ xs, anchor < v := by
            intro v hv
            by_contra hcon
            exact hex ⟨v, hv, by omega⟩
          have heq := (h2 hs'.2).2 hall
          rw [heq]
          refine ⟨List.mem_cons_self _ _, hx, ?_⟩
          intro v hv hva
          rcases List.mem_cons.mp hv with hvx | hvxs
          · omega
          · have := hall v hvxs
            omega
      · have := hall x (List.mem_cons_self _ _)
        omega
    · have hstep : anchorTargetLoop (x :: xs) anchor target = target := by
        simp [anchorTargetLoop, hx]
      rw [hstep]
      refine ⟨Or.inl rfl, fun hs => ⟨?_, fun _ => rfl⟩⟩
      rintro ⟨v, hv, hva⟩
      exfalso
      have hs' := List.pairwise_cons.mp hs
      rcases List.mem_cons.mp hv with hvx | hvxs
      · omega
      · have := hs'.1 v hvxs
        omega

/-- C13. Whenever `rebuildDisplay` produces a List (at least one rendered line,
a fold level above 0, and some heading location within the level; the located
lines being strictly ascending), it returns with the new offset equal to
`clamp(r, 0, maxOffset)`, where `anchor` is the rendered line that the pre-switch
display index gives at row `offset + 1` (clamped to that display), `target` is
the last List entry `≤ anchor`, or the first entry if none qualifies, and `r` is
the row index of `target` in the new List. -/
theorem rebuildDisplay_preserves_place (m : model) (hlines : m.lines ≠ [])
    (hfold : 0 < m.foldLevel) (hidx : foldLines m.headingLocs m.foldLevel ≠ [])
    (hwf : DisplayWF m.display)
    (hsorted : (foldLines m.headingLocs m.foldLevel).Pairwise (fun a b => a < b)) :
    ∃ (m' : model) (anchor target : Int) (r : Nat),
      m.rebuildDisplay = some m' ∧
      m'.display = newListDisplayIndex (foldLines m.headingLocs m.foldLevel) ∧
      m.anchorLine = some anchor ∧
      (m.display.Len ≠ 0 →
        m.display.At (clamp (m.offset + 1) 0 (m.display.Len - 1)) = some anchor) ∧
      target ∈ foldLines m.headingLocs m.foldLevel ∧
      ((∃ v ∈ foldLines m.headingLocs m.foldLevel, v ≤ anchor) →
        target ≤ anchor ∧ ∀ v ∈ foldLines m.headingLocs m.foldLevel, v ≤ anchor → v ≤ target) ∧
      ((∀ v ∈ foldLines m.headingLocs m.foldLevel, anchor < v) →
        (foldLines m.headingLocs m.foldLevel)[0]? = some target) ∧
      (foldLines m.headingLocs m.foldLevel)[r]? = some target ∧
      m'.offset = clamp r 0 m'.maxOffset := by
  have hlen : ¬ m.lines.length = 0 := fun h => hlines (List.length_eq_zero.mp h)
  have hf : ¬ m.foldLevel ≤ 0 := by omega
  have hlocs : ¬ m.headingLocs.length = 0 := by
    intro h
    apply hidx
    have : m.headingLocs = [] := List.length_eq_zero.mp h
    simp [foldLines, this]
  have hi : ¬ (foldLines m.headingLocs m.foldLevel).length = 0 :=
    fun h => hidx (List.length_eq_zero.mp h)
  obtain ⟨a, ha⟩ := anchorLine_total m hwf
  have hpos : 0 < (foldLines m.headingLocs m.foldLevel).length := List.length_pos.mpr hidx
  obtain ⟨first, hfirst, hfirst'⟩ : ∃ v : Int,
      idx? (foldLines m.headingLocs m.foldLevel) 0 = some v ∧
      (foldLines m.headingLocs m.foldLevel)[0]? = some v :=
    ⟨_, idx?_eq_some (foldLines m.headingLocs m.foldLevel) 0 hpos, List.getElem?_eq_getElem hpos⟩
  obtain ⟨htmem0, htspec⟩ := anchorTargetLoop_spec (foldLines m.headingLocs m.foldLevel) a first
  have htmem : anchorTargetLoop (foldLines m.headingLocs m.foldLevel) a first ∈
        foldLines m.headingLocs m.foldLevel := by
    rcases htmem0 with h | h
    · rw [h]
      exact List.getElem?_mem hfirst'
    · exact h
  obtain ⟨r0, hr, hr1, hr2, hr3⟩ := displayRow_list_spec
    { m with display := newListDisplayIndex (foldLines m.headingLocs m.foldLevel) }
    (anchorTargetLoop (foldLines m.headingLocs m.foldLevel) a first) rfl hsorted
  obtain ⟨p, hpt⟩ := List.mem_iff_get.mp htmem
  have hp0 : (p.val : Int) ≤ r0 := (hr3 p.val p.isLt).mp (le_of_eq hpt)
  have hr0nat : ∃ n : Nat, r0 = (n : Int) := ⟨r0.toNat, by omega⟩
  obtain ⟨n, hn⟩ := hr0nat
  have hnlt : n < (foldLines m.headingLocs m.foldLevel).length := by
    have : (n : Int) < ((foldLines m.headingLocs m.foldLevel).length : Int) := by
      rw [← hn]
      exact hr2
    omega
  have hle1 : (foldLines m.headingLocs m.foldLevel).get ⟨n, hnlt⟩ ≤
      anchorTargetLoop (foldLines m.headingLocs m.foldLevel) a first :=
    (hr3 n hnlt).mpr (by omega)
  have hle2 := sorted_get_of_pairwise_lt _ hsorted p.val n p.isLt hnlt (by omega)
  have hget : (foldLines m.headingLocs m.foldLevel).get ⟨n, hnlt⟩ =
      anchorTargetLoop (foldLines m.headingLocs m.foldLevel) a first := by
    have : (foldLines m.headingLocs m.foldLevel).get ⟨p.val, p.isLt⟩ =
        anchorTargetLoop (foldLines m.headingLocs m.foldLevel) a first := hpt
    omega
  have hmax : max r0 0 = (n : Int) := by omega
  rw [hmax] at hr
  refine ⟨model.clampOffset
      { m with display := newListDisplayIndex (foldLines m.headingLocs m.foldLevel),
               offset := (n : Int) },
    a, _, n, ?_, rfl, ha, ?_, htmem, ?_, ?_, ?_, rfl⟩
  · unfold model.rebuildDisplay
    unfold foldLines at hi hfirst hr
    simp only [hlen, hf, hlocs, hi, if_false, ha, hfirst, hr]
    rfl
  · intro hne
    unfold model.anchorLine at ha
    simpa [hne] using ha
  · intro hex
    have := (htspec hsorted).1 hex
    exact ⟨this.2.1, this.2.2⟩
  · intro hall
    rw [(htspec hsorted).2 hall]
    exact hfirst'
  · rw [List.getElem?_eq_getElem hnlt]
    exact congrArg some hget

theorem rebuildDisplay_preserves_place_witness :
    ∃ (m' : model) (anchor target : Int) (r : Nat),
      ({ initialModel ['t'] ['x'] { Style := [], Width := 0 } with
          lines := [['A'], ['x'], ['B'], ['y']], plain := [['A'], ['x'], ['B'], ['y']],
          foldLevel := 1, offset := 2, height := 3,
          display := newIdentityDisplayIndex 4,
          headingLocs := [{ Heading := { Level := 1, Text := ['A'], Line := 0 },
                            RenderedLine := 0 },
                          { Heading := { Level := 1, Text := ['B'], Line := 2 },
                            RenderedLine := 2 }] } : model).rebuildDisplay = some m' ∧
      m'.display = newListDisplayIndex [0, 2] ∧
      (newIdentityDisplayIndex 4).At (clamp (2 + 1) 0 (4 - 1)) = some anchor ∧
      ([0, 2] : List Int)[r]? = some target ∧
      m'.offset = clamp r 0 m'.maxOffset :=
  match rebuildDisplay_preserves_place
    { initialModel ['t'] ['x'] { Style := [], Width := 0 } with
      lines := [['A'], ['x'], ['B'], ['y']], plain := [['A'], ['x'], ['B'], ['y']],
      foldLevel := 1, offset := 2, height := 3,
      display := newIdentityDisplayIndex 4,
      headingLocs := [{ Heading := { Level := 1, Text := ['A'], Line := 0 },
                        RenderedLine := 0 },
                      { Heading := { Level := 1, Text := ['B'], Line := 2 },
                        RenderedLine := 2 }] }
    (by decide) (by decide) (by decide) (by intro h; cases h) (by decide) with
  | ⟨m', anchor, target, r, h1, h2, _, h4, _, _, _, h8, h9⟩ =>
    ⟨m', anchor, target, r, h1, h2, h4 (by decide), h8, h9⟩


/-! ## view.go: display index after a failed re-render -/

/-- C12, at the failing input. A resize to 80x24 renders five lines; a second
resize to 40x24 makes the same renderer fail. The reachable state then has the
two-line error message as `lines` but still the display index `Identity(5)`, so
the display row 4 (`0 ≤ 4 < display.Len()`) maps to line index 4, outside
`lines`. -/
theorem display_stale_after_render_error :
    ∃ m : model, Reachable ['t'] ['x'] { Style := [], Width := 0 } m ∧
      m.lines = ["(render error)".data, "boom".data] ∧
      m.display = newIdentityDisplayIndex 5 ∧
      m.display.At 4 = some 4 ∧ idx? m.lines 4 = none := by
  refine ⟨_, Reachable.step widthSensitiveRenderer Char.toLower (Msg.WindowSizeMsg 40 24) _ _ _
    (Reachable.step widthSensitiveRenderer Char.toLower (Msg.WindowSizeMsg 80 24) _ _ _
      Reachable.init rfl) rfl, ?_, ?_, ?_, ?_⟩ <;> rfl


/-! ## search.go: smart case -/

theorem hasUpper_iff (q : Str) :
    hasUpper q = true ↔ ∃ c ∈ q, 'A' ≤ c ∧ c ≤ 'Z' := by
  unfold hasUpper
  simp [List.any_eq_true]

theorem toLower_ascii (lowerRune : Char → Char)
    (hlow : ∀ c : Char, c.toNat < 128 → lowerRune c = c.toLower) (s : Str)
    (hs : ∀ c ∈ s, c.toNat < 128) : toLower lowerRune s = toLower Char.toLower s := by
  unfold toLower
  apply List.map_congr_left
  intro c hc
  exact hlow c (hs c hc)

/-- C14, counterexample. The query `É` contains an uppercase letter (its lower
case is `é`), yet it matches the line `é`, which does not contain `É`
verbatim: only the letters `A`..`Z` switch the matcher to case-sensitive. -/
theorem smartcase_nonascii_upper_insensitive :
    lowerLatin (Char.ofNat 0xC9) = Char.ofNat 0xE9 ∧
      (newSearchMatcher lowerLatin [Char.ofNat 0xC9]).Contains lowerLatin [Char.ofNat 0xE9]
        = true ∧
      strContains [Char.ofNat 0xE9] [Char.ofNat 0xC9] = false := by
  decide

/-- C14, amended. For every query that contains one of the letters `A`..`Z`,
the matcher holds exactly when the line contains the query verbatim; for every
query with none of these letters it holds exactly when the lower-cased line
contains the lower-cased query. With a lower-casing that acts on ASCII as Go
does, `abc` matches `ABC def`; and `Abc` does not match `abc def`. -/
theorem smartcase_ascii (lowerRune : Char → Char) :
    (∀ q line : Str, (∃ c ∈ q, 'A' ≤ c ∧ c ≤ 'Z') →
      ((newSearchMatcher lowerRune q).Contains lowerRune line = true ↔ q <:+: line)) ∧
    (∀ q line : Str, (¬ ∃ c ∈ q, 'A' ≤ c ∧ c ≤ 'Z') →
      ((newSearchMatcher lowerRune q).Contains lowerRune line = true ↔
        q.map lowerRune <:+: line.map lowerRune)) ∧
    ((∀ c : Char, c.toNat < 128 → lowerRune c = c.toLower) →
      (newSearchMatcher lowerRune "abc".data).Contains lowerRune "ABC def".data = true) ∧
    (newSearchMatcher lowerRune "Abc".data).Contains lowerRune "abc def".data = false := by
  refine ⟨?_, ?_, ?_, ?_⟩
  · intro q line hq
    have hu : hasUpper q = true := (hasUpper_iff q).mpr hq
    unfold searchMatcher.Contains newSearchMatcher
    simp only [hu, if_true]
    exact strContains_iff line q
  · intro q line hq
    have hu : hasUpper q = false := by
      cases h : hasUpper q with
      | false => rfl
      | true => exact absurd ((hasUpper_iff q).mp h) hq
    unfold searchMatcher.Contains newSearchMatcher
    simp only [hu, Bool.false_eq_true, if_false, Bool.not_false, if_true]
    exact strContains_iff _ _
  · intro hlow
    have h1 := toLower_ascii lowerRune hlow "abc".data (by decide)
    have h2 := toLower_ascii lowerRune hlow "ABC def".data (by decide)
    have hu : hasUpper "abc".data = false := by decide
    unfold searchMatcher.Contains newSearchMatcher
    simp only [hu, Bool.false_eq_true, if_false, Bool.not_false, if_true, h1, h2]
    decide
  · have hu : hasUpper "Abc".data = true := by decide
    unfold searchMatcher.Contains newSearchMatcher
    simp only [hu, if_true]
    decide

theorem smartcase_ascii_witness :
    ((newSearchMatcher Char.toLower "Go".data).Contains Char.toLower "Golang".data = true ↔
        "Go".data <:+: "Golang".data) ∧
      (newSearchMatcher Char.toLower "abc".data).Contains Char.toLower "ABC def".data = true :=
  ⟨(smartcase_ascii Char.toLower).1 "Go".data "Golang".data ⟨'G', by decide, by decide⟩,
    (smartcase_ascii Char.toLower).2.2.1 (fun _ _ => rfl)⟩


/-! ## search.go: the match list -/

theorem find?_filter_ne {β : Type} (k j : Int) (h : ¬ j = k) :
    ∀ es : IntMap β, (es.filter (fun e => e.1 != k)).find? (fun e => e.1 == j) =
      es.find? (fun e => e.1 == j) := by
  intro es
  induction es with
  | nil => rfl
  | cons e es ih =>
    rw [List.filter_cons]
    by_cases hek : e.1 = k
    · have h1 : (e.1 != k) = false := by simp [hek]
      have h2 : (e.1 == j) = false := by
        simp only [beq_eq_false_iff_ne, ne_eq, hek]
        exact fun h' => h h'.symm
      rw [h1]
      simp only [Bool.false_eq_true, if_false]
      rw [List.find?_cons]
      simp only [h2]
      exact ih
    · have h1 : (e.1 != k) = true := by simp [hek]
      rw [h1]
      simp only [if_true]
      rw [List.find?_cons, List.find?_cons]
      cases (e.1 == j)
      · simp only
        exact ih
      · rfl

theorem IntMap.get?_set {β : Type} (m : IntMap β) (k j : Int) (v : β) :
    (m.set k v).get? j = if j = k then some v else m.get? j := by
  unfold IntMap.set IntMap.get?
  by_cases h : j = k
  · subst h
    simp [List.find?]
  · have hkj : (k == j) = false := by
      simp only [beq_eq_false_iff_ne, ne_eq]
      exact fun h' => h h'.symm
    rw [List.find?_cons]
    simp only [hkj, h, if_false]
    rw [find?_filter_ne k j h]

theorem recomputeSearchLoop_spec (lowerRune : Char → Char) (matcher : searchMatcher)
    (plain : List Str) :
    ∀ (rest : List Str) (n : Nat) (ms : List Int) (set : IntMap Bool),
      rest = plain.drop n →
      ms.Pairwise (fun a b => a < b) → (∀ i ∈ ms, i < (n : Int)) →
      (recomputeSearchLoop lowerRune matcher rest n ms set).1.Pairwise (fun a b => a < b) ∧
      (∀ i : Int, i ∈ (recomputeSearchLoop lowerRune matcher rest n ms set).1 ↔
        i ∈ ms ∨ ((n : Int) ≤ i ∧
          ∃ ln, idx? plain i = some ln ∧ matcher.Contains lowerRune ln = true)) ∧
      (∀ i : Int, (recomputeSearchLoop lowerRune matcher rest n ms set).2.get? i =
        if ((n : Int) ≤ i ∧ ∃ ln, idx? plain i = some ln ∧ matcher.Contains lowerRune ln = true)
        then some true else set.get? i) := by
  intro rest
  induction rest with
  | nil =>
    intro n ms set hrest hp hlt
    have hlen : plain.length ≤ n := by
      have := congrArg List.length hrest
      simp at this
      omega
    have hnone : ∀ i : Int, ¬ ((n : Int) ≤ i ∧
        ∃ ln, idx? plain i = some ln ∧ matcher.Contains lowerRune ln = true) := by
      rintro i ⟨h1, ln, h2, _⟩
      have := idx?_some_range _ _ _ h2
      omega
    refine ⟨hp, ?_, ?_⟩
    · intro i
      simp [recomputeSearchLoop, hnone i]
    · intro i
      simp [recomputeSearchLoop, hnone i]
  | cons x rest ih =>
    intro n ms set hrest hp hlt
    have hx : plain[n]? = some x := by
      have := congrArg List.head? hrest
      simp only [List.head?_cons, List.head?_drop] at this
      exact this.symm
    have hrest' : rest = plain.drop (n + 1) := by
      have := congrArg List.tail hrest
      simp only [List.tail_cons, List.tail_drop] at this
      exact this
    have hcast : ((n : Int) + 1) = ((n + 1 : Nat) : Int) := by simp
    have hkey : ∀ i : Int, ((n : Int) ≤ i ∧
        ∃ ln, idx? plain i = some ln ∧ matcher.Contains lowerRune ln = true) ↔
        ((i = n ∧ matcher.Contains lowerRune x = true) ∨
          (((n + 1 : Nat) : Int) ≤ i ∧
            ∃ ln, idx? plain i = some ln ∧ matcher.Contains lowerRune ln = true)) := by
      intro i
      constructor
      · rintro ⟨h1, ln, h2, h3⟩
        by_cases hin : i = n
        · subst hin
          rw [idx?_natCast, hx] at h2
          cases h2
          exact Or.inl ⟨rfl, h3⟩
        · exact Or.inr ⟨by omega, ln, h2, h3⟩
      · rintro (⟨h1, h2⟩ | ⟨h1, ln, h2, h3⟩)
        · subst h1
          exact ⟨le_refl _, x, by rw [idx?_natCast]; exact hx, h2⟩
        · exact ⟨by omega, ln, h2, h3⟩
    by_cases hm : matcher.Contains lowerRune x = true
    · have hstep : recomputeSearchLoop lowerRune matcher (x :: rest) n ms set =
          recomputeSearchLoop lowerRune matcher rest ((n + 1 : Nat) : Int) (ms ++ [(n : Int)])
            (set.set n true) := by
        rw [recomputeSearchLoop]
        simp only [hm, if_true, hcast]
      rw [hstep]
      have hp' : (ms ++ [(n : Int)]).Pairwise (fun a b => a < b) := by
        rw [List.pairwise_append]
        refine ⟨hp, List.pairwise_singleton _ _, ?_⟩
        intro a ha b hb
        rw [List.mem_singleton] at hb
        rw [hb]
        exact hlt a ha
      have hlt' : ∀ i ∈ ms ++ [(n : Int)], i < ((n + 1 : Nat) : Int) := by
        intro i hi
        rcases List.mem_append.mp hi with h | h
        · have := hlt i h
          omega
        · rw [List.mem_singleton] at h
          omega
      obtain ⟨h1, h2, h3⟩ := ih (n + 1) (ms ++ [(n : Int)]) (set.set n true) hrest' hp' hlt'
      refine ⟨h1, ?_, ?_⟩
      · intro i
        rw [h2 i, hkey i, List.mem_append, List.mem_singleton]
        constructor
        · rintro ((h | h) | h)
          · exact Or.inl h
          · exact Or.inr (Or.inl ⟨h, hm⟩)
          · exact Or.inr (Or.inr h)
        · rintro (h | ⟨h, _⟩ | h)
          · exact Or.inl (Or.inl h)
          · exact Or.inl (Or.inr h)
          · exact Or.inr h
      · intro i
        rw [h3 i, IntMap.get?_set]
        by_cases hc : (((n + 1 : Nat) : Int) ≤ i ∧
            ∃ ln, idx? plain i = some ln ∧ matcher.Contains lowerRune ln = true)
        · have hc' := (hkey i).mpr (Or.inr hc)
          rw [if_pos hc, if_pos hc']
        · rw [if_neg hc]
          by_cases hin : i = n
          · have hc' := (hkey i).mpr (Or.inl ⟨hin, hm⟩)
            rw [if_pos hin, if_pos hc']
          · have hc' : ¬ ((n : Int) ≤ i ∧
                ∃ ln, idx? plain i = some ln ∧ matcher.Contains lowerRune ln = true) := by
              intro h
              rcases (hkey i).mp h with ⟨h1, _⟩ | h2
              · exact hin h1
              · exact hc h2
            rw [if_neg hin, if_neg hc']
    · have hstep : recomputeSearchLoop lowerRune matcher (x :: rest) n ms set =
          recomputeSearchLoop lowerRune matcher rest ((n + 1 : Nat) : Int) ms set := by
        rw [recomputeSearchLoop]
        simp only [hm, Bool.false_eq_true, if_false, hcast]
      rw [hstep]
      have hlt' : ∀ i ∈ ms, i < ((n + 1 : Nat) : Int) := by
        intro i hi
        have := hlt i hi
        omega
      obtain ⟨h1, h2, h3⟩ := ih (n + 1) ms set hrest' hp hlt'
      have hkey' : ∀ i : Int, ((n : Int) ≤ i ∧
          ∃ ln, idx? plain i = some ln ∧ matcher.Contains lowerRune ln = true) ↔
          (((n + 1 : Nat) : Int) ≤ i ∧
            ∃ ln, idx? plain i = some ln ∧ matcher.Contains lowerRune ln = true) := by
        intro i
        rw [hkey i]
        constructor
        · rintro (⟨_, h⟩ | h)
          · exact absurd h hm
          · exact h
        · exact Or.inr
      refine ⟨h1, ?_, ?_⟩
      · intro i
        rw [h2 i, hkey' i]
      · intro i
        rw [h3 i]
        by_cases hc : (((n + 1 : Nat) : Int) ≤ i ∧
            ∃ ln, idx? plain i = some ln ∧ matcher.Contains lowerRune ln = true)
        · rw [if_pos hc, if_pos ((hkey' i).mpr hc)]
        · rw [if_neg hc, if_neg (fun h => hc ((hkey' i).mp h))]

theorem recomputeSearchLoop_listed (lowerRune : Char → Char) (q : Str) (plain : List Str) :
    (recomputeSearchLoop lowerRune (newSearchMatcher lowerRune q) plain 0 [] []).1.Pairwise
        (fun a b => a < b) ∧
    (∀ i : Int, i ∈ (recomputeSearchLoop lowerRune (newSearchMatcher lowerRune q) plain 0 [] []).1 ↔
      ∃ ln, idx? plain i = some ln ∧
        (newSearchMatcher lowerRune q).Contains lowerRune ln = true) ∧
    (∀ i : Int,
      (recomputeSearchLoop lowerRune (newSearchMatcher lowerRune q) plain 0 [] []).2.get? i =
          some true ↔
        i ∈ (recomputeSearchLoop lowerRune (newSearchMatcher lowerRune q) plain 0 [] []).1) ∧
    (∀ i : Int,
      (recomputeSearchLoop lowerRune (newSearchMatcher lowerRune q) plain 0 [] []).2.get? i ≠
        some false) := by
  obtain ⟨h1, h2, h3⟩ := recomputeSearchLoop_spec lowerRune (newSearchMatcher lowerRune q) plain
    plain 0 [] [] rfl List.Pairwise.nil (by intro i hi; cases hi)
  have hcond : ∀ i : Int, ((0 : Int) ≤ i ∧ ∃ ln, idx? plain i = some ln ∧
      (newSearchMatcher lowerRune q).Contains lowerRune ln = true) ↔
      ∃ ln, idx? plain i = some ln ∧
        (newSearchMatcher lowerRune q).Contains lowerRune ln = true := by
    intro i
    constructor
    · exact fun h => h.2
    · rintro ⟨ln, h, h'⟩
      exact ⟨(idx?_some_range _ _ _ h).1, ln, h, h'⟩
  have hmem : ∀ i : Int,
      i ∈ (recomputeSearchLoop lowerRune (newSearchMatcher lowerRune q) plain 0 [] []).1 ↔
      ∃ ln, idx? plain i = some ln ∧
        (newSearchMatcher lowerRune q).Contains lowerRune ln = true := by
    intro i
    have := h2 i
    simp only [List.not_mem_nil, false_or, Nat.cast_zero] at this
    rw [this]
    exact hcond i
  have hnil : ∀ i : Int, IntMap.get? ([] : IntMap Bool) i = none := fun _ => rfl
  refine ⟨by simpa using h1, hmem, ?_, ?_⟩
  · intro i
    have := h3 i
    simp only [Nat.cast_zero] at this
    rw [this, hmem i]
    by_cases hc : ((0 : Int) ≤ i ∧ ∃ ln, idx? plain i = some ln ∧
        (newSearchMatcher lowerRune q).Contains lowerRune ln = true)
    · rw [if_pos hc]
      exact ⟨fun _ => hc.2, fun _ => rfl⟩
    · rw [if_neg hc, hnil]
      constructor
      · intro h
        cases h
      · intro h
        exact absurd ((hcond i).mpr h) hc
  · intro i
    have := h3 i
    simp only [Nat.cast_zero] at this
    rw [this]
    by_cases hc : ((0 : Int) ≤ i ∧ ∃ ln, idx? plain i = some ln ∧
        (newSearchMatcher lowerRune q).Contains lowerRune ln = true)
    · rw [if_pos hc]
      intro h
      cases h
    · rw [if_neg hc, hnil]
      intro h
      cases h

/-- What `recomputeSearch` does with a non-empty query: it returns, changes only
the search index fields, and lists the query over the current plain lines. -/
theorem recomputeSearch_spec (lowerRune : Char → Char) (m : model) (hq : m.searchQuery ≠ []) :
    ∃ k c : Int, m.recomputeSearch lowerRune = some
        { m with searchMatches := (recomputeSearchLoop lowerRune
                    (newSearchMatcher lowerRune m.searchQuery) m.plain 0 [] []).1,
                 searchSet := (recomputeSearchLoop lowerRune
                    (newSearchMatcher lowerRune m.searchQuery) m.plain 0 [] []).2,
                 searchIdx := k, searchCurrentLine := c } ∧
      ((recomputeSearchLoop lowerRune (newSearchMatcher lowerRune m.searchQuery)
          m.plain 0 [] []).1 = [] → k = 0 ∧ c = -1) ∧
      ((recomputeSearchLoop lowerRune (newSearchMatcher lowerRune m.searchQuery)
          m.plain 0 [] []).1 ≠ [] → k = m.searchIdx ∧
        ((0 ≤ m.searchIdx ∧ m.searchIdx < ((recomputeSearchLoop lowerRune
            (newSearchMatcher lowerRune m.searchQuery) m.plain 0 [] []).1.length : Int)) →
          idx? (recomputeSearchLoop lowerRune (newSearchMatcher lowerRune m.searchQuery)
            m.plain 0 [] []).1 k = some c) ∧
        (¬ (0 ≤ m.searchIdx ∧ m.searchIdx < ((recomputeSearchLoop lowerRune
            (newSearchMatcher lowerRune m.searchQuery) m.plain 0 [] []).1.length : Int)) →
          c = -1)) := by
  by_cases hz : (recomputeSearchLoop lowerRune (newSearchMatcher lowerRune m.searchQuery)
      m.plain 0 [] []).1.length = 0
  · have hnil := List.length_eq_zero.mp hz
    have hres : m.recomputeSearch lowerRune = some
        { m with searchMatches := (recomputeSearchLoop lowerRune
                    (newSearchMatcher lowerRune m.searchQuery) m.plain 0 [] []).1,
                 searchSet := (recomputeSearchLoop lowerRune
                    (newSearchMatcher lowerRune m.searchQuery) m.plain 0 [] []).2,
                 searchIdx := 0, searchCurrentLine := -1 } := by
      unfold model.recomputeSearch
      simp only [hq, if_false, hz, if_true]
    exact ⟨0, -1, hres, fun _ => ⟨rfl, rfl⟩, fun h => absurd hnil h⟩
  · have hne : (recomputeSearchLoop lowerRune (newSearchMatcher lowerRune m.searchQuery)
      m.plain 0 [] []).1 ≠ [] := fun h => hz (by simp [h])
    by_cases hr : 0 ≤ m.searchIdx ∧ m.searchIdx <
        ((recomputeSearchLoop lowerRune (newSearchMatcher lowerRune m.searchQuery)
          m.plain 0 [] []).1.length : Int)
    · obtain ⟨v, hv⟩ : ∃ v : Int, idx? (recomputeSearchLoop lowerRune
          (newSearchMatcher lowerRune m.searchQuery) m.plain 0 [] []).1 m.searchIdx = some v := by
        have hi := idx?_of_lt _ _ hr.1 hr.2
        rw [hi.1, List.getElem?_eq_getElem hi.2]
        exact ⟨_, rfl⟩
      have hres : m.recomputeSearch lowerRune = some
          { m with searchMatches := (recomputeSearchLoop lowerRune
                      (newSearchMatcher lowerRune m.searchQuery) m.plain 0 [] []).1,
                   searchSet := (recomputeSearchLoop lowerRune
                      (newSearchMatcher lowerRune m.searchQuery) m.plain 0 [] []).2,
                   searchIdx := m.searchIdx, searchCurrentLine := v } := by
        have hge : m.searchIdx ≥ 0 := hr.1
        unfold model.recomputeSearch
        simp only [hq, if_false, hz, hge, hr.2, and_self, if_true, hv]
      exact ⟨m.searchIdx, v, hres, fun h => absurd h hne,
        fun _ => ⟨rfl, fun _ => hv, fun h => absurd hr h⟩⟩
    · have hres : m.recomputeSearch lowerRune = some
          { m with searchMatches := (recomputeSearchLoop lowerRune
                      (newSearchMatcher lowerRune m.searchQuery) m.plain 0 [] []).1,
                   searchSet := (recomputeSearchLoop lowerRune
                      (newSearchMatcher lowerRune m.searchQuery) m.plain 0 [] []).2,
                   searchIdx := m.searchIdx, searchCurrentLine := -1 } := by
        have hr' : ¬ (m.searchIdx ≥ 0 ∧ m.searchIdx <
          ((recomputeSearchLoop lowerRune (newSearchMatcher lowerRune m.searchQuery)
            m.plain 0 [] []).1.length : Int)) := hr
        unfold model.recomputeSearch
        simp only [hq, if_false, hz, hr']
      exact ⟨m.searchIdx, -1, hres, fun h => absurd h hne,
        fun _ => ⟨rfl, fun h => absurd h hr, fun _ => rfl⟩⟩

theorem firstMatchLoop_spec :
    ∀ (l : List Int) (offset i0 : Int),
      i0 ≤ firstMatchLoop l offset i0 ∧ firstMatchLoop l offset i0 ≤ i0 + l.length ∧
      (∀ (k : Nat) (h : k < l.length), (k : Int) < firstMatchLoop l offset i0 - i0 →
        l.get ⟨k, h⟩ < offset) ∧
      (∀ (k : Nat) (h : k < l.length), (k : Int) = firstMatchLoop l offset i0 - i0 →
        offset ≤ l.get ⟨k, h⟩) := by
  intro l
  induction l with
  | nil =>
    intro offset i0
    refine ⟨le_refl _, by simp [firstMatchLoop], ?_, ?_⟩ <;>
      (intro k h; simp at h)
  | cons v rest ih =>
    intro offset i0
    by_cases hv : v < offset
    · have hstep : firstMatchLoop (v :: rest) offset i0 = firstMatchLoop rest offset (i0 + 1) := by
        simp [firstMatchLoop, hv]
      rw [hstep]
      obtain ⟨h1, h2, h3, h4⟩ := ih offset (i0 + 1)
      refine ⟨by omega, by simp only [List.length_cons, Nat.cast_add, Nat.cast_one]; omega, ?_, ?_⟩
      · intro k h hk
        cases k with
        | zero => exact hv
        | succ k =>
          have h' : k < rest.length := by simpa using h
          have := h3 k h' (by push_cast at hk; omega)
          simpa using this
      · intro k h hk
        cases k with
        | zero =>
          exfalso
          simp only [Nat.cast_zero] at hk
          omega
        | succ k =>
          have h' : k < rest.length := by simpa using h
          have := h4 k h' (by push_cast at hk; omega)
          simpa using this
    · have hstep : firstMatchLoop (v :: rest) offset i0 = i0 := by
        simp [firstMatchLoop, hv]
      rw [hstep]
      refine ⟨le_refl _, by simp only [List.length_cons, Nat.cast_add, Nat.cast_one]; omega,
        ?_, ?_⟩
      · intro k h hk
        omega
      · intro k h hk
        have hk0 : k = 0 := by omega
        subst hk0
        simp only [List.get_eq_getElem, List.getElem_cons_zero]
        omega

/-- What `setSearchQueryNoJump` does with a query that is not empty after
trimming: it returns, sets the query and the draft to the trimmed text, lists
the query over the current plain lines, and selects a match. -/
theorem setSearchQueryNoJump_spec (lowerRune : Char → Char) (m : model) (q : Str)
    (hq : trimSpace q ≠ []) :
    ∃ k c : Int, m.setSearchQueryNoJump lowerRune q = some
        { m with searchQuery := trimSpace q, searchDraft := trimSpace q,
                 searchMatches := (recomputeSearchLoop lowerRune
                    (newSearchMatcher lowerRune (trimSpace q)) m.plain 0 [] []).1,
                 searchSet := (recomputeSearchLoop lowerRune
                    (newSearchMatcher lowerRune (trimSpace q)) m.plain 0 [] []).2,
                 searchIdx := k, searchCurrentLine := c } ∧
      ((recomputeSearchLoop lowerRune (newSearchMatcher lowerRune (trimSpace q))
          m.plain 0 [] []).1 = [] → k = 0 ∧ c = -1) ∧
      ((recomputeSearchLoop lowerRune (newSearchMatcher lowerRune (trimSpace q))
          m.plain 0 [] []).1 ≠ [] →
        k = (if firstMatchLoop (recomputeSearchLoop lowerRune
                (newSearchMatcher lowerRune (trimSpace q)) m.plain 0 [] []).1 m.offset 0 ≥
              ((recomputeSearchLoop lowerRune (newSearchMatcher lowerRune (trimSpace q))
                m.plain 0 [] []).1.length : Int)
            then 0
            else firstMatchLoop (recomputeSearchLoop lowerRune
                (newSearchMatcher lowerRune (trimSpace q)) m.plain 0 [] []).1 m.offset 0) ∧
        0 ≤ k ∧ k < ((recomputeSearchLoop lowerRune (newSearchMatcher lowerRune (trimSpace q))
                m.plain 0 [] []).1.length : Int) ∧
        idx? (recomputeSearchLoop lowerRune (newSearchMatcher lowerRune (trimSpace q))
          m.plain 0 [] []).1 k = some c) := by
  obtain ⟨k1, c1, hrec, hnil1, _⟩ := recomputeSearch_spec lowerRune
    { m with searchQuery := trimSpace q, searchDraft := trimSpace q, searchIdx := 0,
             searchCurrentLine := -1, searchMatches := [], searchSet := [] } hq
  by_cases hz : (recomputeSearchLoop lowerRune (newSearchMatcher lowerRune (trimSpace q))
      m.plain 0 [] []).1.length = 0
  · have hL := List.length_eq_zero.mp hz
    obtain ⟨hk1, hc1⟩ := hnil1 hL
    subst hk1
    subst hc1
    refine ⟨0, -1, ?_, fun _ => ⟨rfl, rfl⟩, fun h => absurd hL h⟩
    unfold model.setSearchQueryNoJump
    simp only [hq, if_false, hrec, hz, if_true]
  · have hL : (recomputeSearchLoop lowerRune (newSearchMatcher lowerRune (trimSpace q))
      m.plain 0 [] []).1 ≠ [] := fun h => hz (by simp [h])
    have hfm := firstMatchLoop_spec (recomputeSearchLoop lowerRune
      (newSearchMatcher lowerRune (trimSpace q)) m.plain 0 [] []).1 m.offset 0
    have hlen : 0 < (recomputeSearchLoop lowerRune (newSearchMatcher lowerRune (trimSpace q))
      m.plain 0 [] []).1.length := List.length_pos.mpr hL
    obtain ⟨hk0, hk1⟩ : 0 ≤ (if firstMatchLoop (recomputeSearchLoop lowerRune
                (newSearchMatcher lowerRune (trimSpace q)) m.plain 0 [] []).1 m.offset 0 ≥
              ((recomputeSearchLoop lowerRune (newSearchMatcher lowerRune (trimSpace q))
                m.plain 0 [] []).1.length : Int)
            then (0 : Int)
            else firstMatchLoop (recomputeSearchLoop lowerRune
                (newSearchMatcher lowerRune (trimSpace q)) m.plain 0 [] []).1 m.offset 0) ∧
        (if firstMatchLoop (recomputeSearchLoop lowerRune
                (newSearchMatcher lowerRune (trimSpace q)) m.plain 0 [] []).1 m.offset 0 ≥
              ((recomputeSearchLoop lowerRune (newSearchMatcher lowerRune (trimSpace q))
                m.plain 0 [] []).1.length : Int)
            then (0 : Int)
            else firstMatchLoop (recomputeSearchLoop lowerRune
                (newSearchMatcher lowerRune (trimSpace q)) m.plain 0 [] []).1 m.offset 0) <
          ((recomputeSearchLoop lowerRune (newSearchMatcher lowerRune (trimSpace q))
                m.plain 0 [] []).1.length : Int) := by
      split_ifs with hge
      · exact ⟨le_refl _, by omega⟩
      · exact ⟨hfm.1, by omega⟩
    obtain ⟨v, hv⟩ : ∃ v : Int, idx? (recomputeSearchLoop lowerRune
        (newSearchMatcher lowerRune (trimSpace q)) m.plain 0 [] []).1
        (if firstMatchLoop (recomputeSearchLoop lowerRune
                (newSearchMatcher lowerRune (trimSpace q)) m.plain 0 [] []).1 m.offset 0 ≥
              ((recomputeSearchLoop lowerRune (newSearchMatcher lowerRune (trimSpace q))
                m.plain 0 [] []).1.length : Int)
            then (0 : Int)
            else firstMatchLoop (recomputeSearchLoop lowerRune
                (newSearchMatcher lowerRune (trimSpace q)) m.plain 0 [] []).1 m.offset 0) =
          some v := by
      have hi := idx?_of_lt _ _ hk0 hk1
      rw [hi.1, List.getElem?_eq_getElem hi.2]
      exact ⟨_, rfl⟩
    refine ⟨_, v, ?_, fun h => absurd h hL, fun _ => ⟨rfl, hk0, hk1, hv⟩⟩
    unfold model.setSearchQueryNoJump
    simp only [hq, if_false, hrec, hz, hv]

theorem searchListed_of (lowerRune : Char → Char) (m : model)
    (hm : m.searchMatches = (recomputeSearchLoop lowerRune
      (newSearchMatcher lowerRune m.searchQuery) m.plain 0 [] []).1)
    (hs : m.searchSet = (recomputeSearchLoop lowerRune
      (newSearchMatcher lowerRune m.searchQuery) m.plain 0 [] []).2) :
    SearchListed lowerRune m := by
  unfold SearchListed
  rw [hm, hs]
  exact recomputeSearchLoop_listed lowerRune m.searchQuery m.plain

theorem rebuildDisplay_total (m : model) (hwf : DisplayWF m.display) :
    ∃ (d : displayIndex) (o : Int), m.rebuildDisplay = some { m with display := d, offset := o } := by
  unfold model.rebuildDisplay
  by_cases h0 : m.lines.length = 0
  · simp only [h0, if_true]
    exact ⟨_, _, rfl⟩
  · simp only [h0, if_false]
    by_cases hf : m.foldLevel ≤ 0
    · simp only [hf, if_true]
      exact ⟨_, _, rfl⟩
    · simp only [hf, if_false]
      by_cases hl : m.headingLocs.length = 0
      · simp only [hl, if_true]
        exact ⟨_, _, rfl⟩
      · simp only [hl, if_false]
        by_cases hi : (foldLines m.headingLocs m.foldLevel).length = 0
        · unfold foldLines at hi
          simp only [hi, if_true]
          exact ⟨_, _, rfl⟩
        · have hne : foldLines m.headingLocs m.foldLevel ≠ [] := fun h => hi (by simp [h])
          have hi' := hi
          unfold foldLines at hi'
          simp only [hi', if_false]
          obtain ⟨a, ha⟩ := anchorLine_total m hwf
          obtain ⟨first, hfirst⟩ : ∃ v, idx? (foldLines m.headingLocs m.foldLevel) 0 = some v :=
            ⟨_, idx?_eq_some (foldLines m.headingLocs m.foldLevel) 0 (List.length_pos.mpr hne)⟩
          unfold foldLines at hfirst
          simp only [ha, hfirst]
          obtain ⟨r, hr, _⟩ := displayRowForRenderedLine_total
            { m with display := newListDisplayIndex (foldLines m.headingLocs m.foldLevel) }
            (anchorTargetLoop (foldLines m.headingLocs m.foldLevel) a first)
          unfold foldLines at hr
          simp only [hr]
          exact ⟨_, _, rfl⟩

theorem refreshHeadingLocs_keeps (lowerRune : Char → Char) (m : model) (renderWidth : Int) :
    (m.refreshHeadingLocs lowerRune renderWidth).display = m.display ∧
    (m.refreshHeadingLocs lowerRune renderWidth).lines = m.lines ∧
    (m.refreshHeadingLocs lowerRune renderWidth).plain = m.plain ∧
    (m.refreshHeadingLocs lowerRune renderWidth).searchQuery = m.searchQuery ∧
    (m.refreshHeadingLocs lowerRune renderWidth).searchIdx = m.searchIdx ∧
    (m.refreshHeadingLocs lowerRune renderWidth).offset = m.offset ∧
    (m.refreshHeadingLocs lowerRune renderWidth).height = m.height ∧
    (m.refreshHeadingLocs lowerRune renderWidth).foldLevel = m.foldLevel := by
  unfold model.refreshHeadingLocs
  split_ifs <;> exact ⟨rfl, rfl, rfl, rfl, rfl, rfl, rfl, rfl⟩

/-- What a successful `reRender` does while a query is active: the plain lines
are the stripped lines of the new rendering and the query is listed over them. -/
theorem reRender_ok_spec (render : Renderer) (lowerRune : Char → Char) (m : model) (out : Str)
    (hrender : render m.md (Options.mk m.renderOpts.Style
        (if m.renderOpts.Width ≤ 0 then m.bodyTextWidth else m.renderOpts.Width)) =
      Except.ok out)
    (hq : m.searchQuery ≠ []) (hwf : DisplayWF m.display) :
    ∃ m' : model, m.reRender render lowerRune = some m' ∧
      m'.lines = splitLines out ∧ m'.plain = (splitLines out).map stripANSI ∧
      m'.searchQuery = m.searchQuery ∧ SearchListed lowerRune m' := by
  unfold model.reRender
  simp only [hrender]
  generalize hR : model.refreshHeadingLocs lowerRune _ _ = R
  have hkeep := refreshHeadingLocs_keeps lowerRune
    { m with lastErr := none, lines := splitLines out,
             plain := (splitLines out).map stripANSI }
    (if m.renderOpts.Width ≤ 0 then m.bodyTextWidth else m.renderOpts.Width)
  rw [hR] at hkeep
  obtain ⟨hd, hl, hp, hsq, _⟩ := hkeep
  have hwfR : DisplayWF R.display := by
    rw [hd]
    exact hwf
  obtain ⟨d, o, hrebuild⟩ := rebuildDisplay_total R hwfR
  have hqR : R.searchQuery ≠ [] := by
    rw [hsq]
    exact hq
  obtain ⟨k, c, hrec, _, _⟩ := recomputeSearch_spec lowerRune
    { R with display := d, offset := o } hqR
  simp only [hrebuild, ne_eq, hqR, not_false_eq_true, if_true]
  exact ⟨_, hrec, hl, hp, hsq, searchListed_of lowerRune _ rfl rfl⟩

theorem setSearchQueryNoJump_empty (lowerRune : Char → Char) (m : model) (q : Str)
    (hq : trimSpace q = []) :
    m.setSearchQueryNoJump lowerRune q = some
      { m with searchQuery := [], searchDraft := [], searchIdx := 0,
               searchCurrentLine := -1, searchMatches := [], searchSet := [] } := by
  unfold model.setSearchQueryNoJump
  simp only [hq, if_true]

theorem setSearchQueryNoJump_ok (lowerRune : Char → Char) (m : model) (q : Str) :
    ∃ m' : model, m.setSearchQueryNoJump lowerRune q = some m' ∧ SearchOk lowerRune m' ∧
      m'.plain = m.plain ∧ m'.searchQuery = trimSpace q ∧ m'.offset = m.offset ∧
      m'.display = m.display ∧ m'.height = m.height := by
  by_cases hq : trimSpace q = []
  · refine ⟨_, setSearchQueryNoJump_empty lowerRune m q hq, ⟨fun h => absurd rfl h,
      fun _ => ⟨rfl, rfl, rfl⟩⟩, rfl, hq.symm, rfl, rfl, rfl⟩
  · obtain ⟨k, c, hres, _, _⟩ := setSearchQueryNoJump_spec lowerRune m q hq
    exact ⟨_, hres, ⟨fun _ => searchListed_of lowerRune _ rfl rfl, fun h => absurd h hq⟩,
      rfl, rfl, rfl, rfl, rfl⟩

theorem setSearchQuery_ok (lowerRune : Char → Char) (m : model) (q : Str) :
    ∃ m' : model, m.setSearchQuery lowerRune q = some m' ∧ SearchOk lowerRune m' ∧
      m'.plain = m.plain ∧ m'.searchQuery = trimSpace q := by
  obtain ⟨m1, h1, hok, hp, hsq, _⟩ := setSearchQueryNoJump_ok lowerRune m q
  unfold model.setSearchQuery
  simp only [h1]
  by_cases hc : m1.searchCurrentLine ≥ 0
  · simp only [hc, if_true]
    obtain ⟨r, _, hr⟩ := setOffsetForRenderedLine_total m1 m1.searchCurrentLine
    exact ⟨_, hr, hok, hp, hsq⟩
  · simp only [hc, if_false]
    exact ⟨m1, rfl, hok, hp, hsq⟩

/-- Every key handled by the search prompt returns, and either leaves the model
as it is or leaves the search index up to date over the same plain lines. -/
theorem handleSearchKey_ok (lowerRune : Char → Char) (m : model) (msg : KeyMsg) :
    ∃ m' : model, m.handleSearchKey lowerRune msg = some m' ∧
      (m' = m ∨ (SearchOk lowerRune m' ∧ m'.plain = m.plain)) := by
  unfold model.handleSearchKey
  by_cases c0 : msg.name = "esc"
  · rw [if_pos c0]
    obtain ⟨m', h, hok, hp, _⟩ := setSearchQueryNoJump_ok lowerRune
      { m with searchMode := false, searchDraft := m.searchSavedQuery } m.searchSavedQuery
    exact ⟨m', h, Or.inr ⟨hok, hp⟩⟩
  rw [if_neg c0]
  by_cases c1 : msg.name = "enter"
  · rw [if_pos c1]
    obtain ⟨m', h, hok, hp, _⟩ := setSearchQuery_ok lowerRune
      { m with searchMode := false } m.searchDraft
    exact ⟨m', h, Or.inr ⟨hok, hp⟩⟩
  rw [if_neg c1]
  by_cases c2 : msg.name = "backspace" ∨ msg.name = "ctrl+h"
  · rw [if_pos c2]
    by_cases hd : m.searchDraft = []
    · rw [if_pos hd]
      exact ⟨m, rfl, Or.inl rfl⟩
    · rw [if_neg hd]
      obtain ⟨m', h, hok, hp, _⟩ := setSearchQueryNoJump_ok lowerRune
        { m with searchDraft := dropLastRune m.searchDraft } (dropLastRune m.searchDraft)
      exact ⟨m', h, Or.inr ⟨hok, hp⟩⟩
  rw [if_neg c2]
  by_cases c3 : msg.name = "ctrl+u"
  · rw [if_pos c3]
    obtain ⟨m', h, hok, hp, _⟩ := setSearchQueryNoJump_ok lowerRune
      { m with searchDraft := [] } []
    exact ⟨m', h, Or.inr ⟨hok, hp⟩⟩
  rw [if_neg c3]
  by_cases c4 : msg.Runes.length > 0
  · rw [if_pos c4]
    obtain ⟨m', h, hok, hp, _⟩ := setSearchQueryNoJump_ok lowerRune
      { m with searchDraft := m.searchDraft ++ msg.Runes } (m.searchDraft ++ msg.Runes)
    exact ⟨m', h, Or.inr ⟨hok, hp⟩⟩
  rw [if_neg c4]
  exact ⟨m, rfl, Or.inl rfl⟩

/-- C15. After every query edit that leaves a query which is not empty after
trimming, `searchMatches` is the strictly ascending list of exactly the indices
`i` whose plain line `plain[i]` the smart-case matcher of the query matches, and
`searchSet` holds exactly those indices; with an empty query both are empty and
there is no current match line (`-1`). The same listing holds after every
successful re-render while a query is active, over the new plain lines, and
after every key handled by the search prompt that changes the model. -/
theorem search_match_list (lowerRune : Char → Char) :
    (∀ (m : model) (q : Str), trimSpace q ≠ [] →
      ∃ m' : model, m.setSearchQueryNoJump lowerRune q = some m' ∧
        m'.searchQuery = trimSpace q ∧ m'.plain = m.plain ∧ SearchListed lowerRune m') ∧
    (∀ (m : model) (q : Str), trimSpace q = [] →
      ∃ m' : model, m.setSearchQueryNoJump lowerRune q = some m' ∧
        m'.searchQuery = [] ∧ m'.searchMatches = [] ∧ m'.searchSet = [] ∧
        m'.searchCurrentLine = -1) ∧
    (∀ (render : Renderer) (m : model) (out : Str),
      render m.md (Options.mk m.renderOpts.Style
        (if m.renderOpts.Width ≤ 0 then m.bodyTextWidth else m.renderOpts.Width)) =
          Except.ok out →
      m.searchQuery ≠ [] → DisplayWF m.display →
      ∃ m' : model, m.reRender render lowerRune = some m' ∧
        m'.plain = (splitLines out).map stripANSI ∧ m'.searchQuery = m.searchQuery ∧
        SearchListed lowerRune m') ∧
    (∀ (m : model) (msg : KeyMsg),
      ∃ m' : model, m.handleSearchKey lowerRune msg = some m' ∧
        (m' = m ∨ (SearchOk lowerRune m' ∧ m'.plain = m.plain))) := by
  refine ⟨?_, ?_, ?_, handleSearchKey_ok lowerRune⟩
  · intro m q hq
    obtain ⟨m', h, hok, hp, hsq, _⟩ := setSearchQueryNoJump_ok lowerRune m q
    refine ⟨m', h, hsq, hp, hok.1 ?_⟩
    rw [hsq]
    exact hq
  · intro m q hq
    exact ⟨_, setSearchQueryNoJump_empty lowerRune m q hq, rfl, rfl, rfl, rfl⟩
  · intro render m out hrender hq hwf
    obtain ⟨m', h, _, hp, hsq, hl⟩ := reRender_ok_spec render lowerRune m out hrender hq hwf
    exact ⟨m', h, hp, hsq, hl⟩

theorem search_match_list_witness :
    ∃ m' : model,
      ({ initialModel ['t'] ['x'] { Style := [], Width := 0 } with
          plain := [['a', 'b'], ['c'], ['b']] } : model).setSearchQueryNoJump Char.toLower
        [' ', 'b'] = some m' ∧
      m'.searchQuery = trimSpace [' ', 'b'] ∧
      m'.plain = [['a', 'b'], ['c'], ['b']] ∧ SearchListed Char.toLower m' :=
  (search_match_list Char.toLower).1
    { initialModel ['t'] ['x'] { Style := [], Width := 0 } with
      plain := [['a', 'b'], ['c'], ['b']] } [' ', 'b'] (by decide)

/-- C16. After a query edit (with a query that is not empty after trimming) that
yields at least one match, the match cursor `searchIdx` is a valid index and
`searchCurrentLine` is the rendered line `searchMatches[searchIdx]`; the cursor
selects the first match at or after the viewport offset (the least `i` with
`searchMatches[i] ≥ offset`), and if no match qualifies it is `0`. -/
theorem initial_match_selection (lowerRune : Char → Char) (m : model) (q : Str)
    (hq : trimSpace q ≠ []) :
    ∃ m' : model, m.setSearchQueryNoJump lowerRune q = some m' ∧ m'.offset = m.offset ∧
      SearchListed lowerRune m' ∧
      (m'.searchMatches ≠ [] →
        0 ≤ m'.searchIdx ∧ m'.searchIdx < m'.searchMatches.length ∧
        idx? m'.searchMatches m'.searchIdx = some m'.searchCurrentLine ∧
        ((∃ v ∈ m'.searchMatches, m.offset ≤ v) →
          m.offset ≤ m'.searchCurrentLine ∧
          ∀ (j : Nat) (hj : j < m'.searchMatches.length), (j : Int) < m'.searchIdx →
            m'.searchMatches.get ⟨j, hj⟩ < m.offset) ∧
        ((∀ v ∈ m'.searchMatches, v < m.offset) → m'.searchIdx = 0)) := by
  obtain ⟨k, c, hres, _, hsel⟩ := setSearchQueryNoJump_spec lowerRune m q hq
  refine ⟨_, hres, rfl, searchListed_of lowerRune _ rfl rfl, ?_⟩
  dsimp only
  intro hne
  obtain ⟨hk, hk0, hk1, hv⟩ := hsel hne
  have hfm := firstMatchLoop_spec (recomputeSearchLoop lowerRune
      (newSearchMatcher lowerRune (trimSpace q)) m.plain 0 [] []).1 m.offset 0
  refine ⟨hk0, hk1, hv, ?_, ?_⟩
  · rintro ⟨v, hvmem, hvo⟩
    have hlt : firstMatchLoop (recomputeSearchLoop lowerRune
        (newSearchMatcher lowerRune (trimSpace q)) m.plain 0 [] []).1 m.offset 0 <
        ((recomputeSearchLoop lowerRune (newSearchMatcher lowerRune (trimSpace q))
          m.plain 0 [] []).1.length : Int) := by
      by_contra hcon
      obtain ⟨p, hp⟩ := List.mem_iff_get.mp hvmem
      have := hfm.2.2.1 p.val p.isLt (by have := p.isLt; omega)
      have hp' : (recomputeSearchLoop lowerRune (newSearchMatcher lowerRune (trimSpace q))
          m.plain 0 [] []).1.get ⟨p.val, p.isLt⟩ = v := hp
      omega
    have hkeq : k = firstMatchLoop (recomputeSearchLoop lowerRune
        (newSearchMatcher lowerRune (trimSpace q)) m.plain 0 [] []).1 m.offset 0 := by
      rw [hk, if_neg (by omega)]
    have hi := idx?_of_lt _ _ hk0 hk1
    have hget := hfm.2.2.2 k.toNat hi.2 (by omega)
    have hc : (recomputeSearchLoop lowerRune (newSearchMatcher lowerRune (trimSpace q))
          m.plain 0 [] []).1.get ⟨k.toNat, hi.2⟩ = c := by
      have := hv
      rw [hi.1, List.getElem?_eq_getElem hi.2] at this
      exact Option.some.inj this
    refine ⟨?_, ?_⟩
    · show m.offset ≤ c
      omega
    · intro j hj hjk
      exact hfm.2.2.1 j hj (by
        have : (j : Int) < k := hjk
        omega)
  · intro hall
    show k = 0
    rw [hk]
    by_cases hge : firstMatchLoop (recomputeSearchLoop lowerRune
        (newSearchMatcher lowerRune (trimSpace q)) m.plain 0 [] []).1 m.offset 0 ≥
        ((recomputeSearchLoop lowerRune (newSearchMatcher lowerRune (trimSpace q))
          m.plain 0 [] []).1.length : Int)
    · rw [if_pos hge]
    · exfalso
      have h0 := hfm.1
      have hlt : (firstMatchLoop (recomputeSearchLoop lowerRune
        (newSearchMatcher lowerRune (trimSpace q)) m.plain 0 [] []).1 m.offset 0).toNat <
          (recomputeSearchLoop lowerRune (newSearchMatcher lowerRune (trimSpace q))
            m.plain 0 [] []).1.length := by omega
      have := hfm.2.2.2 _ hlt (by omega)
      have := hall _ (List.get_mem _ _ hlt)
      omega

theorem initial_match_selection_witness :
    ∃ m' : model,
      ({ initialModel ['t'] ['x'] { Style := [], Width := 0 } with
          plain := [['a', 'b'], ['c'], ['b']], offset := 1 } : model).setSearchQueryNoJump
        Char.toLower ['b'] = some m' ∧ m'.offset = 1 ∧ SearchListed Char.toLower m' :=
  match initial_match_selection Char.toLower
    { initialModel ['t'] ['x'] { Style := [], Width := 0 } with
      plain := [['a', 'b'], ['c'], ['b']], offset := 1 } ['b'] (by decide) with
  | ⟨m', h1, h2, h3, _⟩ => ⟨m', h1, h2, h3⟩


/-! ## search.go: next and previous match -/

theorem displayRow_congr (m1 m2 : model) (line : Int) (h : m1.display = m2.display) :
    m1.displayRowForRenderedLine line = m2.displayRowForRenderedLine line := by
  unfold model.displayRowForRenderedLine
  rw [h]

/-- What `jumpNextMatch` does when a query is active, there is a match and the
match cursor is a valid index: the cursor moves circularly, the current line is
the selected match, and the offset is the clamped display row of that line. -/
theorem jumpNextMatch_spec (m : model) (delta : Int) (hq : m.searchQuery ≠ [])
    (hne : m.searchMatches ≠ [])
    (hidx : 0 ≤ m.searchIdx ∧ m.searchIdx < m.searchMatches.length) :
    ∃ (k v r : Int),
      k = (if delta ≥ 0 then (m.searchIdx + 1) % (m.searchMatches.length : Int)
           else (m.searchIdx - 1 + (m.searchMatches.length : Int)) %
             (m.searchMatches.length : Int)) ∧
      0 ≤ k ∧ k < m.searchMatches.length ∧
      idx? m.searchMatches k = some v ∧
      m.displayRowForRenderedLine v = some r ∧
      m.jumpNextMatch delta = some
        { m with searchIdx := k, searchCurrentLine := v, offset := clamp r 0 m.maxOffset } := by
  have hlen : 0 < (m.searchMatches.length : Int) := by
    have := List.length_pos.mpr hne
    omega
  have hcond : ¬ (m.searchQuery = [] ∨ m.searchMatches.length = 0) := by
    rintro (h | h)
    · exact hq h
    · omega
  by_cases hd : delta ≥ 0
  · have hk0 : 0 ≤ (m.searchIdx + 1) % (m.searchMatches.length : Int) :=
      Int.emod_nonneg _ (by omega)
    have hk1 : (m.searchIdx + 1) % (m.searchMatches.length : Int) < m.searchMatches.length :=
      Int.emod_lt_of_pos _ hlen
    have htm : (m.searchIdx + 1).tmod (m.searchMatches.length : Int) =
        (m.searchIdx + 1) % (m.searchMatches.length : Int) :=
      Int.tmod_eq_emod (by omega) (by omega)
    obtain ⟨v, hv⟩ : ∃ v : Int, idx? m.searchMatches
        ((m.searchIdx + 1) % (m.searchMatches.length : Int)) = some v := by
      have hi := idx?_of_lt _ _ hk0 hk1
      rw [hi.1, List.getElem?_eq_getElem hi.2]
      exact ⟨_, rfl⟩
    obtain ⟨r, hr, hset⟩ := setOffsetForRenderedLine_total
      { m with searchIdx := (m.searchIdx + 1) % (m.searchMatches.length : Int),
               searchCurrentLine := v } v
    refine ⟨_, v, r, by rw [if_pos hd], hk0, hk1, hv, ?_, ?_⟩
    · rw [← hr]
      exact displayRow_congr _ _ _ rfl
    · unfold model.jumpNextMatch
      simp only [hcond, if_false, hd, if_true, htm, hv]
      exact hset
  · have hk : (m.searchIdx - 1 + (m.searchMatches.length : Int)) %
        (m.searchMatches.length : Int) =
        (if m.searchIdx - 1 < 0 then (m.searchMatches.length : Int) - 1 else m.searchIdx - 1) := by
      by_cases h0 : m.searchIdx - 1 < 0
      · rw [if_pos h0]
        have : m.searchIdx - 1 + (m.searchMatches.length : Int) =
            (m.searchMatches.length : Int) - 1 := by omega
        rw [this]
        exact Int.emod_eq_of_lt (by omega) (by omega)
      · rw [if_neg h0, Int.add_emod_self]
        exact Int.emod_eq_of_lt (by omega) (by omega)
    have hk0 : 0 ≤ (if m.searchIdx - 1 < 0 then (m.searchMatches.length : Int) - 1
        else m.searchIdx - 1) := by
      split_ifs <;> omega
    have hk1 : (if m.searchIdx - 1 < 0 then (m.searchMatches.length : Int) - 1
        else m.searchIdx - 1) < m.searchMatches.length := by
      split_ifs <;> omega
    obtain ⟨v, hv⟩ : ∃ v : Int, idx? m.searchMatches
        (if m.searchIdx - 1 < 0 then (m.searchMatches.length : Int) - 1
          else m.searchIdx - 1) = some v := by
      have hi := idx?_of_lt _ _ hk0 hk1
      rw [hi.1, List.getElem?_eq_getElem hi.2]
      exact ⟨_, rfl⟩
    obtain ⟨r, hr, hset⟩ := setOffsetForRenderedLine_total
      { m with searchIdx := (if m.searchIdx - 1 < 0 then (m.searchMatches.length : Int) - 1
                 else m.searchIdx - 1),
               searchCurrentLine := v } v
    refine ⟨_, v, r, by rw [if_neg hd, hk], hk0, hk1, hv, ?_, ?_⟩
    · rw [← hr]
      exact displayRow_congr _ _ _ rfl
    · unfold model.jumpNextMatch
      simp only [hcond, if_false, hd]
      by_cases h0 : m.searchIdx - 1 < 0
      · simp only [h0, if_true] at hv hset ⊢
        simp only [hv]
        exact hset
      · simp only [h0, if_false] at hv hset ⊢
        simp only [hv]
        exact hset

theorem jumpNextTimes_spec :
    ∀ (t : Nat) (m : model), m.searchQuery ≠ [] → m.searchMatches ≠ [] →
      (0 ≤ m.searchIdx ∧ m.searchIdx < m.searchMatches.length) →
      ∃ m' : model, jumpNextTimes t m = some m' ∧
        m'.searchIdx = (m.searchIdx + t) % (m.searchMatches.length : Int) ∧
        m'.searchMatches = m.searchMatches ∧ m'.searchQuery = m.searchQuery ∧
        (0 < t → idx? m.searchMatches m'.searchIdx = some m'.searchCurrentLine) := by
  intro t
  induction t with
  | zero =>
    intro m _ _ hidx
    refine ⟨m, rfl, ?_, rfl, rfl, fun h => absurd h (lt_irrefl _)⟩
    simp only [Nat.cast_zero, add_zero]
    exact (Int.emod_eq_of_lt hidx.1 hidx.2).symm
  | succ t ih =>
    intro m hq hne hidx
    obtain ⟨k, v, r, hk, hk0, hk1, hv, _, hjump⟩ := jumpNextMatch_spec m 1 hq hne hidx
    rw [if_pos (by decide)] at hk
    obtain ⟨m', h1, h2, h3, h4, h5⟩ := ih
      { m with searchIdx := k, searchCurrentLine := v, offset := clamp r 0 m.maxOffset }
      hq hne ⟨hk0, hk1⟩
    refine ⟨m', ?_, ?_, h3, h4, fun _ => ?_⟩
    · unfold jumpNextTimes
      simp only [hjump]
      exact h1
    · rw [h2]
      show (k + (t : Int)) % (m.searchMatches.length : Int) = _
      rw [hk, Int.emod_add_emod]
      congr 1
      push_cast
      omega
    · cases t with
      | zero =>
        have h1' : m' = _ := (Option.some.inj h1).symm
        subst h1'
        exact hv
      | succ t => exact h5 (Nat.succ_pos _)

/-- C17. For every state with an active query, `n ≥ 1` matches and a match
cursor `0 ≤ searchIdx < n`: Next (`jumpNextMatch(+1)`) returns with the cursor
`(searchIdx + 1) mod n`, Previous (`jumpNextMatch(-1)`) with
`(searchIdx - 1 + n) mod n`, and in both cases `searchCurrentLine` becomes the
match at the new cursor; Next followed by Previous restores the cursor and its
line, and `n` consecutive Nexts return to the starting match. -/
theorem next_prev_cycle (m : model) (hq : m.searchQuery ≠ []) (hne : m.searchMatches ≠ [])
    (hidx : 0 ≤ m.searchIdx ∧ m.searchIdx < m.searchMatches.length) :
    (∃ m' : model, m.jumpNextMatch 1 = some m' ∧
      m'.searchIdx = (m.searchIdx + 1) % (m.searchMatches.length : Int) ∧
      m'.searchMatches = m.searchMatches ∧
      idx? m'.searchMatches m'.searchIdx = some m'.searchCurrentLine) ∧
    (∃ m' : model, m.jumpNextMatch (-1) = some m' ∧
      m'.searchIdx = (m.searchIdx - 1 + (m.searchMatches.length : Int)) %
        (m.searchMatches.length : Int) ∧
      m'.searchMatches = m.searchMatches ∧
      idx? m'.searchMatches m'.searchIdx = some m'.searchCurrentLine) ∧
    (∃ m1 m2 : model, m.jumpNextMatch 1 = some m1 ∧ m1.jumpNextMatch (-1) = some m2 ∧
      m2.searchIdx = m.searchIdx ∧
      idx? m.searchMatches m.searchIdx = some m2.searchCurrentLine) ∧
    (∃ m' : model, jumpNextTimes m.searchMatches.length m = some m' ∧
      m'.searchIdx = m.searchIdx ∧
      idx? m.searchMatches m.searchIdx = some m'.searchCurrentLine) := by
  have hlen : 0 < m.searchMatches.length := List.length_pos.mpr hne
  obtain ⟨k, v, r, hk, hk0, hk1, hv, _, hjump⟩ := jumpNextMatch_spec m 1 hq hne hidx
  rw [if_pos (by decide)] at hk
  obtain ⟨k', v', r', hk', _, _, hv', _, hjump'⟩ := jumpNextMatch_spec m (-1) hq hne hidx
  rw [if_neg (by decide)] at hk'
  obtain ⟨k2, v2, r2, hk2, _, _, hv2, _, hjump2⟩ := jumpNextMatch_spec
    { m with searchIdx := k, searchCurrentLine := v, offset := clamp r 0 m.maxOffset }
    (-1) hq hne ⟨hk0, hk1⟩
  rw [if_neg (by decide)] at hk2
  have hback : k2 = m.searchIdx := by
    rw [hk2]
    show (k - 1 + (m.searchMatches.length : Int)) % (m.searchMatches.length : Int) = _
    by_cases hwrap : m.searchIdx + 1 < m.searchMatches.length
    · have : k = m.searchIdx + 1 := by
        rw [hk]
        exact Int.emod_eq_of_lt (by omega) hwrap
      rw [this, Int.add_emod_self]
      have e : m.searchIdx + 1 - 1 = m.searchIdx := by omega
      rw [e]
      exact Int.emod_eq_of_lt hidx.1 hidx.2
    · have hidxeq : m.searchIdx + 1 = (m.searchMatches.length : Int) := by omega
      have : k = 0 := by
        rw [hk, hidxeq]
        exact Int.emod_self
      rw [this]
      have : (0 : Int) - 1 + (m.searchMatches.length : Int) = m.searchIdx := by omega
      rw [this]
      exact Int.emod_eq_of_lt hidx.1 hidx.2
  obtain ⟨mn, hn1, hn2, _, _, hn5⟩ := jumpNextTimes_spec m.searchMatches.length m hq hne hidx
  have hnidx : mn.searchIdx = m.searchIdx := by
    rw [hn2, Int.add_emod_self]
    exact Int.emod_eq_of_lt hidx.1 hidx.2
  refine ⟨⟨_, hjump, hk, rfl, hv⟩, ⟨_, hjump', hk', rfl, hv'⟩, ⟨_, _, hjump, hjump2, hback, ?_⟩,
    ⟨mn, hn1, hnidx, ?_⟩⟩
  · rw [← hback]
    exact hv2
  · rw [← hnidx]
    exact hn5 hlen

theorem next_prev_cycle_witness :
    ∃ m' : model,
      ({ initialModel ['t'] ['x'] { Style := [], Width := 0 } with
          plain := [['b'], ['c'], ['b']], searchQuery := ['b'], searchMatches := [0, 2],
          searchIdx := 1 } : model).jumpNextMatch 1 = some m' ∧
      m'.searchIdx = (1 + 1) % (([0, 2] : List Int).length : Int) ∧
      m'.searchMatches = [0, 2] ∧
      idx? m'.searchMatches m'.searchIdx = some m'.searchCurrentLine :=
  (next_prev_cycle
    { initialModel ['t'] ['x'] { Style := [], Width := 0 } with
      plain := [['b'], ['c'], ['b']], searchQuery := ['b'], searchMatches := [0, 2],
      searchIdx := 1 } (by decide) (by decide) (by decide)).1


/-! ## search.go: visibility of the selected match -/

theorem list_singleton_At (v : Int) (r : Int) (hv : v = 0) :
    (newListDisplayIndex [v]).At r = some 0 := by
  subst hv
  unfold displayIndex.At newListDisplayIndex
  by_cases h0 : r < 0
  · simp [h0]
  · simp only [h0, if_false, List.length_singleton, Nat.cast_one]
    by_cases h1 : r ≥ 1
    · simp only [h1, if_true]
      rfl
    · simp only [h1, if_false]
      have : r = 0 := by omega
      subst this
      rfl

/-- C18, counterexample. In outline view the selected match need not be shown:
for the document `# H`, `foo`, folded to level 1 (display index `List [0]`), the
query `foo` matches rendered line 1; after Enter and Next the current match line
is 1, while every display row maps to rendered line 0. -/
theorem match_hidden_in_outline :
    ∃ m : model, Reachable ['t'] "# H\nfoo".data { Style := [], Width := 0 } m ∧
      m.searchMatches = [1] ∧ m.searchCurrentLine = 1 ∧
      m.display = newListDisplayIndex [0] ∧
      ∀ r : Int, m.display.At r ≠ some m.searchCurrentLine := by
  refine ⟨_,
    Reachable.step headingAndBodyRenderer Char.toLower
      (Msg.KeyMsg { name := "n", Runes := ['n'] }) _ _ _
    (Reachable.step headingAndBodyRenderer Char.toLower
      (Msg.KeyMsg { name := "enter", Runes := [] }) _ _ _
    (Reachable.step headingAndBodyRenderer Char.toLower
      (Msg.KeyMsg { name := "o", Runes := ['o'] }) _ _ _
    (Reachable.step headingAndBodyRenderer Char.toLower
      (Msg.KeyMsg { name := "o", Runes := ['o'] }) _ _ _
    (Reachable.step headingAndBodyRenderer Char.toLower
      (Msg.KeyMsg { name := "f", Runes := ['f'] }) _ _ _
    (Reachable.step headingAndBodyRenderer Char.toLower
      (Msg.KeyMsg { name := "/", Runes := ['/'] }) _ _ _
    (Reachable.step headingAndBodyRenderer Char.toLower
      (Msg.KeyMsg { name := "1", Runes := ['1'] }) _ _ _
    (Reachable.step headingAndBodyRenderer Char.toLower (Msg.WindowSizeMsg 80 24) _ _ _
      Reachable.init rfl) rfl) rfl) rfl) rfl) rfl) rfl) rfl,
    rfl, rfl, rfl, ?_⟩
  intro r
  show (newListDisplayIndex [0]).At r ≠ some 1
  rw [list_singleton_At 0 r rfl]
  decide

theorem pageSize_pos (m : model) : 1 ≤ m.pageSize := by
  unfold model.pageSize imax
  split <;> omega

theorem clamp_window (v L p : Int) (hv : 0 ≤ v) (hvL : v < L) (hp : 1 ≤ p) :
    clamp v 0 (imax 0 (L - p)) ≤ v ∧ v < clamp v 0 (imax 0 (L - p)) + p ∧
      (v ≤ imax 0 (L - p) → clamp v 0 (imax 0 (L - p)) = v) := by
  unfold clamp imax
  split_ifs <;> omega

theorem idx?_mem {α : Type} (xs : List α) (i : Int) (x : α) (h : idx? xs i = some x) :
    x ∈ xs := by
  obtain ⟨h0, h1⟩ := idx?_some_range xs i x h
  rw [(idx?_of_lt xs i h0 h1).1] at h
  exact List.getElem?_mem h

/-- What `jumpNextMatch` does in full view when every match is a row of the
display index, and in outline view with strictly ascending display lines. -/
theorem jump_shows_match_parts (m : model) (delta : Int) (hq : m.searchQuery ≠ [])
    (hne : m.searchMatches ≠ [])
    (hidx : 0 ≤ m.searchIdx ∧ m.searchIdx < m.searchMatches.length) :
    (m.display.kind = displayIndexIdentity →
      (∀ v ∈ m.searchMatches, 0 ≤ v ∧ v < m.display.Len) →
      ∃ m' : model, m.jumpNextMatch delta = some m' ∧
        m'.display = m.display ∧ m'.height = m.height ∧
        (∃ r : Int, m'.offset ≤ r ∧ r < m'.offset + m'.pageSize ∧
          m'.display.At r = some m'.searchCurrentLine) ∧
        (m'.searchCurrentLine ≤ m'.maxOffset → m'.offset = m'.searchCurrentLine)) ∧
    (m.display.kind = displayIndexList →
      m.display.lines.Pairwise (fun a b => a < b) →
      ∃ (m' : model) (r0 : Int), m.jumpNextMatch delta = some m' ∧
        m'.display = m.display ∧ m'.height = m.height ∧
        -1 ≤ r0 ∧ r0 < m.display.lines.length ∧
        (∀ (i : Nat) (h : i < m.display.lines.length),
          m.display.lines.get ⟨i, h⟩ ≤ m'.searchCurrentLine ↔ (i : Int) ≤ r0) ∧
        m'.offset = clamp (max r0 0) 0 m'.maxOffset ∧
        (m'.searchCurrentLine ∈ m.display.lines →
          m.display.Len = m.display.lines.length →
          ∃ r : Int, m'.offset ≤ r ∧ r < m'.offset + m'.pageSize ∧
            m'.display.At r = some m'.searchCurrentLine)) := by
  obtain ⟨k, v, r, _, _, _, hv, hr, hj⟩ := jumpNextMatch_spec m delta hq hne hidx
  have hp := pageSize_pos m
  constructor
  · intro hkind hvalid
    obtain ⟨hv0, hvL⟩ := hvalid v (idx?_mem _ _ _ hv)
    unfold model.displayRowForRenderedLine at hr
    rw [if_pos hkind] at hr
    have hrv : r = v := by
      have h1 : clamp v 0 (imax 0 (m.display.Len - 1)) = v := by
        unfold clamp imax
        split_ifs <;> omega
      rw [h1] at hr
      exact (Option.some.inj hr).symm
    subst hrv
    obtain ⟨w1, w2, w3⟩ := clamp_window r m.display.Len m.pageSize hv0 hvL hp
    refine ⟨_, hj, rfl, rfl, ⟨r, ?_, ?_, ?_⟩, ?_⟩
    · exact w1
    · exact w2
    · show m.display.At r = some r
      unfold displayIndex.At
      have hn : ¬ r < 0 := by omega
      rw [if_neg hn, hkind]
      have hn2 : ¬ r ≥ m.display.size := by
        unfold displayIndex.Len at hvL
        omega
      simp only [hn2, if_false]
    · exact w3
  · intro hkind hsorted
    obtain ⟨r0, hr0, hlo, hhi, hchar⟩ := displayRow_list_spec m v hkind hsorted
    rw [hr] at hr0
    have hrr : r = max r0 0 := Option.some.inj hr0
    refine ⟨_, r0, hj, rfl, rfl, hlo, hhi, hchar, ?_, ?_⟩
    · show clamp r 0 m.maxOffset = clamp (max r0 0) 0 m.maxOffset
      rw [hrr]
    · intro hmemv hsize
      change v ∈ m.display.lines at hmemv
      obtain ⟨⟨i, hi⟩, hget⟩ := List.mem_iff_get.mp hmemv
      have hile : (i : Int) ≤ r0 := (hchar i hi).mp (le_of_eq hget)
      have hr0n : 0 ≤ r0 := by omega
      have hr0lt : r0.toNat < m.display.lines.length := by omega
      have hle2 : m.display.lines.get ⟨r0.toNat, hr0lt⟩ ≤ v :=
        (hchar r0.toNat hr0lt).mpr (by omega)
      have hget2 : m.display.lines.get ⟨r0.toNat, hr0lt⟩ = v := by
        rcases Nat.lt_or_ge i r0.toNat with hlt | hge
        · have hs := sorted_get_of_pairwise_lt _ hsorted
          have := List.pairwise_iff_get.mp hsorted ⟨i, hi⟩ ⟨r0.toNat, hr0lt⟩ hlt
          rw [hget] at this
          omega
        · have : i = r0.toNat := by omega
          subst this
          exact hget
      have hmax : max r0 0 = r0 := max_eq_left hr0n
      rw [hmax] at hrr
      subst hrr
      obtain ⟨w1, w2, _⟩ := clamp_window r m.display.Len m.pageSize hr0n
        (by rw [hsize]; exact hhi) hp
      refine ⟨r, w1, w2, ?_⟩
      show m.display.At r = some v
      unfold displayIndex.At
      have hn : ¬ r < 0 := by omega
      rw [if_neg hn, hkind]
      have hn2 : ¬ r ≥ (m.display.lines.length : Int) := by omega
      simp only [hn2, if_false]
      rw [← hget2]
      rw [(idx?_of_lt _ r hr0n hhi).1]
      exact List.getElem?_eq_getElem hr0lt

/-- C18, amended. After `jumpNextMatch` (any direction) from a state with a
query, a nonempty match list and a cursor inside it:
(full view) when every match line `v` is a row of the identity display index
(`0 ≤ v < display.Len()`), the selected match line is `display.At r` for a row
`r` of the viewport (`offset ≤ r < offset + pageSize`), and it is the top row
when it is at most `maxOffset`;
(outline view, display lines strictly ascending) the viewport goes to
`clamp (max r0 0) 0 maxOffset`, where `r0` is the row of the last visible line
that is at most the match line (`-1` when there is none); the match line is
shown in the viewport when it is itself one of the visible lines;
(full view, any match lines) the new offset is
`clamp (clamp line 0 (max 0 (display.Len() - 1))) 0 maxOffset` for the selected
match line. -/
theorem jump_shows_match (m : model) (delta : Int) (hq : m.searchQuery ≠ [])
    (hne : m.searchMatches ≠ [])
    (hidx : 0 ≤ m.searchIdx ∧ m.searchIdx < m.searchMatches.length) :
    (m.display.kind = displayIndexIdentity →
      (∀ v ∈ m.searchMatches, 0 ≤ v ∧ v < m.display.Len) →
      ∃ m' : model, m.jumpNextMatch delta = some m' ∧
        m'.display = m.display ∧ m'.height = m.height ∧
        (∃ r : Int, m'.offset ≤ r ∧ r < m'.offset + m'.pageSize ∧
          m'.display.At r = some m'.searchCurrentLine) ∧
        (m'.searchCurrentLine ≤ m'.maxOffset → m'.offset = m'.searchCurrentLine)) ∧
    (m.display.kind = displayIndexList →
      m.display.lines.Pairwise (fun a b => a < b) →
      ∃ (m' : model) (r0 : Int), m.jumpNextMatch delta = some m' ∧
        m'.display = m.display ∧ m'.height = m.height ∧
        -1 ≤ r0 ∧ r0 < m.display.lines.length ∧
        (∀ (i : Nat) (h : i < m.display.lines.length),
          m.display.lines.get ⟨i, h⟩ ≤ m'.searchCurrentLine ↔ (i : Int) ≤ r0) ∧
        m'.offset = clamp (max r0 0) 0 m'.maxOffset ∧
        (m'.searchCurrentLine ∈ m.display.lines →
          m.display.Len = m.display.lines.length →
          ∃ r : Int, m'.offset ≤ r ∧ r < m'.offset + m'.pageSize ∧
            m'.display.At r = some m'.searchCurrentLine)) ∧
    (m.display.kind = displayIndexIdentity →
      ∃ m' : model, m.jumpNextMatch delta = some m' ∧ m'.display = m.display ∧
        m'.height = m.height ∧
        idx? m.searchMatches m'.searchIdx = some m'.searchCurrentLine ∧
        m'.offset =
          clamp (clamp m'.searchCurrentLine 0 (max 0 (m.display.Len - 1))) 0 m'.maxOffset) := by
  obtain ⟨hA, hB⟩ := jump_shows_match_parts m delta hq hne hidx
  refine ⟨hA, hB, ?_⟩
  intro hkind
  obtain ⟨k, v, r, _, _, _, hv, hr, hj⟩ := jumpNextMatch_spec m delta hq hne hidx
  unfold model.displayRowForRenderedLine at hr
  rw [if_pos hkind, imax_eq] at hr
  refine ⟨_, hj, rfl, rfl, hv, ?_⟩
  show clamp r 0 m.maxOffset = clamp (clamp v 0 (max 0 (m.display.Len - 1))) 0 m.maxOffset
  rw [← Option.some.inj hr]

theorem jump_shows_match_witness :
    ∃ m' : model,
      ({ initialModel ['t'] ['x'] { Style := [], Width := 0 } with
          height := 4, display := newIdentityDisplayIndex 5,
          searchQuery := ['b'], searchMatches := [0, 3],
          searchIdx := 0 } : model).jumpNextMatch 1 = some m' ∧
      m'.display = newIdentityDisplayIndex 5 ∧ m'.height = 4 ∧
      (∃ r : Int, m'.offset ≤ r ∧ r < m'.offset + m'.pageSize ∧
        m'.display.At r = some m'.searchCurrentLine) ∧
      (m'.searchCurrentLine ≤ m'.maxOffset → m'.offset = m'.searchCurrentLine) :=
  (jump_shows_match
    { initialModel ['t'] ['x'] { Style := [], Width := 0 } with
      height := 4, display := newIdentityDisplayIndex 5,
      searchQuery := ['b'], searchMatches := [0, 3],
      searchIdx := 0 } 1 (by decide) (by decide) (by decide)).1 rfl (by decide)


/-! ## view.go: movement keys and the mouse wheel -/

theorem update_move_keys (render : Renderer) (lowerRune : Char → Char) (m : model)
    (runes : Str) (hs : m.searchMode = false) (ht : m.showTOC = false)
    (hh : m.showHelp = false) :
    (∀ name, name = "j" ∨ name = "down" →
      m.Update render lowerRune (Msg.KeyMsg ⟨name, runes⟩) =
        model.finish { m with offset := m.offset + 1 }) ∧
    (∀ name, name = "k" ∨ name = "up" →
      m.Update render lowerRune (Msg.KeyMsg ⟨name, runes⟩) =
        model.finish { m with offset := m.offset - 1 }) ∧
    (m.Update render lowerRune (Msg.KeyMsg ⟨"d", runes⟩) =
        model.finish { m with offset := m.offset + imax 1 (m.pageSize.tdiv 2) }) ∧
    (m.Update render lowerRune (Msg.KeyMsg ⟨"u", runes⟩) =
        model.finish { m with offset := m.offset - imax 1 (m.pageSize.tdiv 2) }) ∧
    (∀ name, name = "pgdown" ∨ name = "f" ∨ name = " " →
      m.Update render lowerRune (Msg.KeyMsg ⟨name, runes⟩) =
        model.finish { m with offset := m.offset + imax 1 m.pageSize }) ∧
    (∀ name, name = "pgup" ∨ name = "b" →
      m.Update render lowerRune (Msg.KeyMsg ⟨name, runes⟩) =
        model.finish { m with offset := m.offset - imax 1 m.pageSize }) ∧
    (∀ name, name = "home" ∨ name = "g" →
      m.Update render lowerRune (Msg.KeyMsg ⟨name, runes⟩) =
        model.finish { m with offset := 0 }) ∧
    (∀ name, name = "end" ∨ name = "G" →
      m.Update render lowerRune (Msg.KeyMsg ⟨name, runes⟩) =
        model.finish { m with offset := m.maxOffset }) := by
  cases m
  dsimp only at hs ht hh
  subst hs ht hh
  refine ⟨?_, ?_, rfl, rfl, ?_, ?_, ?_, ?_⟩
  · rintro name (rfl | rfl) <;> rfl
  · rintro name (rfl | rfl) <;> rfl
  · rintro name (rfl | rfl | rfl) <;> rfl
  · rintro name (rfl | rfl) <;> rfl
  · rintro name (rfl | rfl) <;> rfl
  · rintro name (rfl | rfl) <;> rfl

theorem update_mouse_wheel (render : Renderer) (lowerRune : Char → Char) (m : model)
    (hh : m.showHelp = false) :
    m.Update render lowerRune (Msg.MouseMsg MouseEventType.MouseWheelDown) =
        model.finish { m with offset := m.offset + 3 } ∧
    m.Update render lowerRune (Msg.MouseMsg MouseEventType.MouseWheelUp) =
        model.finish { m with offset := m.offset - 3 } := by
  cases m
  dsimp only at hh
  subst hh
  exact ⟨rfl, rfl⟩

theorem finish_offset (m : model) (o : Int) :
    model.finish { m with offset := o } =
      some ({ m with offset := clamp o 0 m.maxOffset }, Cmd.nil) := rfl

theorem maxOffset_nonneg (m : model) : 0 ≤ m.maxOffset := by
  unfold model.maxOffset imax
  split <;> omega

theorem half_page_eq (m : model) : imax 1 (m.pageSize.tdiv 2) = max 1 (m.pageSize / 2) := by
  rw [imax_eq, Int.tdiv_eq_ediv (by have := pageSize_pos m; omega) (by omega)]

/-- C19. With no search prompt, table of contents or help open, `Update` on a
movement key returns the state with only the offset changed, to
`clamp (offset + delta) 0 maxOffset` with delta `+1`/`-1` for `j`,`down` /
`k`,`up`, plus or minus `max 1 (pageSize / 2)` for `d` / `u`, plus or minus `max 1 pageSize` for
`pgdown`,`f`,space / `pgup`,`b`, and `+3`/`-3` for the mouse wheel down/up;
the new offset is `0` for `g`,`home` and `maxOffset` for `G`,`end`; here
`pageSize = max 1 (height - 2)` and `maxOffset = max 0 (display.Len - pageSize)`. -/
theorem movement_arithmetic (render : Renderer) (lowerRune : Char → Char) (m : model)
    (runes : Str) (hs : m.searchMode = false) (ht : m.showTOC = false)
    (hh : m.showHelp = false) :
    m.pageSize = max 1 (m.height - 2) ∧
    m.maxOffset = max 0 (m.display.Len - m.pageSize) ∧
    (∀ (name : String) (delta : Int), specMovementDelta m.pageSize name = some delta →
      m.Update render lowerRune (Msg.KeyMsg ⟨name, runes⟩) =
        some ({ m with offset := clamp (m.offset + delta) 0 m.maxOffset }, Cmd.nil)) ∧
    (m.Update render lowerRune (Msg.MouseMsg MouseEventType.MouseWheelDown) =
        some ({ m with offset := clamp (m.offset + 3) 0 m.maxOffset }, Cmd.nil)) ∧
    (m.Update render lowerRune (Msg.MouseMsg MouseEventType.MouseWheelUp) =
        some ({ m with offset := clamp (m.offset + -3) 0 m.maxOffset }, Cmd.nil)) ∧
    (∀ name : String, name = "g" ∨ name = "home" →
      m.Update render lowerRune (Msg.KeyMsg ⟨name, runes⟩) =
        some ({ m with offset := 0 }, Cmd.nil)) ∧
    (∀ name : String, name = "G" ∨ name = "end" →
      m.Update render lowerRune (Msg.KeyMsg ⟨name, runes⟩) =
        some ({ m with offset := m.maxOffset }, Cmd.nil)) := by
  obtain ⟨kj, kk, kd, ku, kf, kb, kg, kG⟩ := update_move_keys render lowerRune m runes hs ht hh
  obtain ⟨wd, wu⟩ := update_mouse_wheel render lowerRune m hh
  have hM := maxOffset_nonneg m
  refine ⟨imax_eq _ _, imax_eq _ _, ?_, ?_, ?_, ?_, ?_⟩
  · intro name delta hd
    unfold specMovementDelta at hd
    by_cases c1 : name = "j" ∨ name = "down"
    · rw [if_pos c1] at hd
      rw [kj name c1, finish_offset, ← Option.some.inj hd]
    rw [if_neg c1] at hd
    by_cases c2 : name = "k" ∨ name = "up"
    · rw [if_pos c2] at hd
      rw [kk name c2, finish_offset, ← Option.some.inj hd]
      rfl
    rw [if_neg c2] at hd
    by_cases c3 : name = "d"
    · rw [if_pos c3] at hd
      subst c3
      rw [kd, finish_offset, ← Option.some.inj hd, half_page_eq]
    rw [if_neg c3] at hd
    by_cases c4 : name = "u"
    · rw [if_pos c4] at hd
      subst c4
      rw [ku, finish_offset, ← Option.some.inj hd, half_page_eq, Int.sub_eq_add_neg]
    rw [if_neg c4] at hd
    by_cases c5 : name = "pgdown" ∨ name = "f" ∨ name = " "
    · rw [if_pos c5] at hd
      rw [kf name c5, finish_offset, ← Option.some.inj hd, imax_eq]
    rw [if_neg c5] at hd
    by_cases c6 : name = "pgup" ∨ name = "b"
    · rw [if_pos c6] at hd
      rw [kb name c6, finish_offset, ← Option.some.inj hd, imax_eq, Int.sub_eq_add_neg]
    rw [if_neg c6] at hd
    exact absurd hd (by simp)
  · rw [wd, finish_offset]
  · rw [wu, finish_offset]
    rfl
  · intro name hn
    rw [kg name (Or.symm hn), finish_offset]
    have : clamp 0 0 m.maxOffset = 0 := by
      unfold clamp
      split_ifs <;> omega
    rw [this]
  · intro name hn
    rw [kG name (Or.symm hn), finish_offset]
    have : clamp m.maxOffset 0 m.maxOffset = m.maxOffset := by
      unfold clamp
      split_ifs <;> omega
    rw [this]

theorem movement_arithmetic_witness :
    model.Update headingAndBodyRenderer Char.toLower
        { initialModel ['t'] ['x'] { Style := [], Width := 0 } with
          height := 10, display := newIdentityDisplayIndex 50, offset := 7 }
        (Msg.KeyMsg ⟨"d", ['d']⟩) =
      some ({ initialModel ['t'] ['x'] { Style := [], Width := 0 } with
          height := 10, display := newIdentityDisplayIndex 50, offset := 11 }, Cmd.nil) :=
  (movement_arithmetic headingAndBodyRenderer Char.toLower
    { initialModel ['t'] ['x'] { Style := [], Width := 0 } with
      height := 10, display := newIdentityDisplayIndex 50, offset := 7 }
    ['d'] rfl rfl rfl).2.2.1 "d" 4 (by decide)


/-! ## view.go: scrollbar geometry -/

theorem imin_eq (a b : Int) : imin a b = min a b := by
  unfold imin
  split
  · rw [min_eq_left]; omega
  · rw [min_eq_right]; omega

theorem clamp_mono (a b lo hi : Int) (h : a ≤ b) (hlh : lo ≤ hi) :
    clamp a lo hi ≤ clamp b lo hi := by
  unfold clamp
  split_ifs <;> omega

theorem tdiv_mono (a b d : Int) (hd : 0 < d) (h : a ≤ b) : a.tdiv d ≤ b.tdiv d := by
  have hneg : ∀ x : Int, x < 0 → x.tdiv d = -((-x) / d) := by
    intro x hx
    have e : x = -(-x) := by omega
    rw [e, Int.neg_tdiv, Int.tdiv_eq_ediv (by omega) (by omega)]
    simp
  by_cases ha : 0 ≤ a
  · rw [Int.tdiv_eq_ediv ha (by omega), Int.tdiv_eq_ediv (by omega) (by omega)]
    exact Int.ediv_le_ediv hd h
  · by_cases hb : 0 ≤ b
    · rw [hneg a (by omega), Int.tdiv_eq_ediv hb (by omega)]
      have h1 : 0 ≤ (-a) / d := Int.ediv_nonneg (by omega) (by omega)
      have h2 : 0 ≤ b / d := Int.ediv_nonneg hb (by omega)
      omega
    · rw [hneg a (by omega), hneg b (by omega)]
      have := Int.ediv_le_ediv hd (show -b ≤ -a by omega)
      omega

theorem scrollbar_enabled_eq (m : model) (visible : Int)
    (h : ¬ (m.display.Len ≤ visible ∨ visible ≤ 0)) :
    m.scrollbar visible =
      { enabled := true,
        thumbTop := clamp
          (if m.maxOffset > 0 ∧
              visible > imin visible (imax 1 ((visible * visible).tdiv m.display.Len)) then
            (m.offset *
              (visible - imin visible (imax 1 ((visible * visible).tdiv m.display.Len)))).tdiv
              m.maxOffset
           else 0) 0
          (imax 0 (visible - imin visible (imax 1 ((visible * visible).tdiv m.display.Len)))),
        thumbSize := imin visible (imax 1 ((visible * visible).tdiv m.display.Len)) } := by
  unfold model.scrollbar
  simp only
  rw [if_neg h]

theorem scrollbar_offset_irrelevant (m : model) (o : Int) :
    model.maxOffset { m with offset := o } = m.maxOffset ∧
    model.pageSize { m with offset := o } = m.pageSize := ⟨rfl, rfl⟩

theorem scrollbar_at_offset (m : model) (o : Int) (hlt : m.pageSize < m.display.Len) :
    ∃ ts : Int, ts = min m.pageSize (max 1 (m.pageSize * m.pageSize / m.display.Len)) ∧
      1 ≤ ts ∧ ts ≤ m.pageSize ∧
      model.scrollbar { m with offset := o } m.pageSize =
        { enabled := true,
          thumbTop := clamp (if ts < m.pageSize then
              (o * (m.pageSize - ts)).tdiv (m.display.Len - m.pageSize) else 0) 0
            (m.pageSize - ts),
          thumbSize := ts } := by
  have hP := pageSize_pos m
  have hn : ¬ (m.display.Len ≤ m.pageSize ∨ m.pageSize ≤ 0) := by
    intro hc
    rcases hc with hc | hc <;> omega
  have hM : m.maxOffset = m.display.Len - m.pageSize := by
    unfold model.maxOffset imax
    split <;> omega
  have hmul : 0 ≤ m.pageSize * m.pageSize := Int.mul_nonneg (by omega) (by omega)
  have hq0 : 0 ≤ m.pageSize * m.pageSize / m.display.Len := Int.ediv_nonneg hmul (by omega)
  have hq : m.pageSize * m.pageSize / m.display.Len < m.pageSize := by
    apply Int.ediv_lt_of_lt_mul (by omega)
    exact Int.mul_lt_mul_of_pos_left hlt (by omega)
  have hts : imin m.pageSize (imax 1 ((m.pageSize * m.pageSize).tdiv m.display.Len)) =
      min m.pageSize (max 1 (m.pageSize * m.pageSize / m.display.Len)) := by
    rw [imin_eq, imax_eq, Int.tdiv_eq_ediv hmul (by omega)]
  have e := scrollbar_enabled_eq { m with offset := o } m.pageSize hn
  have hM2 : model.maxOffset { m with offset := o } = m.display.Len - m.pageSize := hM
  rw [hM2] at e
  dsimp only at e
  rw [hts] at e
  generalize m.pageSize * m.pageSize / m.display.Len = q at *
  have hmin : min m.pageSize (max 1 q) = max 1 q := by
    apply min_eq_right
    apply max_le <;> omega
  rw [hmin] at e
  rw [hmin]
  have hge : 1 ≤ max 1 q := le_max_left _ _
  have hle : max 1 q ≤ m.pageSize := by
    apply max_le <;> omega
  refine ⟨max 1 q, rfl, hge, hle, ?_⟩
  rw [e]
  have himax : imax 0 (m.pageSize - max 1 q) = m.pageSize - max 1 q := by
    unfold imax
    split <;> omega
  rw [himax]
  have hcond : (m.display.Len - m.pageSize > 0 ∧ m.pageSize > max 1 q) ↔
      max 1 q < m.pageSize := by
    constructor
    · intro h
      exact h.2
    · intro h
      exact ⟨by omega, h⟩
  simp only [hcond]

/-- C20. Scrollbar geometry for the viewport of `pageSize` rows: the scrollbar
is disabled exactly when `display.Len ≤ pageSize`; otherwise
`thumbSize = min pageSize (max 1 (pageSize * pageSize / display.Len))`, the
thumb lies inside the track (`0 ≤ thumbTop ≤ pageSize - thumbSize`),
`thumbTop = 0` at offset 0, `thumbTop = pageSize - thumbSize` at offset
`maxOffset`, and `thumbTop` is non-decreasing in the offset. -/
theorem scrollbar_geometry (m : model) :
    ((m.scrollbar m.pageSize).enabled = false ↔ m.display.Len ≤ m.pageSize) ∧
    (m.pageSize < m.display.Len →
      (m.scrollbar m.pageSize).thumbSize =
        min m.pageSize (max 1 (m.pageSize * m.pageSize / m.display.Len)) ∧
      0 ≤ (m.scrollbar m.pageSize).thumbTop ∧
      (m.scrollbar m.pageSize).thumbTop ≤
        m.pageSize - (m.scrollbar m.pageSize).thumbSize ∧
      (m.offset = 0 → (m.scrollbar m.pageSize).thumbTop = 0) ∧
      (m.offset = m.maxOffset →
        (m.scrollbar m.pageSize).thumbTop =
          m.pageSize - (m.scrollbar m.pageSize).thumbSize) ∧
      (∀ o1 o2 : Int, o1 ≤ o2 →
        (model.scrollbar { m with offset := o1 } m.pageSize).thumbTop ≤
          (model.scrollbar { m with offset := o2 } m.pageSize).thumbTop)) := by
  have hP := pageSize_pos m
  constructor
  · by_cases h : m.display.Len ≤ m.pageSize
    · have hd : (m.scrollbar m.pageSize).enabled = false := by
        unfold model.scrollbar
        simp only
        rw [if_pos (Or.inl h)]
      exact ⟨fun _ => h, fun _ => hd⟩
    · have hn : ¬ (m.display.Len ≤ m.pageSize ∨ m.pageSize ≤ 0) := by
        intro hc
        rcases hc with hc | hc <;> omega
      rw [scrollbar_enabled_eq m _ hn]
      constructor
      · intro hc
        exact absurd hc (by simp)
      · intro hc
        exact absurd hc h
  · intro hlt
    have hM : m.maxOffset = m.display.Len - m.pageSize := by
      unfold model.maxOffset imax
      split <;> omega
    obtain ⟨ts, hts, h1, h2, hm⟩ := scrollbar_at_offset m m.offset hlt
    have hm0 : m.scrollbar m.pageSize = _ := hm
    rw [hm0]
    dsimp only
    have hb := clamp_bounds
      (if ts < m.pageSize then
        (m.offset * (m.pageSize - ts)).tdiv (m.display.Len - m.pageSize) else 0) 0
      (m.pageSize - ts) (by omega)
    refine ⟨hts, hb.1, hb.2, ?_, ?_, ?_⟩
    · intro h0
      rw [h0, Int.zero_mul, Int.zero_tdiv, ite_self]
      unfold clamp
      split_ifs <;> omega
    · intro hmax
      rw [hmax, hM]
      by_cases c : ts < m.pageSize
      · rw [if_pos c, Int.mul_tdiv_cancel_left _ (by omega)]
        unfold clamp
        split_ifs <;> omega
      · rw [if_neg c]
        unfold clamp
        split_ifs <;> omega
    · intro o1 o2 ho
      obtain ⟨t1, ht1, _, _, e1⟩ := scrollbar_at_offset m o1 hlt
      obtain ⟨t2, ht2, _, _, e2⟩ := scrollbar_at_offset m o2 hlt
      have e12 : t1 = ts := by rw [ht1, hts]
      have e22 : t2 = ts := by rw [ht2, hts]
      rw [e1, e2, e12, e22]
      dsimp only
      apply clamp_mono _ _ _ _ _ (by omega)
      by_cases c : ts < m.pageSize
      · rw [if_pos c, if_pos c]
        apply tdiv_mono _ _ _ (by omega)
        exact Int.mul_le_mul_of_nonneg_right ho (by omega)
      · rw [if_neg c, if_neg c]

theorem scrollbar_geometry_witness :
    (model.scrollbar
        { initialModel ['t'] ['x'] { Style := [], Width := 0 } with
          height := 12, display := newIdentityDisplayIndex 40, offset := 30 }
        10).thumbSize = 2 ∧
    (model.scrollbar
        { initialModel ['t'] ['x'] { Style := [], Width := 0 } with
          height := 12, display := newIdentityDisplayIndex 40, offset := 30 }
        10).thumbTop = 8 :=
  have h := (scrollbar_geometry
    { initialModel ['t'] ['x'] { Style := [], Width := 0 } with
      height := 12, display := newIdentityDisplayIndex 40, offset := 30 }).2 (by decide)
  ⟨h.1, h.2.2.2.2.1 rfl⟩


/-! ## toc.go: the filtered heading list and the jump to a heading -/

theorem tocFilteredHeadings_eq (lowerRune : Char → Char) (m : model) :
    m.tocFilteredHeadings lowerRune =
      if trimSpace (if m.tocFilterMode then m.tocFilterDraft else m.tocFilter) = [] then
        m.headings
      else m.headings.filter (fun h =>
        (newSearchMatcher lowerRune
          (trimSpace (if m.tocFilterMode then m.tocFilterDraft else m.tocFilter))).Contains
            lowerRune h.Text) := by
  unfold model.tocFilteredHeadings
  simp only [apply_ite trimSpace]

/-- C21. `tocFilteredHeadings` returns the full heading list when the active
filter (the draft while the filter input is open, otherwise the applied filter)
is empty after trimming; otherwise it returns exactly the headings whose text
the smart-case matcher of the trimmed filter matches, in document order; in
both cases the result is a subsequence of the heading list, and a filter that
matches no heading gives the empty list. -/
theorem tocFilteredHeadings_spec (lowerRune : Char → Char) (m : model) :
    (trimSpace (if m.tocFilterMode then m.tocFilterDraft else m.tocFilter) = [] →
      m.tocFilteredHeadings lowerRune = m.headings) ∧
    (trimSpace (if m.tocFilterMode then m.tocFilterDraft else m.tocFilter) ≠ [] →
      m.tocFilteredHeadings lowerRune = m.headings.filter (fun h =>
        (newSearchMatcher lowerRune
          (trimSpace (if m.tocFilterMode then m.tocFilterDraft else m.tocFilter))).Contains
            lowerRune h.Text) ∧
      (∀ h : heading, h ∈ m.tocFilteredHeadings lowerRune ↔
        h ∈ m.headings ∧
        (newSearchMatcher lowerRune
          (trimSpace (if m.tocFilterMode then m.tocFilterDraft else m.tocFilter))).Contains
            lowerRune h.Text = true) ∧
      ((∀ h ∈ m.headings,
        (newSearchMatcher lowerRune
          (trimSpace (if m.tocFilterMode then m.tocFilterDraft else m.tocFilter))).Contains
            lowerRune h.Text = false) →
        m.tocFilteredHeadings lowerRune = [])) ∧
    List.Sublist (m.tocFilteredHeadings lowerRune) m.headings := by
  have e := tocFilteredHeadings_eq lowerRune m
  refine ⟨?_, ?_, ?_⟩
  · intro h
    rw [e, if_pos h]
  · intro h
    rw [if_neg h] at e
    refine ⟨e, ?_, ?_⟩
    · intro x
      rw [e, List.mem_filter]
    · intro hall
      rw [e, List.filter_eq_nil_iff]
      intro x hx
      rw [hall x hx]
      decide
  · by_cases h : trimSpace (if m.tocFilterMode then m.tocFilterDraft else m.tocFilter) = []
    · rw [e, if_pos h]
    · rw [e, if_neg h]
      exact List.filter_sublist _

theorem tocFilteredHeadings_spec_witness :
    model.tocFilteredHeadings Char.toLower
        { initialModel ['t'] "# Alpha\n# Beta".data { Style := [], Width := 0 } with
          tocFilter := "al".data } =
      [{ Level := 1, Text := "Alpha".data, Line := 0 }] :=
  ((tocFilteredHeadings_spec Char.toLower
    { initialModel ['t'] "# Alpha\n# Beta".data { Style := [], Width := 0 } with
      tocFilter := "al".data }).2.1 (by decide)).1.trans (by decide)

/-- C22. When the heading-location map was built for the current render width
and holds the source line of the selected heading, `jumpToHeading` returns the
state with only the offset changed, to `clamp(r, 0, maxOffset)` with `r` the
display row of the mapped rendered line: the result is the same for every
renderer (the renderer is not consulted) and the jump cache and its width are
untouched. In full view a mapped line `off` with `0 ≤ off ≤ maxOffset` becomes
the offset, and it is the rendered line shown at the top row. -/
theorem jumpToHeading_uses_heading_map (lowerRune : Char → Char) (m : model) (h : heading)
    (off : Int)
    (hsel : idx? (m.tocFilteredHeadings lowerRune) m.tocIdx = some h)
    (hw : m.headingLocsWidth = m.currentRenderWidth)
    (hmap : m.headingByMDLine.get? h.Line = some off) :
    ∃ r : Int, m.displayRowForRenderedLine off = some r ∧
      (∀ render : Renderer,
        m.jumpToHeading render lowerRune = some { m with offset := clamp r 0 m.maxOffset }) ∧
      (m.display.kind = displayIndexIdentity → 0 ≤ off → off ≤ m.maxOffset →
        clamp r 0 m.maxOffset = off ∧
        (off < m.display.Len → m.display.At off = some off)) := by
  obtain ⟨r, hr, hset⟩ := setOffsetForRenderedLine_total m off
  obtain ⟨h0, h1⟩ := idx?_some_range _ _ _ hsel
  refine ⟨r, hr, ?_, ?_⟩
  · intro render
    unfold model.jumpToHeading
    have hn : ¬ ((m.tocFilteredHeadings lowerRune).length = 0 ∨ m.tocIdx < 0 ∨
        m.tocIdx ≥ (m.tocFilteredHeadings lowerRune).length) := by
      intro hc
      rcases hc with hc | hc | hc
      · rw [hc] at h1
        simp at h1
        omega
      · omega
      · omega
    simp only
    rw [if_neg hn]
    simp only [hsel]
    rw [if_pos hw]
    simp only [hmap]
    exact hset
  · intro hk hoff0 hoffM
    have hP := pageSize_pos m
    unfold model.displayRowForRenderedLine at hr
    rw [if_pos hk] at hr
    have hM : m.maxOffset ≤ imax 0 (m.display.Len - 1) := by
      unfold model.maxOffset imax
      split_ifs <;> omega
    have hrv : clamp off 0 (imax 0 (m.display.Len - 1)) = off := by
      unfold clamp
      split_ifs <;> omega
    rw [hrv] at hr
    have hr2 : r = off := (Option.some.inj hr).symm
    subst hr2
    constructor
    · unfold clamp
      split_ifs <;> omega
    · intro hlt
      unfold displayIndex.At
      have hn : ¬ r < 0 := by omega
      rw [if_neg hn, hk]
      have hn2 : ¬ r ≥ m.display.size := by
        unfold displayIndex.Len at hlt
        omega
      simp only [hn2, if_false]

theorem jumpToHeading_uses_heading_map_witness :
    ∃ r : Int,
      model.displayRowForRenderedLine
        { initialModel ['t'] "# H\nfoo".data { Style := [], Width := 0 } with
          height := 12, display := newIdentityDisplayIndex 50,
          headingLocsWidth := 10, headingByMDLine := [(0, 3)] } 3 = some r ∧
      (∀ render : Renderer,
        model.jumpToHeading render Char.toLower
          { initialModel ['t'] "# H\nfoo".data { Style := [], Width := 0 } with
            height := 12, display := newIdentityDisplayIndex 50,
            headingLocsWidth := 10, headingByMDLine := [(0, 3)] } =
        some { initialModel ['t'] "# H\nfoo".data { Style := [], Width := 0 } with
            height := 12, display := newIdentityDisplayIndex 50,
            headingLocsWidth := 10, headingByMDLine := [(0, 3)],
            offset := clamp r 0 40 }) :=
  let ⟨r, h1, h2, _⟩ := jumpToHeading_uses_heading_map Char.toLower
    { initialModel ['t'] "# H\nfoo".data { Style := [], Width := 0 } with
      height := 12, display := newIdentityDisplayIndex 50,
      headingLocsWidth := 10, headingByMDLine := [(0, 3)] }
    { Level := 1, Text := "H".data, Line := 0 } 3 (by decide) (by decide) (by decide)
  ⟨r, h1, h2⟩


/-! ## view.go: quit keys and modal key handling -/

/-- C24, counterexample. After `/` opens the search prompt, a Ctrl-C key event
(no runes) makes `Update` return no command: the prompt consumes the key and
the program does not quit. -/
theorem ctrl_c_in_search_prompt_does_not_quit :
    ∃ m m' : model, Reachable ['t'] ['x'] { Style := [], Width := 0 } m ∧
      m.searchMode = true ∧
      m.Update headingAndBodyRenderer Char.toLower (Msg.KeyMsg ⟨"ctrl+c", []⟩) =
        some (m', Cmd.nil) ∧ m' = m :=
  ⟨_, _,
    Reachable.step headingAndBodyRenderer Char.toLower
      (Msg.KeyMsg { name := "/", Runes := ['/'] }) _ _ _ Reachable.init rfl,
    rfl, rfl, rfl⟩

/-- C24, amended. Whenever neither the search prompt nor the table of contents
is open (the help overlay may be open, and a render may have failed), each of
the keys `q`, `esc` and `ctrl+c` makes `Update` return the quit command with the
model unchanged. While the search prompt is open a Ctrl-C key event only
re-clamps the offset, and while the table of contents is open it only re-clamps
the selection and the offset; in both cases no command is returned. -/
theorem quit_keys (render : Renderer) (lowerRune : Char → Char) (m : model) :
    (m.searchMode = false → m.showTOC = false →
      ∀ (name : String) (runes : Str), name = "q" ∨ name = "esc" ∨ name = "ctrl+c" →
        m.Update render lowerRune (Msg.KeyMsg ⟨name, runes⟩) = some (m, Cmd.Quit)) ∧
    (m.searchMode = true →
      m.Update render lowerRune (Msg.KeyMsg ⟨"ctrl+c", []⟩) = some (m.clampOffset, Cmd.nil)) ∧
    (m.searchMode = false → m.showTOC = true →
      m.Update render lowerRune (Msg.KeyMsg ⟨"ctrl+c", []⟩) =
        some (model.clampOffset (model.clampTocIdx lowerRune m), Cmd.nil)) := by
  refine ⟨?_, ?_, ?_⟩
  · intro hs ht name runes hn
    cases m
    dsimp only at hs ht
    subst hs ht
    rcases hn with rfl | rfl | rfl <;> rfl
  · intro hs
    cases m
    dsimp only at hs
    subst hs
    rfl
  · intro hs ht
    rcases m with ⟨_, _, _, _, _, _, _, _, _, _, _, _, _, _, _, _, _, _, _, fm, _, _, _, _, _,
      _, _, _, _, _, _, _, _, _⟩
    dsimp only at hs ht
    subst hs ht
    cases fm <;> rfl

theorem quit_keys_witness :
    model.Update failingRenderer Char.toLower
        { initialModel ['t'] ['x'] { Style := [], Width := 0 } with showHelp := true }
        (Msg.KeyMsg ⟨"ctrl+c", []⟩) =
      some ({ initialModel ['t'] ['x'] { Style := [], Width := 0 } with showHelp := true },
        Cmd.Quit) :=
  (quit_keys failingRenderer Char.toLower
    { initialModel ['t'] ['x'] { Style := [], Width := 0 } with showHelp := true }).1
    rfl rfl "ctrl+c" [] (Or.inr (Or.inr rfl))


/-! ## view.go: render failure, unfolding, help overlay and heading jumps -/

theorem reRender_error_spec (render : Renderer) (lowerRune : Char → Char) (m : model)
    (err : Str)
    (hrender : render m.md (Options.mk m.renderOpts.Style
      (if m.renderOpts.Width ≤ 0 then m.bodyTextWidth else m.renderOpts.Width)) =
        Except.error err) :
    m.reRender render lowerRune =
      some { m with lastErr := some err,
                    lines := ["(render error)".data, err],
                    plain := ["(render error)".data, err],
                    headingLocs := [], headingLineSet := [], headingByMDLine := [] } := by
  unfold model.reRender
  simp only [hrender]

/-- C25, at the failing input. The first resize (80x24) meets a renderer that
fails with `boom`. The reachable state has the two-line message as `lines` and
the error recorded, but the display index is still `Identity(0)`: `display.Len()`
is 0, not 2, so the content area has no row that shows the message. -/
theorem render_error_not_displayed :
    ∃ m : model, Reachable ['t'] ['x'] { Style := [], Width := 0 } m ∧
      m.lines = ["(render error)".data, "boom".data] ∧
      m.lastErr = some "boom".data ∧
      m.display = newIdentityDisplayIndex 0 ∧ m.display.Len = 0 ∧
      clamp (clamp m.offset 0 (imax 0 m.display.Len) + imax 1 (m.height - 2)) 0 m.display.Len =
        clamp m.offset 0 (imax 0 m.display.Len) :=
  ⟨_, Reachable.step failingRenderer Char.toLower (Msg.WindowSizeMsg 80 24) _ _ _
      Reachable.init rfl, rfl, rfl, rfl, rfl, rfl⟩

/-- C26, at the failing input. The document has the headings `A`, `B`, `C` on the
rendered lines 0, 2, 4 and the window shows one content row. After `1` (outline)
and `j` the top row is row 1 of `List [0, 2, 4]`, that is rendered line 2. The
key `0` then gives `Identity(5)` with `maxOffset = 4`, and the new offset is 1
(the old row number), so the top row shows rendered line 1, not line 2. -/
theorem unfold_loses_place :
    ∃ (m m' : model) (cmd : Cmd),
      Reachable ['t'] "# A\nx\n# B\ny\n# C".data { Style := [], Width := 0 } m ∧
      m.display = newListDisplayIndex [0, 2, 4] ∧ m.offset = 1 ∧
      m.display.At m.offset = some 2 ∧
      m.Update threeHeadingRenderer Char.toLower (Msg.KeyMsg ⟨"0", ['0']⟩) = some (m', cmd) ∧
      m'.foldLevel = 0 ∧ m'.display = newIdentityDisplayIndex 5 ∧ m'.maxOffset = 4 ∧
      m'.offset = 1 ∧ m'.display.At m'.offset = some 1 :=
  ⟨_, _, _,
    Reachable.step threeHeadingRenderer Char.toLower
      (Msg.KeyMsg { name := "j", Runes := ['j'] }) _ _ _
    (Reachable.step threeHeadingRenderer Char.toLower
      (Msg.KeyMsg { name := "1", Runes := ['1'] }) _ _ _
    (Reachable.step threeHeadingRenderer Char.toLower (Msg.WindowSizeMsg 80 3) _ _ _
      Reachable.init rfl) rfl) rfl,
    rfl, rfl, rfl, rfl, rfl, rfl, rfl, rfl, rfl⟩

/-- C27. The rendered lines `Setup`, `see setup notes`, `2. Setup` with the
headings `Setup`, `Setup`: the locator places the second heading on line 1,
which merely contains the text, although line 2 contains it as well; the
located rendered lines are 0 and 1. -/
theorem duplicate_heading_misassigned (lowerRune : Char → Char)
    (hlow : ∀ c : Char, c.toNat < 128 → lowerRune c = c.toLower) :
    (computeHeadingLocsFromRendered lowerRune
        ["Setup".data, "see setup notes".data, "2. Setup".data]
        [{ Level := 1, Text := "Setup".data, Line := 0 },
         { Level := 2, Text := "Setup".data, Line := 5 }]).map (fun l => l.RenderedLine) =
      [0, 1] ∧
    strContains (normalizeText lowerRune "see setup notes".data)
      (normalizeText lowerRune "Setup".data) = true ∧
    normalizeText lowerRune "see setup notes".data ≠ normalizeText lowerRune "Setup".data ∧
    strContains (normalizeText lowerRune "2. Setup".data)
      (normalizeText lowerRune "Setup".data) = true := by
  rw [computeHeadingLocs_ascii lowerRune hlow _ _ (by decide) (by decide),
    normalizeText_ascii lowerRune hlow "see setup notes".data (by decide),
    normalizeText_ascii lowerRune hlow "Setup".data (by decide),
    normalizeText_ascii lowerRune hlow "2. Setup".data (by decide)]
  decide

theorem duplicate_heading_misassigned_witness :
    (computeHeadingLocsFromRendered Char.toLower
        ["Setup".data, "see setup notes".data, "2. Setup".data]
        [{ Level := 1, Text := "Setup".data, Line := 0 },
         { Level := 2, Text := "Setup".data, Line := 5 }]).map (fun l => l.RenderedLine) =
      [0, 1] :=
  (duplicate_heading_misassigned Char.toLower (fun _ _ => rfl)).1


theorem currentHeadingLoop_total (locs : List headingLoc) (a : Int) :
    ∀ (fuel : Nat) (lo hi best : Int), 0 ≤ lo → hi < locs.length → hi - lo + 1 ≤ fuel →
      ∃ r : Int, currentHeadingLoop locs a fuel lo hi best = some r ∧
        (r = best ∨ (0 ≤ r ∧ r ≤ hi)) := by
  intro fuel
  induction fuel with
  | zero =>
    intro lo hi best h0 hlen hfuel
    have hnot : ¬ lo ≤ hi := by omega
    exact ⟨best, by simp [currentHeadingLoop, hnot], Or.inl rfl⟩
  | succ fuel ih =>
    intro lo hi best h0 hlen hfuel
    by_cases hc : lo ≤ hi
    · have hmid : (lo + hi).tdiv 2 = (lo + hi) / 2 := Int.tdiv_eq_ediv (by omega) (by omega)
      obtain ⟨n, hn⟩ : ∃ n : Nat, (lo + hi) / 2 = (n : Int) := ⟨((lo + hi) / 2).toNat, by omega⟩
      have hnlt : n < locs.length := by omega
      have hget := idx?_eq_some locs n hnlt
      unfold currentHeadingLoop
      simp only [hc, if_true, hmid, hn, hget]
      by_cases hv : (locs.get ⟨n, hnlt⟩).RenderedLine ≤ a
      · simp only [hv, if_true]
        obtain ⟨r, hr, hcase⟩ := ih ((n : Int) + 1) hi n (by omega) hlen (by omega)
        refine ⟨r, hr, Or.inr ?_⟩
        rcases hcase with h | h
        · omega
        · omega
      · simp only [hv, if_false]
        obtain ⟨r, hr, hcase⟩ := ih lo ((n : Int) - 1) best h0 (by omega) (by omega)
        refine ⟨r, hr, ?_⟩
        rcases hcase with h | h
        · exact Or.inl h
        · exact Or.inr (by omega)
    · exact ⟨best, by simp [currentHeadingLoop, hc], Or.inl rfl⟩

theorem currentHeadingIndex_total (locs : List headingLoc) (a : Int) :
    ∃ r : Int, currentHeadingIndex locs a = some r ∧ -1 ≤ r ∧ r < max 1 (locs.length : Int) := by
  unfold currentHeadingIndex
  by_cases h : locs.length = 0
  · refine ⟨-1, by simp [h], le_refl _, ?_⟩
    have := le_max_left (1 : Int) (locs.length : Int)
    omega
  · simp only [h, if_false]
    obtain ⟨r, hr, hcase⟩ := currentHeadingLoop_total locs (if a < 0 then 0 else a)
      locs.length 0 ((locs.length : Int) - 1) (-1) (le_refl _) (by omega) (by omega)
    have := le_max_right (1 : Int) (locs.length : Int)
    refine ⟨r, hr, ?_, ?_⟩
    · rcases hcase with h1 | h1 <;> omega
    · rcases hcase with h1 | h1 <;> omega

theorem currentHeadingMDLine_total (m : model) (hwf : DisplayWF m.display) :
    ∃ p : Int × Bool, m.currentHeadingMDLine = some p := by
  unfold model.currentHeadingMDLine
  by_cases h : m.headingLocs.length = 0
  · exact ⟨(0, false), by simp [h]⟩
  · simp only [h, if_false]
    obtain ⟨a, ha⟩ := anchorLine_total m hwf
    obtain ⟨r, hr, h1, h2⟩ := currentHeadingIndex_total m.headingLocs a
    simp only [ha, hr]
    by_cases hneg : r < 0
    · exact ⟨(0, false), by simp [hneg]⟩
    · simp only [hneg, if_false]
      have hlt : r < (m.headingLocs.length : Int) := by
        have hpos : 0 < m.headingLocs.length := Nat.pos_of_ne_zero h
        have : max 1 (m.headingLocs.length : Int) = m.headingLocs.length := by
          apply max_eq_right
          omega
        omega
      obtain ⟨e, _⟩ := idx?_of_lt m.headingLocs r (by omega) hlt
      obtain ⟨n, hn⟩ : ∃ n : Nat, r = (n : Int) := ⟨r.toNat, by omega⟩
      subst hn
      have hnlt : n < m.headingLocs.length := by omega
      rw [idx?_eq_some _ n hnlt]
      exact ⟨_, rfl⟩

theorem syncTOC_total (lowerRune : Char → Char) (m : model) (hwf : DisplayWF m.display) :
    ∃ i : Int, m.syncTOCToCurrentHeading lowerRune = some { m with tocIdx := i } := by
  obtain ⟨⟨mdLine, ok⟩, hp⟩ := currentHeadingMDLine_total m hwf
  unfold model.syncTOCToCurrentHeading
  simp only [hp]
  cases ok with
  | false => exact ⟨m.tocIdx, by simp⟩
  | true =>
    simp only [Bool.not_true, Bool.false_eq_true, if_false]
    cases hs : syncTOCLoop (m.tocFilteredHeadings lowerRune) mdLine 0 with
    | none => exact ⟨m.tocIdx, rfl⟩
    | some i => exact ⟨i, rfl⟩


theorem recomputeSearch_searchMode (lowerRune : Char → Char) (m m' : model)
    (h : m.recomputeSearch lowerRune = some m') : m'.searchMode = m.searchMode := by
  unfold model.recomputeSearch at h
  simp only at h
  split_ifs at h
  · cases h
    rfl
  · cases h
    rfl
  · split at h
    · cases h
    · cases h
      rfl
  · cases h
    rfl

theorem setSearchQueryNoJump_searchMode (lowerRune : Char → Char) (m m' : model) (q : Str)
    (h : m.setSearchQueryNoJump lowerRune q = some m') : m'.searchMode = m.searchMode := by
  unfold model.setSearchQueryNoJump at h
  simp only at h
  split_ifs at h
  · cases h
    rfl
  · split at h
    · cases h
    · rename_i m1 hm1
      have hv := recomputeSearch_searchMode lowerRune _ _ hm1
      split_ifs at h <;>
        first
        | (cases h; exact hv)
        | (split at h <;> (cases h; try exact hv))

/-- C28, at the failing input. With only the help overlay open (reached by `?`
from the initial model), the key `t` changes the model: it opens the table of
contents and closes the help overlay; the key `/` changes it as well: it opens
the search prompt and closes the help overlay. The source comment allows only
`?` and the quit keys while help is open. -/
theorem help_overlay_t_changes_model :
    ∃ m m' m'' : model, Reachable ['t'] ['x'] { Style := [], Width := 0 } m ∧
      m.showHelp = true ∧ m.searchMode = false ∧ m.showTOC = false ∧
      m.Update headingAndBodyRenderer Char.toLower (Msg.KeyMsg ⟨"t", ['t']⟩) =
        some (m', Cmd.nil) ∧
      m'.showTOC = true ∧ m'.showHelp = false ∧ m' ≠ m ∧
      m.Update headingAndBodyRenderer Char.toLower (Msg.KeyMsg ⟨"/", ['/']⟩) =
        some (m'', Cmd.nil) ∧
      m''.searchMode = true ∧ m''.showHelp = false ∧ m'' ≠ m :=
  ⟨_, _, _,
    Reachable.step headingAndBodyRenderer Char.toLower
      (Msg.KeyMsg { name := "?", Runes := ['?'] }) _ _ _ Reachable.init rfl,
    rfl, rfl, rfl, rfl, rfl, rfl, by decide, rfl, rfl, rfl, by decide⟩

/-- The keys while help is open. With the help overlay open and neither the search prompt nor
the table of contents open: every key other than `q`, `esc`, `ctrl+c`, `?`, `t`
and `/` leaves the model unchanged and returns no command; the quit keys return
the quit command with the model unchanged; `?` closes the overlay; `t` opens
the table of contents and closes the overlay; `/` opens the search prompt and
closes the overlay. -/
theorem help_overlay_keys (render : Renderer) (lowerRune : Char → Char) (m : model)
    (hh : m.showHelp = true) (hs : m.searchMode = false) (ht : m.showTOC = false) :
    (∀ msg : KeyMsg, ¬ (msg.name = "q" ∨ msg.name = "esc" ∨ msg.name = "ctrl+c") →
      msg.name ≠ "?" → msg.name ≠ "t" → msg.name ≠ "/" →
      m.Update render lowerRune (Msg.KeyMsg msg) = some (m, Cmd.nil)) ∧
    (∀ (name : String) (runes : Str), name = "q" ∨ name = "esc" ∨ name = "ctrl+c" →
      m.Update render lowerRune (Msg.KeyMsg ⟨name, runes⟩) = some (m, Cmd.Quit)) ∧
    (∀ runes : Str, m.Update render lowerRune (Msg.KeyMsg ⟨"?", runes⟩) =
      some ({ m with showHelp := false }, Cmd.nil)) ∧
    (∀ runes : Str, DisplayWF m.display →
      ∃ m' : model, m.Update render lowerRune (Msg.KeyMsg ⟨"t", runes⟩) = some (m', Cmd.nil) ∧
        m'.showTOC = true ∧ m'.showHelp = false) ∧
    (∀ runes : Str,
      ∃ m' : model, m.Update render lowerRune (Msg.KeyMsg ⟨"/", runes⟩) = some (m', Cmd.nil) ∧
        m'.searchMode = true ∧ m'.showHelp = false ∧ m'.showTOC = false) := by
  refine ⟨?_, ?_, ?_, ?_, ?_⟩
  · intro msg hq h1 h2 h3
    show m.updateKey render lowerRune msg = some (m, Cmd.nil)
    unfold model.updateKey
    simp only [hs, ht, hh, Bool.false_eq_true, if_false, if_true]
    rw [if_neg hq, if_neg h1, if_neg h2, if_neg h3]
  · intro name runes hn
    cases m
    dsimp only at hh hs ht
    subst hh hs ht
    rcases hn with rfl | rfl | rfl <;> rfl
  · intro runes
    cases m
    dsimp only at hh hs ht
    subst hh hs ht
    rfl
  · intro runes hwf
    obtain ⟨i, hi⟩ := syncTOC_total lowerRune
      { m with showTOC := true, showHelp := false,
               tocIdx := clamp m.tocIdx 0 (imax 0 ((m.headings.length : Int) - 1)) } hwf
    refine ⟨{ m with showTOC := true, showHelp := false, tocIdx := i,
                     tocFilterMode := false, tocFilterDraft := m.tocFilter }, ?_, rfl, rfl⟩
    have e : m.Update render lowerRune (Msg.KeyMsg ⟨"t", runes⟩) =
        (match model.syncTOCToCurrentHeading lowerRune
            { m with showTOC := true, showHelp := false,
                     tocIdx := clamp m.tocIdx 0 (imax 0 ((m.headings.length : Int) - 1)) } with
         | none => none
         | some m2 =>
           some ({ m2 with tocFilterMode := false, tocFilterDraft := m2.tocFilter }, Cmd.nil)) := by
      cases m
      dsimp only at hh hs ht
      subst hh hs ht
      rfl
    rw [e, hi]
  · intro runes
    obtain ⟨m1, h1, _, _, _, _, _, _⟩ := setSearchQueryNoJump_ok lowerRune
      { m with searchMode := true, searchSavedQuery := m.searchQuery,
               searchDraft := m.searchQuery } m.searchQuery
    refine ⟨{ m1 with showHelp := false, showTOC := false }, ?_, ?_, rfl, rfl⟩
    · have e : m.Update render lowerRune (Msg.KeyMsg ⟨"/", runes⟩) =
          (match model.setSearchQueryNoJump lowerRune
              { m with searchMode := true, searchSavedQuery := m.searchQuery,
                       searchDraft := m.searchQuery } m.searchQuery with
           | none => none
           | some m2 => some ({ m2 with showHelp := false, showTOC := false }, Cmd.nil)) := by
        cases m
        dsimp only at hh hs ht
        subst hh hs ht
        rfl
      rw [e, h1]
    · show m1.searchMode = true
      have := setSearchQueryNoJump_searchMode lowerRune _ _ _ h1
      exact this

theorem help_overlay_keys_witness :
    model.Update failingRenderer Char.toLower
        { initialModel ['t'] ['x'] { Style := [], Width := 0 } with showHelp := true }
        (Msg.KeyMsg ⟨"j", ['j']⟩) =
      some ({ initialModel ['t'] ['x'] { Style := [], Width := 0 } with showHelp := true },
        Cmd.nil) :=
  (help_overlay_keys failingRenderer Char.toLower
    { initialModel ['t'] ['x'] { Style := [], Width := 0 } with showHelp := true }
    rfl rfl rfl).1 ⟨"j", ['j']⟩ (by decide) (by decide) (by decide) (by decide)


/-- C29, at the failing input. The document has the headings `A`, `B`, `C` on the
rendered lines 0, 2, 4, folded to level 1 (display `List [0, 2, 4]`), with one
content row, so `maxOffset = 2`. With heading `A` at the top (offset 0) the key
`]` moves the top to offset 2, heading `C` on line 4, skipping heading `B`
(row 1). With heading `B` at the top (offset 1) the key `[` leaves the offset
at 1 instead of moving to heading `A` (row 0). -/
theorem heading_jump_wrong_in_outline :
    ∃ (m0 m1 mB mB' : model),
      Reachable ['t'] "# A\nx\n# B\ny\n# C".data { Style := [], Width := 0 } m0 ∧
      m0.display = newListDisplayIndex [0, 2, 4] ∧
      m0.headingLocs.map (fun l => l.RenderedLine) = [0, 2, 4] ∧
      m0.offset = 0 ∧ m0.maxOffset = 2 ∧
      m0.Update threeHeadingRenderer Char.toLower (Msg.KeyMsg ⟨"]", [']']⟩) =
        some (m1, Cmd.nil) ∧
      m1.offset = 2 ∧ m1.display.At m1.offset = some 4 ∧
      Reachable ['t'] "# A\nx\n# B\ny\n# C".data { Style := [], Width := 0 } mB ∧
      mB.display = newListDisplayIndex [0, 2, 4] ∧ mB.offset = 1 ∧
      mB.display.At mB.offset = some 2 ∧
      mB.Update threeHeadingRenderer Char.toLower (Msg.KeyMsg ⟨"[", ['[']⟩) =
        some (mB', Cmd.nil) ∧
      mB'.offset = 1 :=
  ⟨_, _, _, _,
    Reachable.step threeHeadingRenderer Char.toLower
      (Msg.KeyMsg { name := "1", Runes := ['1'] }) _ _ _
    (Reachable.step threeHeadingRenderer Char.toLower (Msg.WindowSizeMsg 80 3) _ _ _
      Reachable.init rfl) rfl,
    rfl, rfl, rfl, rfl, rfl, rfl, rfl,
    Reachable.step threeHeadingRenderer Char.toLower
      (Msg.KeyMsg { name := "j", Runes := ['j'] }) _ _ _
    (Reachable.step threeHeadingRenderer Char.toLower
      (Msg.KeyMsg { name := "1", Runes := ['1'] }) _ _ _
    (Reachable.step threeHeadingRenderer Char.toLower (Msg.WindowSizeMsg 80 3) _ _ _
      Reachable.init rfl) rfl) rfl,
    rfl, rfl, rfl, rfl, rfl⟩


/-! ## search.go: stripANSI -/

theorem stripANSIAux_nil (st : Bool) : stripANSIAux [] st = [] := by
  cases st <;> rfl

theorem stripANSIAux_true_cons (c : Char) (cs : Str) :
    stripANSIAux (c :: cs) true =
      if 0x40 ≤ c.toNat ∧ c.toNat ≤ 0x7e then stripANSIAux cs false
      else stripANSIAux cs true := by
  rw [stripANSIAux]

theorem stripANSIAux_false_cons (c : Char) (cs : Str) :
    stripANSIAux (c :: cs) false =
      if c.toNat ≠ 0x1b then c :: stripANSIAux cs false
      else
        match cs with
        | [] => []
        | d :: rest =>
          if d ≠ '[' then stripANSIAux (d :: rest) false
          else stripANSIAux rest true := by
  cases cs with
  | nil => rfl
  | cons d rest => rfl

theorem stripANSIAux_params (p : Str) (f : Char) (b : Str)
    (hp : ∀ c ∈ p, ¬ (0x40 ≤ c.toNat ∧ c.toNat ≤ 0x7e))
    (hf : 0x40 ≤ f.toNat ∧ f.toNat ≤ 0x7e) :
    stripANSIAux (p ++ f :: b) true = stripANSIAux b false := by
  induction p with
  | nil =>
    show stripANSIAux (f :: b) true = _
    rw [stripANSIAux_true_cons, if_pos hf]
  | cons c cs ih =>
    show stripANSIAux (c :: (cs ++ f :: b)) true = _
    rw [stripANSIAux_true_cons, if_neg (hp c (List.mem_cons_self _ _))]
    exact ih (fun x hx => hp x (List.mem_cons_of_mem _ hx))

theorem stripANSIAux_plain (a rest : Str) (ha : ∀ c ∈ a, c.toNat ≠ 0x1b) :
    stripANSIAux (a ++ rest) false = a ++ stripANSIAux rest false := by
  induction a with
  | nil => rfl
  | cons c cs ih =>
    show stripANSIAux (c :: (cs ++ rest)) false = _
    rw [stripANSIAux_false_cons, if_pos (ha c (List.mem_cons_self _ _))]
    rw [ih (fun x hx => ha x (List.mem_cons_of_mem _ hx))]
    rfl

theorem stripANSIAux_no_esc :
    ∀ (n : Nat) (t : Str) (st : Bool), t.length ≤ n → ∀ c ∈ stripANSIAux t st, c.toNat ≠ 0x1b := by
  intro n
  induction n with
  | zero =>
    intro t st hl c hc
    have : t = [] := List.length_eq_zero.mp (by omega)
    subst this
    rw [stripANSIAux_nil] at hc
    simp at hc
  | succ n ih =>
    intro t st hl c hc
    cases t with
    | nil =>
      rw [stripANSIAux_nil] at hc
      simp at hc
    | cons x xs =>
      have hxs : xs.length ≤ n := by
        simp only [List.length_cons] at hl
        omega
      cases st with
      | true =>
        rw [stripANSIAux_true_cons] at hc
        by_cases hfin : 0x40 ≤ x.toNat ∧ x.toNat ≤ 0x7e
        · rw [if_pos hfin] at hc
          exact ih xs false hxs c hc
        · rw [if_neg hfin] at hc
          exact ih xs true hxs c hc
      | false =>
        rw [stripANSIAux_false_cons] at hc
        by_cases hx : x.toNat ≠ 0x1b
        · rw [if_pos hx] at hc
          rcases List.mem_cons.mp hc with h | h
          · rw [h]
            exact hx
          · exact ih xs false hxs c h
        · rw [if_neg hx] at hc
          cases xs with
          | nil => simp at hc
          | cons d rest =>
            simp only at hc
            by_cases hd : d ≠ '['
            · rw [if_pos hd] at hc
              exact ih (d :: rest) false hxs c hc
            · rw [if_neg hd] at hc
              have hr : rest.length ≤ n := by
                simp only [List.length_cons] at hxs
                omega
              exact ih rest true hr c hc

/-- C30. For every text `a` without an ESC, every CSI sequence (ESC, `[`,
parameter bytes `p` outside `0x40..0x7E`, one final byte `f` in `0x40..0x7E`)
and every `b`: `stripANSI (a ++ csi ++ b) = a ++ stripANSI b`. In particular
`stripANSI "\x1b[31mred\x1b[0m" = "red"`; `stripANSI` is the identity on text
without an ESC; its output never contains an ESC; and it is idempotent. -/
theorem stripANSI_csi :
    (∀ (a p : Str) (f : Char) (b : Str),
      (∀ c ∈ a, c.toNat ≠ 0x1b) →
      (∀ c ∈ p, ¬ (0x40 ≤ c.toNat ∧ c.toNat ≤ 0x7e)) →
      (0x40 ≤ f.toNat ∧ f.toNat ≤ 0x7e) →
      stripANSI (a ++ ([Char.ofNat 0x1b, '['] ++ p ++ [f]) ++ b) = a ++ stripANSI b) ∧
    stripANSI "\x1b[31mred\x1b[0m".data = "red".data ∧
    (∀ s : Str, (∀ c ∈ s, c.toNat ≠ 0x1b) → stripANSI s = s) ∧
    (∀ s : Str, ∀ c ∈ stripANSI s, c.toNat ≠ 0x1b) ∧
    (∀ s : Str, stripANSI (stripANSI s) = stripANSI s) := by
  have hid : ∀ s : Str, (∀ c ∈ s, c.toNat ≠ 0x1b) → stripANSI s = s := by
    intro s hs
    have := stripANSIAux_plain s [] hs
    rw [List.append_nil] at this
    unfold stripANSI
    rw [this]
    show s ++ [] = s
    exact List.append_nil s
  have hno : ∀ s : Str, ∀ c ∈ stripANSI s, c.toNat ≠ 0x1b := by
    intro s c hc
    exact stripANSIAux_no_esc s.length s false (le_refl _) c hc
  refine ⟨?_, by decide, hid, hno, fun s => hid _ (hno s)⟩
  intro a p f b ha hp hf
  unfold stripANSI
  rw [List.append_assoc, stripANSIAux_plain a _ ha]
  congr 1
  show stripANSIAux (Char.ofNat 0x1b :: '[' :: ((p ++ [f]) ++ b)) false = _
  have e : (p ++ [f]) ++ b = p ++ f :: b := by simp
  rw [e, stripANSIAux_false_cons, if_neg (by decide)]
  simp only
  rw [if_neg (by decide)]
  exact stripANSIAux_params p f b hp hf

theorem stripANSI_csi_witness :
    stripANSI ("ab".data ++ ([Char.ofNat 0x1b, '['] ++ "1;32".data ++ ['m']) ++ "cd".data) =
      "ab".data ++ stripANSI "cd".data :=
  stripANSI_csi.1 "ab".data "1;32".data 'm' "cd".data (by decide) (by decide) (by decide)


/-! ## toc.go: validity of the jump cache -/

theorem computeOffset_congr (render : Renderer) (m m' : model) (h : SameDoc m m') (k : Int) :
    m'.computeOffsetForMarkdownLine render k = m.computeOffsetForMarkdownLine render k := by
  obtain ⟨h1, h2, h3⟩ := h
  unfold model.computeOffsetForMarkdownLine model.currentRenderWidth model.bodyTextWidth
  rw [h1, h2, h3]

theorem SameSource.cacheStep (render : Renderer) {m m' : model} (h : SameSource m m') :
    CacheStep render m m' := by
  refine ⟨h.1, ?_⟩
  intro hv k off hk
  rw [h.2] at hk
  rw [computeOffset_congr render m m' h.1 k]
  exact hv k off hk

theorem SameSource.trans {m1 m2 m3 : model} (h12 : SameSource m1 m2) (h23 : SameSource m2 m3) :
    SameSource m1 m3 := by
  obtain ⟨⟨a1, a2, a3⟩, a4⟩ := h12
  obtain ⟨⟨b1, b2, b3⟩, b4⟩ := h23
  exact ⟨⟨b1.trans a1, b2.trans a2, b3.trans a3⟩, b4.trans a4⟩

theorem recomputeSearch_source (lowerRune : Char → Char) (m m' : model)
    (h : m.recomputeSearch lowerRune = some m') : SameSource m m' := by
  unfold model.recomputeSearch at h
  simp only at h
  split_ifs at h
  · cases h
    exact ⟨⟨rfl, rfl, rfl⟩, rfl⟩
  · cases h
    exact ⟨⟨rfl, rfl, rfl⟩, rfl⟩
  · split at h
    · cases h
    · cases h
      exact ⟨⟨rfl, rfl, rfl⟩, rfl⟩
  · cases h
    exact ⟨⟨rfl, rfl, rfl⟩, rfl⟩

theorem setSearchQueryNoJump_source (lowerRune : Char → Char) (m m' : model) (q : Str)
    (h : m.setSearchQueryNoJump lowerRune q = some m') : SameSource m m' := by
  unfold model.setSearchQueryNoJump at h
  simp only at h
  split_ifs at h
  · cases h
    exact ⟨⟨rfl, rfl, rfl⟩, rfl⟩
  · split at h
    · cases h
    · rename_i m1 hm1
      have hv := recomputeSearch_source lowerRune _ _ hm1
      split_ifs at h <;>
        first
        | (cases h; exact hv)
        | (split at h <;> (cases h; try exact hv))

theorem setOffsetForRenderedLine_source (m m' : model) (line : Int)
    (h : m.setOffsetForRenderedLine line = some m') : SameSource m m' := by
  obtain ⟨r, _, hr⟩ := setOffsetForRenderedLine_total m line
  rw [hr] at h
  cases h
  exact ⟨⟨rfl, rfl, rfl⟩, rfl⟩

theorem setSearchQuery_source (lowerRune : Char → Char) (m m' : model) (q : Str)
    (h : m.setSearchQuery lowerRune q = some m') : SameSource m m' := by
  unfold model.setSearchQuery at h
  split at h
  · cases h
  · rename_i m1 hm1
    have h1 := setSearchQueryNoJump_source lowerRune _ _ _ hm1
    split_ifs at h
    · exact h1.trans (setOffsetForRenderedLine_source _ _ _ h)
    · cases h
      exact h1

theorem jumpNextMatch_source (m m' : model) (delta : Int)
    (h : m.jumpNextMatch delta = some m') : SameSource m m' := by
  unfold model.jumpNextMatch at h
  simp only at h
  split_ifs at h
  · cases h
    exact ⟨⟨rfl, rfl, rfl⟩, rfl⟩
  all_goals
    split at h
    · cases h
    · have h2 := setOffsetForRenderedLine_source _ _ _ h
      exact ⟨⟨h2.1.1, h2.1.2.1, h2.1.2.2⟩, h2.2⟩

theorem handleSearchKey_source (lowerRune : Char → Char) (m m' : model) (msg : KeyMsg)
    (h : m.handleSearchKey lowerRune msg = some m') : SameSource m m' := by
  unfold model.handleSearchKey at h
  simp only at h
  split_ifs at h
  all_goals first
    | (cases h; exact ⟨⟨rfl, rfl, rfl⟩, rfl⟩)
    | (have h2 := setSearchQueryNoJump_source lowerRune _ _ _ h
       exact ⟨⟨h2.1.1, h2.1.2.1, h2.1.2.2⟩, h2.2⟩)
    | (have h2 := setSearchQuery_source lowerRune _ _ _ h
       exact ⟨⟨h2.1.1, h2.1.2.1, h2.1.2.2⟩, h2.2⟩)

theorem rebuildDisplay_source (m m' : model) (h : m.rebuildDisplay = some m') :
    SameSource m m' := by
  unfold model.rebuildDisplay at h
  simp only at h
  split_ifs at h
  · cases h
    exact ⟨⟨rfl, rfl, rfl⟩, rfl⟩
  · cases h
    exact ⟨⟨rfl, rfl, rfl⟩, rfl⟩
  · cases h
    exact ⟨⟨rfl, rfl, rfl⟩, rfl⟩
  · cases h
    exact ⟨⟨rfl, rfl, rfl⟩, rfl⟩
  · split at h
    · cases h
    · split at h
      · cases h
      · split at h
        · cases h
        · cases h
          exact ⟨⟨rfl, rfl, rfl⟩, rfl⟩

theorem jumpHeading_source (m m' : model) (delta : Int)
    (h : m.jumpHeading delta = some m') : SameSource m m' := by
  unfold model.jumpHeading at h
  simp only at h
  by_cases c : m.headingLocs.length = 0 ∨ delta = 0
  · rw [if_pos c] at h
    cases h
    exact ⟨⟨rfl, rfl, rfl⟩, rfl⟩
  rw [if_neg c] at h
  generalize (if m.foldLevel > 0 ∧
      (m.headingLocs.filter (fun loc => loc.Heading.Level ≤ m.foldLevel)).length > 0 then
        m.headingLocs.filter (fun loc => loc.Heading.Level ≤ m.foldLevel)
      else m.headingLocs) = locs at h
  split at h
  · cases h
  · split at h
    · cases h
    · rename_i idx _
      by_cases c2 : idx < 0 ∧ ¬ delta > 0
      · rw [if_pos c2] at h
        cases h
        exact ⟨⟨rfl, rfl, rfl⟩, rfl⟩
      · rw [if_neg c2] at h
        split at h
        · cases h
        · exact setOffsetForRenderedLine_source _ _ _ h

theorem syncTOC_source (lowerRune : Char → Char) (m m' : model)
    (h : m.syncTOCToCurrentHeading lowerRune = some m') : SameSource m m' := by
  unfold model.syncTOCToCurrentHeading at h
  split at h
  · cases h
  · split_ifs at h
    · cases h
      exact ⟨⟨rfl, rfl, rfl⟩, rfl⟩
    · split at h
      · cases h
        exact ⟨⟨rfl, rfl, rfl⟩, rfl⟩
      · cases h
        exact ⟨⟨rfl, rfl, rfl⟩, rfl⟩

theorem finish_source (m m' : model) (cmd : Cmd) (h : m.finish = some (m', cmd)) :
    SameSource m m' := by
  unfold model.finish at h
  cases h
  exact ⟨⟨rfl, rfl, rfl⟩, rfl⟩


theorem updateKeyMain_source (lowerRune : Char → Char) (m : model) (msg : KeyMsg)
    (m' : model) (cmd : Cmd)
    (h : m.updateKeyMain lowerRune msg = some (m', cmd)) : SameSource m m' := by
  unfold model.updateKeyMain at h
  by_cases c0 : msg.name = "0"
  · rw [if_pos c0] at h
    simp only at h
    split at h
    · cases h
    · rename_i m1 hm1
      cases h
      have h2 := rebuildDisplay_source _ m1 hm1
      exact ⟨⟨h2.1.1, h2.1.2.1, h2.1.2.2⟩, h2.2⟩
  rw [if_neg c0] at h
  by_cases c1 : msg.name = "j" ∨ msg.name = "down"
  · rw [if_pos c1] at h
    have h2 := finish_source _ _ _ h
    exact ⟨⟨h2.1.1, h2.1.2.1, h2.1.2.2⟩, h2.2⟩
  rw [if_neg c1] at h
  by_cases c2 : msg.name = "k" ∨ msg.name = "up"
  · rw [if_pos c2] at h
    have h2 := finish_source _ _ _ h
    exact ⟨⟨h2.1.1, h2.1.2.1, h2.1.2.2⟩, h2.2⟩
  rw [if_neg c2] at h
  by_cases c3 : msg.name = "1" ∨ msg.name = "2" ∨ msg.name = "3" ∨ msg.name = "4" ∨
      msg.name = "5" ∨ msg.name = "6"
  · rw [if_pos c3] at h
    simp only at h
    split at h
    · cases h
    · rename_i m1 hm1
      cases h
      have h2 := rebuildDisplay_source _ m1 hm1
      exact ⟨⟨h2.1.1, h2.1.2.1, h2.1.2.2⟩, h2.2⟩
  rw [if_neg c3] at h
  by_cases c4 : msg.name = "d"
  · rw [if_pos c4] at h
    have h2 := finish_source _ _ _ h
    exact ⟨⟨h2.1.1, h2.1.2.1, h2.1.2.2⟩, h2.2⟩
  rw [if_neg c4] at h
  by_cases c5 : msg.name = "u"
  · rw [if_pos c5] at h
    have h2 := finish_source _ _ _ h
    exact ⟨⟨h2.1.1, h2.1.2.1, h2.1.2.2⟩, h2.2⟩
  rw [if_neg c5] at h
  by_cases c6 : msg.name = "pgdown" ∨ msg.name = "f" ∨ msg.name = " "
  · rw [if_pos c6] at h
    have h2 := finish_source _ _ _ h
    exact ⟨⟨h2.1.1, h2.1.2.1, h2.1.2.2⟩, h2.2⟩
  rw [if_neg c6] at h
  by_cases c7 : msg.name = "pgup" ∨ msg.name = "b"
  · rw [if_pos c7] at h
    have h2 := finish_source _ _ _ h
    exact ⟨⟨h2.1.1, h2.1.2.1, h2.1.2.2⟩, h2.2⟩
  rw [if_neg c7] at h
  by_cases c8 : msg.name = "home" ∨ msg.name = "g"
  · rw [if_pos c8] at h
    have h2 := finish_source _ _ _ h
    exact ⟨⟨h2.1.1, h2.1.2.1, h2.1.2.2⟩, h2.2⟩
  rw [if_neg c8] at h
  by_cases c9 : msg.name = "end" ∨ msg.name = "G"
  · rw [if_pos c9] at h
    have h2 := finish_source _ _ _ h
    exact ⟨⟨h2.1.1, h2.1.2.1, h2.1.2.2⟩, h2.2⟩
  rw [if_neg c9] at h
  by_cases c10 : msg.name = "]"
  · rw [if_pos c10] at h
    split at h
    · cases h
    · rename_i m1 hm1
      exact (jumpHeading_source _ _ _ hm1).trans (finish_source _ _ _ h)
  rw [if_neg c10] at h
  by_cases c11 : msg.name = "["
  · rw [if_pos c11] at h
    split at h
    · cases h
    · rename_i m1 hm1
      exact (jumpHeading_source _ _ _ hm1).trans (finish_source _ _ _ h)
  rw [if_neg c11] at h
  by_cases c12 : msg.name = "n"
  · rw [if_pos c12] at h
    split at h
    · cases h
    · rename_i m1 hm1
      exact (jumpNextMatch_source _ _ _ hm1).trans (finish_source _ _ _ h)
  rw [if_neg c12] at h
  by_cases c13 : msg.name = "N"
  · rw [if_pos c13] at h
    split at h
    · cases h
    · rename_i m1 hm1
      exact (jumpNextMatch_source _ _ _ hm1).trans (finish_source _ _ _ h)
  rw [if_neg c13] at h
  by_cases c14 : msg.name = "c"
  · rw [if_pos c14] at h
    split at h
    · cases h
    · rename_i m1 hm1
      exact (setSearchQuery_source _ _ _ _ hm1).trans (finish_source _ _ _ h)
  rw [if_neg c14] at h
  exact finish_source _ _ _ h

theorem jumpToHeading_cacheStep (render : Renderer) (lowerRune : Char → Char) (m m' : model)
    (h : m.jumpToHeading render lowerRune = some m') : CacheStep render m m' := by
  unfold model.jumpToHeading at h
  simp only at h
  by_cases c : (m.tocFilteredHeadings lowerRune).length = 0 ∨ m.tocIdx < 0 ∨
      m.tocIdx ≥ (m.tocFilteredHeadings lowerRune).length
  · rw [if_pos c] at h
    cases h
    exact SameSource.cacheStep render ⟨⟨rfl, rfl, rfl⟩, rfl⟩
  rw [if_neg c] at h
  split at h
  · cases h
  · rename_i hd _
    split at h
    · exact SameSource.cacheStep render (setOffsetForRenderedLine_source _ _ _ h)
    · by_cases c2 : m.tocOffsetCache.get? hd.Line = none ∨
          m.tocOffsetCacheWidth ≠ m.currentRenderWidth
      · rw [if_pos c2] at h
        split at h
        · cases h
        · rename_i off hoff
          have h2 := setOffsetForRenderedLine_source _ _ _ h
          have hdoc : SameDoc m m' := ⟨h2.1.1, h2.1.2.1, h2.1.2.2⟩
          refine ⟨hdoc, ?_⟩
          intro hv k off' hk
          rw [computeOffset_congr render m m' hdoc k]
          rw [h2.2] at hk
          change (m.tocOffsetCache.set hd.Line off).get? k = some off' at hk
          rw [IntMap.get?_set] at hk
          by_cases hkk : k = hd.Line
          · rw [if_pos hkk] at hk
            rw [hkk, ← Option.some.inj hk, ← hoff]
            exact (computeOffset_congr render m _ ⟨rfl, rfl, rfl⟩ hd.Line).symm
          · rw [if_neg hkk] at hk
            exact hv k off' hk
      · rw [if_neg c2] at h
        exact SameSource.cacheStep render (setOffsetForRenderedLine_source _ _ _ h)

theorem clampTocIdx_source (lowerRune : Char → Char) (m : model) :
    SameSource m (m.clampTocIdx lowerRune) := ⟨⟨rfl, rfl, rfl⟩, rfl⟩

theorem handleTOCFilterKey_source (lowerRune : Char → Char) (m : model) (msg : KeyMsg) :
    SameSource m (m.handleTOCFilterKey lowerRune msg) := by
  unfold model.handleTOCFilterKey
  simp only
  split_ifs <;> exact ⟨⟨rfl, rfl, rfl⟩, rfl⟩

theorem handleTOCKey_cacheStep (render : Renderer) (lowerRune : Char → Char) (m m' : model)
    (msg : KeyMsg) (h : m.handleTOCKey render lowerRune msg = some m') :
    CacheStep render m m' := by
  unfold model.handleTOCKey at h
  by_cases c0 : m.tocFilterMode = true
  · rw [if_pos c0] at h
    cases h
    exact SameSource.cacheStep render (handleTOCFilterKey_source lowerRune m msg)
  rw [if_neg c0] at h
  by_cases c7 : msg.name = "enter"
  · rw [if_neg (by rw [c7]; decide), if_neg (by rw [c7]; decide), if_neg (by rw [c7]; decide),
      if_neg (by rw [c7]; decide), if_neg (by rw [c7]; decide), if_neg (by rw [c7]; decide),
      if_pos c7] at h
    split at h
    · cases h
    · rename_i m1 hm1
      cases h
      have h2 := jumpToHeading_cacheStep render lowerRune m m1 hm1
      refine ⟨⟨h2.1.1, h2.1.2.1, h2.1.2.2⟩, ?_⟩
      intro hv
      exact h2.2 hv
  · split_ifs at h <;> (cases h; exact SameSource.cacheStep render ⟨⟨rfl, rfl, rfl⟩, rfl⟩)

theorem refreshHeadingLocs_source (lowerRune : Char → Char) (m : model) (renderWidth : Int) :
    SameSource m (m.refreshHeadingLocs lowerRune renderWidth) := by
  unfold model.refreshHeadingLocs
  split_ifs <;> exact ⟨⟨rfl, rfl, rfl⟩, rfl⟩

theorem reRender_source (render : Renderer) (lowerRune : Char → Char) (m m' : model)
    (h : m.reRender render lowerRune = some m') : SameSource m m' := by
  unfold model.reRender at h
  simp only at h
  split at h
  · cases h
    exact ⟨⟨rfl, rfl, rfl⟩, rfl⟩
  · rename_i out _
    have h1 := refreshHeadingLocs_source lowerRune
      { m with lastErr := none, lines := splitLines out,
               plain := (splitLines out).map stripANSI }
      (if m.renderOpts.Width ≤ 0 then m.bodyTextWidth else m.renderOpts.Width)
    have h1' : SameSource m (model.refreshHeadingLocs lowerRune
      { m with lastErr := none, lines := splitLines out,
               plain := (splitLines out).map stripANSI }
      (if m.renderOpts.Width ≤ 0 then m.bodyTextWidth else m.renderOpts.Width)) :=
      ⟨⟨h1.1.1, h1.1.2.1, h1.1.2.2⟩, h1.2⟩
    split at h
    · cases h
    · rename_i m1 hm1
      have h2 := rebuildDisplay_source _ m1 hm1
      split_ifs at h
      · exact (h1'.trans h2).trans (recomputeSearch_source lowerRune _ _ h)
      · cases h
        exact h1'.trans h2

theorem updateKey_cacheStep (render : Renderer) (lowerRune : Char → Char) (m : model)
    (msg : KeyMsg) (m' : model) (cmd : Cmd)
    (h : m.updateKey render lowerRune msg = some (m', cmd)) : CacheStep render m m' := by
  unfold model.updateKey at h
  by_cases c0 : m.searchMode = true
  · rw [if_pos c0] at h
    split at h
    · cases h
    · rename_i m1 hm1
      cases h
      have h2 := handleSearchKey_source lowerRune _ _ _ hm1
      exact SameSource.cacheStep render ⟨⟨h2.1.1, h2.1.2.1, h2.1.2.2⟩, h2.2⟩
  rw [if_neg c0] at h
  by_cases c1 : m.showTOC = true
  · rw [if_pos c1] at h
    split at h
    · cases h
    · rename_i m1 hm1
      cases h
      have h2 := handleTOCKey_cacheStep render lowerRune _ _ _ hm1
      refine ⟨⟨h2.1.1, h2.1.2.1, h2.1.2.2⟩, ?_⟩
      intro hv
      exact h2.2 hv
  rw [if_neg c1] at h
  by_cases c2 : msg.name = "q" ∨ msg.name = "esc" ∨ msg.name = "ctrl+c"
  · rw [if_pos c2] at h
    cases h
    exact SameSource.cacheStep render ⟨⟨rfl, rfl, rfl⟩, rfl⟩
  rw [if_neg c2] at h
  by_cases c3 : msg.name = "?"
  · rw [if_pos c3] at h
    cases h
    exact SameSource.cacheStep render ⟨⟨rfl, rfl, rfl⟩, rfl⟩
  rw [if_neg c3] at h
  by_cases c4 : msg.name = "t"
  · rw [if_pos c4] at h
    simp only at h
    split_ifs at h
    · split at h
      · cases h
      · rename_i m1 hm1
        cases h
        have h2 := syncTOC_source lowerRune _ _ hm1
        exact SameSource.cacheStep render ⟨⟨h2.1.1, h2.1.2.1, h2.1.2.2⟩, h2.2⟩
    · cases h
      exact SameSource.cacheStep render ⟨⟨rfl, rfl, rfl⟩, rfl⟩
  rw [if_neg c4] at h
  by_cases c5 : msg.name = "/"
  · rw [if_pos c5] at h
    simp only at h
    split at h
    · cases h
    · rename_i m1 hm1
      cases h
      have h2 := setSearchQueryNoJump_source lowerRune _ _ _ hm1
      exact SameSource.cacheStep render ⟨⟨h2.1.1, h2.1.2.1, h2.1.2.2⟩, h2.2⟩
  rw [if_neg c5] at h
  by_cases c6 : m.showHelp = true
  · rw [if_pos c6] at h
    cases h
    exact SameSource.cacheStep render ⟨⟨rfl, rfl, rfl⟩, rfl⟩
  rw [if_neg c6] at h
  exact SameSource.cacheStep render (updateKeyMain_source lowerRune m msg m' cmd h)

theorem Update_cacheStep (render : Renderer) (lowerRune : Char → Char) (m : model) (msg : Msg)
    (m' : model) (cmd : Cmd) (hmsg : ∀ W H : Int, msg ≠ Msg.WindowSizeMsg W H)
    (h : m.Update render lowerRune msg = some (m', cmd)) : CacheStep render m m' := by
  cases msg with
  | KeyMsg k => exact updateKey_cacheStep render lowerRune m k m' cmd h
  | MouseMsg t =>
    change m.updateMouse t = some (m', cmd) at h
    unfold model.updateMouse at h
    split_ifs at h
    · cases h
      exact SameSource.cacheStep render ⟨⟨rfl, rfl, rfl⟩, rfl⟩
    · cases t <;>
        (have h2 := finish_source _ _ _ h
         exact SameSource.cacheStep render ⟨⟨h2.1.1, h2.1.2.1, h2.1.2.2⟩, h2.2⟩)
  | WindowSizeMsg w ht => exact absurd rfl (hmsg w ht)
  | clearStatusMsg =>
    have h2 := finish_source _ _ _ h
    exact SameSource.cacheStep render ⟨⟨h2.1.1, h2.1.2.1, h2.1.2.2⟩, h2.2⟩
  | otherMsg => exact SameSource.cacheStep render (finish_source _ _ _ h)

theorem updateWindowSize_cache (render : Renderer) (lowerRune : Char → Char) (m : model)
    (W H : Int) (m' : model) (cmd : Cmd)
    (h : m.Update render lowerRune (Msg.WindowSizeMsg W H) = some (m', cmd)) :
    m'.tocOffsetCache = [] := by
  change m.updateWindowSize render lowerRune W H = some (m', cmd) at h
  unfold model.updateWindowSize at h
  simp only at h
  split at h
  · cases h
  · rename_i m1 hm1
    have h1 := reRender_source render lowerRune _ _ hm1
    have h2 := finish_source _ _ _ h
    rw [h2.2, h1.2]

theorem Update_cacheValid (render : Renderer) (lowerRune : Char → Char) (m : model) (msg : Msg)
    (m' : model) (cmd : Cmd) (hv : CacheValid render m)
    (h : m.Update render lowerRune msg = some (m', cmd)) : CacheValid render m' := by
  by_cases hmsg : ∀ W H : Int, msg ≠ Msg.WindowSizeMsg W H
  · exact (Update_cacheStep render lowerRune m msg m' cmd hmsg h).2 hv
  · have hex : ∃ W H : Int, msg = Msg.WindowSizeMsg W H := by
      by_contra hc
      apply hmsg
      intro W H he
      exact hc ⟨W, H, he⟩
    obtain ⟨W, H, rfl⟩ := hex
    have he := updateWindowSize_cache render lowerRune m W H m' cmd h
    intro k off hk
    rw [he] at hk
    exact absurd hk (by simp [IntMap.get?])

theorem currentRenderWidth_congr (m m' : model) (h : SameDoc m m') :
    m'.currentRenderWidth = m.currentRenderWidth := by
  obtain ⟨_, h2, h3⟩ := h
  unfold model.currentRenderWidth model.bodyTextWidth
  rw [h2, h3]


theorem computeOffset_explicit (render : Renderer) (m : model) (k off : Int) (hk : 0 ≤ k)
    (h : m.computeOffsetForMarkdownLine render k = some off) :
    (∀ out : Str,
      render (List.intercalate ['\n'] ((splitNL (replaceCRLF m.md)).take (k + 1).toNat) ++ ['\n'])
        { Style := m.renderOpts.Style, Width := m.currentRenderWidth } = Except.ok out →
      off = max 0 (((splitLines out).length : Int) - 1)) ∧
    (∀ err : Str,
      render (List.intercalate ['\n'] ((splitNL (replaceCRLF m.md)).take (k + 1).toNat) ++ ['\n'])
        { Style := m.renderOpts.Style, Width := m.currentRenderWidth } = Except.error err →
      off = 0) := by
  unfold model.computeOffsetForMarkdownLine at h
  simp only at h
  have hk0 : ¬ k < 0 := by omega
  rw [if_neg hk0] at h
  by_cases hgt : k > ((splitNL (replaceCRLF m.md)).length : Int)
  · rw [if_pos hgt, if_pos (by omega)] at h
    cases h
  · rw [if_neg hgt] at h
    by_cases hlt : k + 1 > ((splitNL (replaceCRLF m.md)).length : Int)
    · rw [if_pos hlt] at h
      cases h
    · rw [if_neg hlt] at h
      constructor
      · intro out hout
        rw [hout] at h
        simp only at h
        rw [← Option.some.inj h, imax_eq]
      · intro err herr
        rw [herr] at h
        simp only at h
        exact (Option.some.inj h).symm

/-- C23. With one deterministic renderer, in every reachable state every entry
`k -> off` of the TOC jump cache is the offset that `computeOffsetForMarkdownLine`
computes for `k` at the current render width of that state: when the renderer
returns `out` for the source prefix up to and including line `k`, then
`off = max 0 (len (splitLines out) - 1)`, and when it fails on that prefix,
`off = 0`. A window resize, the only event that can change the render width,
empties the cache; every other event leaves the render width unchanged. -/
theorem toc_cache_width_valid (render : Renderer) (title md : Str) (opts : Options) :
    (∀ m : model, ReachableWith render title md opts m →
      ∀ k off : Int, m.tocOffsetCache.get? k = some off →
        m.computeOffsetForMarkdownLine render k = some off ∧
        (0 ≤ k → ∀ out : Str,
          render
            (List.intercalate ['\n'] ((splitNL (replaceCRLF m.md)).take (k + 1).toNat) ++ ['\n'])
            { Style := m.renderOpts.Style, Width := m.currentRenderWidth } = Except.ok out →
          off = max 0 (((splitLines out).length : Int) - 1)) ∧
        (0 ≤ k → ∀ err : Str,
          render
            (List.intercalate ['\n'] ((splitNL (replaceCRLF m.md)).take (k + 1).toNat) ++ ['\n'])
            { Style := m.renderOpts.Style, Width := m.currentRenderWidth } = Except.error err →
          off = 0)) ∧
    (∀ (lowerRune : Char → Char) (m : model) (W H : Int) (m' : model) (cmd : Cmd),
      m.Update render lowerRune (Msg.WindowSizeMsg W H) = some (m', cmd) →
      m'.tocOffsetCache = []) ∧
    (∀ (lowerRune : Char → Char) (m : model) (msg : Msg) (m' : model) (cmd : Cmd),
      (∀ W H : Int, msg ≠ Msg.WindowSizeMsg W H) →
      m.Update render lowerRune msg = some (m', cmd) →
      m'.currentRenderWidth = m.currentRenderWidth) := by
  refine ⟨?_, ?_, ?_⟩
  · intro m hr
    have hv : CacheValid render m := by
      induction hr with
      | init =>
        intro k off hk
        exact absurd hk (by simp [initialModel, IntMap.get?])
      | step lowerRune msg m m' cmd _ hstep ih =>
        exact Update_cacheValid render lowerRune m msg m' cmd ih hstep
    intro k off hk
    have hc := hv k off hk
    exact ⟨hc, fun h0 => (computeOffset_explicit render m k off h0 hc).1,
      fun h0 => (computeOffset_explicit render m k off h0 hc).2⟩
  · intro lowerRune m W H m' cmd h
    exact updateWindowSize_cache render lowerRune m W H m' cmd h
  · intro lowerRune m msg m' cmd hmsg h
    exact currentRenderWidth_congr m m' (Update_cacheStep render lowerRune m msg m' cmd hmsg h).1

theorem toc_cache_width_valid_witness :
    ∃ m : model,
      ReachableWith headingAndBodyRenderer ['t'] "# Z\nfoo".data { Style := [], Width := 0 } m ∧
      m.tocOffsetCache.get? 0 = some 1 ∧
      m.computeOffsetForMarkdownLine headingAndBodyRenderer 0 = some 1 :=
  have hr : ReachableWith headingAndBodyRenderer ['t'] "# Z\nfoo".data
      { Style := [], Width := 0 } _ :=
    ReachableWith.step Char.toLower (Msg.KeyMsg { name := "enter", Runes := [] }) _ _ _
      (ReachableWith.step Char.toLower (Msg.KeyMsg { name := "t", Runes := ['t'] }) _ _ _
        (ReachableWith.step Char.toLower (Msg.WindowSizeMsg 80 24) _ _ _
          ReachableWith.init rfl) rfl) rfl
  ⟨_, hr, rfl,
    ((toc_cache_width_valid headingAndBodyRenderer ['t'] "# Z\nfoo".data
      { Style := [], Width := 0 }).1 _ hr 0 1 rfl).1⟩


/-! ## search.go: the match cursor after a re-render -/

/-- C31, at the failing input. With a renderer that gives three matching lines
at width 76 and one at width 36: resize to 80x24, search `a`, Enter, `n`, `n`
(cursor 2 of 3), resize to 40x24. The reachable state has a non-empty query and
one match, but `searchIdx = 2`, outside `[0, 1)`; the match number shown is 3 of
1, and the key `N` makes `jumpNextMatch(-1)` index `searchMatches[1]`, which is
out of range. -/
theorem search_cursor_stale_after_reflow :
    ∃ m : model,
      ReachableWith reflowRenderer ['t'] ['x'] { Style := [], Width := 0 } m ∧
      m.searchQuery = ['a'] ∧ m.searchMatches = [0] ∧ m.searchIdx = 2 ∧
      m.currentMatchNumber = 3 ∧
      m.jumpNextMatch (-1) = none ∧
      m.Update reflowRenderer Char.toLower (Msg.KeyMsg ⟨"N", ['N']⟩) = none :=
  ⟨_,
    ReachableWith.step Char.toLower (Msg.WindowSizeMsg 40 24) _ _ _
    (ReachableWith.step Char.toLower (Msg.KeyMsg { name := "n", Runes := ['n'] }) _ _ _
    (ReachableWith.step Char.toLower (Msg.KeyMsg { name := "n", Runes := ['n'] }) _ _ _
    (ReachableWith.step Char.toLower (Msg.KeyMsg { name := "enter", Runes := [] }) _ _ _
    (ReachableWith.step Char.toLower (Msg.KeyMsg { name := "a", Runes := ['a'] }) _ _ _
    (ReachableWith.step Char.toLower (Msg.KeyMsg { name := "/", Runes := ['/'] }) _ _ _
    (ReachableWith.step Char.toLower (Msg.WindowSizeMsg 80 24) _ _ _
      ReachableWith.init rfl) rfl) rfl) rfl) rfl) rfl) rfl,
    rfl, rfl, rfl, rfl, rfl, rfl⟩


/-! ## view.go: progress percentage -/

/-- C32, at the failing input. Five rendered lines in a window with one content
row (`pageSize = 1`, so the document does not fit and `maxOffset = 4`). Both
states satisfy the offset invariant. At the top (offset 0) `progressPercent` is
25, not 0; at the bottom (offset 4 = `maxOffset`) it is 125, above 100. -/
theorem progress_percent_out_of_range :
    ∃ mTop mBot : model,
      Reachable ['t'] ['x'] { Style := [], Width := 0 } mTop ∧
      mTop.lines.length = 5 ∧ mTop.pageSize = 1 ∧ mTop.maxOffset = 4 ∧
      mTop.offset = 0 ∧ OffsetOk mTop ∧ mTop.progressPercent = some 25 ∧
      Reachable ['t'] ['x'] { Style := [], Width := 0 } mBot ∧
      mBot.lines.length = 5 ∧ mBot.pageSize = 1 ∧ mBot.maxOffset = 4 ∧
      mBot.offset = 4 ∧ OffsetOk mBot ∧ mBot.progressPercent = some 125 :=
  ⟨_, _,
    Reachable.step threeHeadingRenderer Char.toLower (Msg.WindowSizeMsg 80 3) _ _ _
      Reachable.init rfl,
    rfl, rfl, rfl, rfl, (show (0 : Int) ≤ 0 ∧ (0 : Int) ≤ 4 from by decide), rfl,
    Reachable.step threeHeadingRenderer Char.toLower
      (Msg.KeyMsg { name := "G", Runes := ['G'] }) _ _ _
    (Reachable.step threeHeadingRenderer Char.toLower (Msg.WindowSizeMsg 80 3) _ _ _
      Reachable.init rfl) rfl,
    rfl, rfl, rfl, rfl, (show (0 : Int) ≤ 4 ∧ (4 : Int) ≤ 4 from by decide), rfl⟩


/-! ## view.go and display_index.go: display rows and rendered lines -/

theorem head?_eq_get0 {α : Type} (l : List α) (h : 0 < l.length) :
    l.head? = some (l.get ⟨0, h⟩) := by
  cases l with
  | nil => simp at h
  | cons a t => rfl

theorem list_At_get (d : displayIndex) (n : Nat) (hk : d.kind = displayIndexList)
    (hn : n < d.lines.length) : d.At (n : Int) = some (d.lines.get ⟨n, hn⟩) := by
  unfold displayIndex.At
  have h0 : ¬ ((n : Int) < 0) := by omega
  rw [if_neg h0, hk]
  have h1 : ¬ ((n : Int) ≥ (d.lines.length : Int)) := by omega
  simp only [h1, if_false]
  exact idx?_eq_some _ n hn

/-- C33. For a display index `Identity(n)` with `n ≥ 1`, and for a List of
strictly ascending indices, every row with `0 ≤ row < Len()` satisfies
`displayRowForRenderedLine(At(row)) = row`. For such a List and every rendered
line at or above its first entry, `At(displayRowForRenderedLine(line))` is the
largest List entry that is at most `line`. -/
theorem display_row_round_trip (m : model) :
    (∀ n : Int, 1 ≤ n → m.display = newIdentityDisplayIndex n →
      ∀ row : Int, 0 ≤ row → row < m.display.Len →
        ∃ v : Int, m.display.At row = some v ∧ m.displayRowForRenderedLine v = some row) ∧
    (∀ idx : List Int, idx.Pairwise (fun a b => a < b) → m.display = newListDisplayIndex idx →
      (∀ row : Int, 0 ≤ row → row < m.display.Len →
        ∃ v : Int, m.display.At row = some v ∧ m.displayRowForRenderedLine v = some row) ∧
      (∀ line first : Int, idx.head? = some first → first ≤ line →
        ∃ r v : Int, m.displayRowForRenderedLine line = some r ∧ m.display.At r = some v ∧
          v ∈ idx ∧ v ≤ line ∧ ∀ w ∈ idx, w ≤ line → w ≤ v)) := by
  constructor
  · intro n hn hd row h0 hlt
    have hk : m.display.kind = displayIndexIdentity := by rw [hd]; rfl
    have hsz : m.display.size = n := by rw [hd]; rfl
    have hlen : m.display.Len = n := hsz
    rw [hlen] at hlt
    refine ⟨row, ?_, ?_⟩
    · unfold displayIndex.At
      have hn0 : ¬ row < 0 := by omega
      rw [if_neg hn0, hk]
      have hn2 : ¬ row ≥ m.display.size := by omega
      simp only [hn2, if_false]
    · unfold model.displayRowForRenderedLine
      rw [if_pos hk, hlen]
      have : clamp row 0 (imax 0 (n - 1)) = row := by
        unfold clamp imax
        split_ifs <;> omega
      rw [this]
  · intro idx hsorted hd
    have hk : m.display.kind = displayIndexList := by rw [hd]; rfl
    have hlines : m.display.lines = idx := by rw [hd]; rfl
    have hsz : m.display.Len = (m.display.lines.length : Int) := by rw [hd]; rfl
    have hs : m.display.lines.Pairwise (fun a b => a < b) := by rw [hlines]; exact hsorted
    constructor
    · intro row h0 hlt
      rw [hsz] at hlt
      obtain ⟨n, rfl⟩ : ∃ n : Nat, row = (n : Int) := ⟨row.toNat, by omega⟩
      have hn : n < m.display.lines.length := by omega
      refine ⟨m.display.lines.get ⟨n, hn⟩, list_At_get _ n hk hn, ?_⟩
      obtain ⟨r0, hr, hlo, hhi, hchar⟩ := displayRow_list_spec m (m.display.lines.get ⟨n, hn⟩) hk hs
      have h1 : (n : Int) ≤ r0 := (hchar n hn).mp (le_refl _)
      have hr0lt : r0.toNat < m.display.lines.length := by omega
      have h2 : m.display.lines.get ⟨r0.toNat, hr0lt⟩ ≤ m.display.lines.get ⟨n, hn⟩ :=
        (hchar r0.toNat hr0lt).mpr (by omega)
      have h3 : r0 = (n : Int) := by
        by_contra hne
        have hlt2 : n < r0.toNat := by omega
        have := List.pairwise_iff_get.mp hs ⟨n, hn⟩ ⟨r0.toNat, hr0lt⟩ hlt2
        omega
      rw [hr, h3]
      have : max (n : Int) 0 = (n : Int) := max_eq_left (by omega)
      rw [this]
    · intro line first hfirst hle
      obtain ⟨r0, hr, hlo, hhi, hchar⟩ := displayRow_list_spec m line hk hs
      have hpos : 0 < m.display.lines.length := by
        rw [hlines]
        cases idx with
        | nil => simp at hfirst
        | cons a t => simp
      have hget0 : m.display.lines.get ⟨0, hpos⟩ = first := by
        have e : idx.head? = some (m.display.lines.get ⟨0, hpos⟩) := by
          rw [← hlines]
          exact head?_eq_get0 _ hpos
        rw [hfirst] at e
        exact (Option.some.inj e).symm
      have h0 : (0 : Int) ≤ r0 := by
        have := (hchar 0 hpos).mp (by rw [hget0]; exact hle)
        simpa using this
      obtain ⟨n, rfl⟩ : ∃ n : Nat, r0 = (n : Int) := ⟨r0.toNat, by omega⟩
      have hn : n < m.display.lines.length := by omega
      have hmax : max (n : Int) 0 = (n : Int) := max_eq_left (by omega)
      refine ⟨(n : Int), m.display.lines.get ⟨n, hn⟩, ?_, list_At_get _ n hk hn, ?_, ?_, ?_⟩
      · rw [hr, hmax]
      · rw [← hlines]
        exact List.get_mem _ _ _
      · exact (hchar n hn).mpr (le_refl _)
      · intro w hw hwl
        rw [← hlines] at hw
        obtain ⟨⟨j, hj⟩, hjw⟩ := List.mem_iff_get.mp hw
        have hjn : (j : Int) ≤ (n : Int) := (hchar j hj).mp (by rw [hjw]; exact hwl)
        rw [← hjw]
        exact sorted_get_of_pairwise_lt _ hs j n hj hn (by omega)

theorem display_row_round_trip_witness :
    ∃ v : Int,
      (newListDisplayIndex [0, 2, 4]).At 1 = some v ∧
      model.displayRowForRenderedLine
        { initialModel ['t'] ['x'] { Style := [], Width := 0 } with
          display := newListDisplayIndex [0, 2, 4] } v = some 1 :=
  ((display_row_round_trip
    { initialModel ['t'] ['x'] { Style := [], Width := 0 } with
      display := newListDisplayIndex [0, 2, 4] }).2 [0, 2, 4] (by decide) rfl).1 1
    (by decide) (by decide)


/-! ## Frame lemmas for the navigation fields -/

theorem tocFiltered_congr (lowerRune : Char → Char) (m m' : model)
    (hd : docKey m' = docKey m) (ht : tocKey m' = tocKey m) :
    m'.tocFilteredHeadings lowerRune = m.tocFilteredHeadings lowerRune := by
  have h1 : m'.headings = m.headings := congrArg (fun t => t.2) hd
  have h2 : m'.tocFilter = m.tocFilter := congrArg (fun t => t.2.1) ht
  have h3 : m'.tocFilterDraft = m.tocFilterDraft := congrArg (fun t => t.2.2.1) ht
  have h4 : m'.tocFilterMode = m.tocFilterMode := congrArg (fun t => t.2.2.2.1) ht
  unfold model.tocFilteredHeadings
  rw [h1, h2, h3, h4]

theorem tocIdxOk_congr (lowerRune : Char → Char) (m m' : model)
    (hd : docKey m' = docKey m) (ht : tocKey m' = tocKey m) (h : TocIdxOk lowerRune m) :
    TocIdxOk lowerRune m' := by
  have h1 : m'.tocIdx = m.tocIdx := congrArg (fun t => t.1) ht
  have h4 : m'.tocFilterMode = m.tocFilterMode := congrArg (fun t => t.2.2.2.1) ht
  have h5 : m'.showTOC = m.showTOC := congrArg (fun t => t.2.2.2.2) ht
  unfold TocIdxOk
  rw [tocFiltered_congr lowerRune m m' hd ht, h1, h4, h5]
  exact h

theorem NavStep.of_nav (lowerRune : Char → Char) {m m' : model} (h : navKey m' = navKey m) :
    NavStep lowerRune m m' := by
  have hd : docKey m' = docKey m := congrArg (fun t => t.1) h
  have ht : tocKey m' = tocKey m := congrArg (fun t => t.2.1) h
  have hs : searchKey m' = searchKey m := congrArg (fun t => t.2.2) h
  exact ⟨hd, Or.inl hs, tocIdxOk_congr lowerRune m m' hd ht⟩

theorem NavStep.of_search (lowerRune : Char → Char) {m m' : model}
    (hd : docKey m' = docKey m) (ht : tocKey m' = tocKey m) (hs : SearchStep m m') :
    NavStep lowerRune m m' :=
  ⟨hd, hs, tocIdxOk_congr lowerRune m m' hd ht⟩

theorem SearchStep.ok {m m' : model} (h : SearchStep m m') (hok : SearchTextOk m) :
    SearchTextOk m' := by
  rcases h with h | ⟨q, h⟩
  · have h1 : m'.searchDraft = m.searchDraft := congrArg (fun t => t.1) h
    have h2 : m'.searchQuery = m.searchQuery := congrArg (fun t => t.2) h
    unfold SearchTextOk
    rw [h1, h2]
    exact hok
  · have h1 : m'.searchDraft = trimSpace q := congrArg (fun t => t.1) h
    have h2 : m'.searchQuery = trimSpace q := congrArg (fun t => t.2) h
    unfold SearchTextOk
    rw [h1, h2]
    exact ⟨rfl, trimSpace_idem q⟩

theorem recomputeSearch_nav (lowerRune : Char → Char) (m m' : model)
    (h : m.recomputeSearch lowerRune = some m') : navKey m' = navKey m := by
  unfold model.recomputeSearch at h
  simp only at h
  split_ifs at h
  · cases h
    exact rfl
  · cases h
    exact rfl
  · split at h
    · cases h
    · cases h
      exact rfl
  · cases h
    exact rfl

theorem setOffsetForRenderedLine_nav (m m' : model) (line : Int)
    (h : m.setOffsetForRenderedLine line = some m') : navKey m' = navKey m := by
  obtain ⟨r, _, hr⟩ := setOffsetForRenderedLine_total m line
  rw [hr] at h
  cases h
  exact rfl

theorem jumpNextMatch_nav (m m' : model) (delta : Int)
    (h : m.jumpNextMatch delta = some m') : navKey m' = navKey m := by
  unfold model.jumpNextMatch at h
  simp only at h
  split_ifs at h
  · cases h
    exact rfl
  all_goals
    split at h
    · cases h
    · have h2 := setOffsetForRenderedLine_nav _ _ _ h
      exact h2

theorem rebuildDisplay_nav (m m' : model) (h : m.rebuildDisplay = some m') :
    navKey m' = navKey m := by
  unfold model.rebuildDisplay at h
  simp only at h
  split_ifs at h
  · cases h
    exact rfl
  · cases h
    exact rfl
  · cases h
    exact rfl
  · cases h
    exact rfl
  · split at h
    · cases h
    · split at h
      · cases h
      · split at h
        · cases h
        · cases h
          exact rfl

theorem jumpHeading_nav (m m' : model) (delta : Int)
    (h : m.jumpHeading delta = some m') : navKey m' = navKey m := by
  unfold model.jumpHeading at h
  simp only at h
  by_cases c : m.headingLocs.length = 0 ∨ delta = 0
  · rw [if_pos c] at h
    cases h
    exact rfl
  rw [if_neg c] at h
  generalize (if m.foldLevel > 0 ∧
      (m.headingLocs.filter (fun loc => loc.Heading.Level ≤ m.foldLevel)).length > 0 then
        m.headingLocs.filter (fun loc => loc.Heading.Level ≤ m.foldLevel)
      else m.headingLocs) = locs at h
  split at h
  · cases h
  · split at h
    · cases h
    · rename_i idx _
      by_cases c2 : idx < 0 ∧ ¬ delta > 0
      · rw [if_pos c2] at h
        cases h
        exact rfl
      · rw [if_neg c2] at h
        split at h
        · cases h
        · exact setOffsetForRenderedLine_nav _ _ _ h

theorem finish_nav (m m' : model) (cmd : Cmd) (h : m.finish = some (m', cmd)) :
    navKey m' = navKey m := by
  unfold model.finish at h
  cases h
  exact rfl

theorem refreshHeadingLocs_nav (lowerRune : Char → Char) (m : model) (renderWidth : Int) :
    navKey (m.refreshHeadingLocs lowerRune renderWidth) = navKey m := by
  unfold model.refreshHeadingLocs
  split_ifs <;> exact rfl

theorem reRender_nav (render : Renderer) (lowerRune : Char → Char) (m m' : model)
    (h : m.reRender render lowerRune = some m') : navKey m' = navKey m := by
  unfold model.reRender at h
  simp only at h
  split at h
  · cases h
    rfl
  · rename_i out _
    have h1 : navKey (model.refreshHeadingLocs lowerRune
        { m with lastErr := none, lines := splitLines out,
                 plain := (splitLines out).map stripANSI }
        (if m.renderOpts.Width ≤ 0 then m.bodyTextWidth else m.renderOpts.Width)) = navKey m :=
      refreshHeadingLocs_nav lowerRune
        { m with lastErr := none, lines := splitLines out,
                 plain := (splitLines out).map stripANSI }
        (if m.renderOpts.Width ≤ 0 then m.bodyTextWidth else m.renderOpts.Width)
    split at h
    · cases h
    · rename_i m1 hm1
      have h2 := rebuildDisplay_nav _ m1 hm1
      split_ifs at h
      · exact ((recomputeSearch_nav lowerRune _ _ h).trans h2).trans h1
      · cases h
        exact h2.trans h1


theorem jumpToHeading_nav (render : Renderer) (lowerRune : Char → Char) (m m' : model)
    (h : m.jumpToHeading render lowerRune = some m') : navKey m' = navKey m := by
  unfold model.jumpToHeading at h
  simp only at h
  by_cases c : (m.tocFilteredHeadings lowerRune).length = 0 ∨ m.tocIdx < 0 ∨
      m.tocIdx ≥ (m.tocFilteredHeadings lowerRune).length
  · rw [if_pos c] at h
    cases h
    rfl
  rw [if_neg c] at h
  split at h
  · cases h
  · rename_i hd _
    split at h
    · exact setOffsetForRenderedLine_nav _ _ _ h
    · by_cases c2 : m.tocOffsetCache.get? hd.Line = none ∨
          m.tocOffsetCacheWidth ≠ m.currentRenderWidth
      · rw [if_pos c2] at h
        split at h
        · cases h
        · have h2 := setOffsetForRenderedLine_nav _ _ _ h
          exact h2
      · rw [if_neg c2] at h
        exact setOffsetForRenderedLine_nav _ _ _ h

theorem setSearchQueryNoJump_keys (lowerRune : Char → Char) (m m' : model) (q : Str)
    (h : m.setSearchQueryNoJump lowerRune q = some m') :
    docKey m' = docKey m ∧ tocKey m' = tocKey m ∧
      searchKey m' = (trimSpace q, trimSpace q) := by
  unfold model.setSearchQueryNoJump at h
  simp only at h
  split_ifs at h
  · cases h
    exact ⟨rfl, rfl, rfl⟩
  · split at h
    · cases h
    · rename_i m1 hm1
      have hv := recomputeSearch_nav lowerRune _ _ hm1
      have hd : docKey m1 = docKey m := congrArg (fun t => t.1) hv
      have ht : tocKey m1 = tocKey m := congrArg (fun t => t.2.1) hv
      have hs : searchKey m1 = (trimSpace q, trimSpace q) := congrArg (fun t => t.2.2) hv
      split_ifs at h <;>
        first
        | (cases h; exact ⟨hd, ht, hs⟩)
        | (split at h <;> (cases h; try exact ⟨hd, ht, hs⟩))

theorem setSearchQuery_keys (lowerRune : Char → Char) (m m' : model) (q : Str)
    (h : m.setSearchQuery lowerRune q = some m') :
    docKey m' = docKey m ∧ tocKey m' = tocKey m ∧
      searchKey m' = (trimSpace q, trimSpace q) := by
  unfold model.setSearchQuery at h
  split at h
  · cases h
  · rename_i m1 hm1
    obtain ⟨hd, ht, hs⟩ := setSearchQueryNoJump_keys lowerRune _ _ _ hm1
    split_ifs at h
    · have h2 := setOffsetForRenderedLine_nav _ _ _ h
      exact ⟨(congrArg (fun t => t.1) h2).trans hd, (congrArg (fun t => t.2.1) h2).trans ht,
        (congrArg (fun t => t.2.2) h2).trans hs⟩
    · cases h
      exact ⟨hd, ht, hs⟩

theorem handleSearchKey_navStep (lowerRune : Char → Char) (m m' : model) (msg : KeyMsg)
    (h : m.handleSearchKey lowerRune msg = some m') : NavStep lowerRune m m' := by
  unfold model.handleSearchKey at h
  simp only at h
  split_ifs at h
  all_goals first
    | (cases h; exact NavStep.of_nav lowerRune rfl)
    | (have h2 := setSearchQueryNoJump_keys lowerRune _ _ _ h
       exact NavStep.of_search lowerRune h2.1 h2.2.1 (Or.inr ⟨_, h2.2.2⟩))
    | (have h2 := setSearchQuery_keys lowerRune _ _ _ h
       exact NavStep.of_search lowerRune h2.1 h2.2.1 (Or.inr ⟨_, h2.2.2⟩))

theorem clampTocIdx_ok (lowerRune : Char → Char) (m : model)
    (hmode : m.tocFilterMode = true → m.showTOC = true) :
    TocIdxOk lowerRune (m.clampTocIdx lowerRune) := by
  have hb := clamp_bounds m.tocIdx 0
    (imax 0 (((m.tocFilteredHeadings lowerRune).length : Int) - 1))
    (by rw [imax_eq]; exact le_max_left _ _)
  rw [imax_eq] at hb
  have hf : (m.clampTocIdx lowerRune).tocFilteredHeadings lowerRune =
      m.tocFilteredHeadings lowerRune := rfl
  refine ⟨?_, ?_, hmode⟩
  · show 0 ≤ clamp m.tocIdx 0 (imax 0 (((m.tocFilteredHeadings lowerRune).length : Int) - 1))
    rw [imax_eq]
    exact hb.1
  · rw [hf]
    show clamp m.tocIdx 0 (imax 0 (((m.tocFilteredHeadings lowerRune).length : Int) - 1)) ≤ _
    rw [imax_eq]
    exact hb.2

theorem handleTOCFilterKey_navStep (lowerRune : Char → Char) (m : model) (msg : KeyMsg) :
    NavStep lowerRune m (m.handleTOCFilterKey lowerRune msg) := by
  unfold model.handleTOCFilterKey
  simp only
  split_ifs
  · exact ⟨rfl, Or.inl rfl, fun _ => clampTocIdx_ok lowerRune _ (fun hc => Bool.noConfusion hc)⟩
  · refine ⟨rfl, Or.inl rfl, fun _ => ⟨le_refl _, le_max_left _ _, fun hc => Bool.noConfusion hc⟩⟩
  · exact ⟨rfl, Or.inl rfl, fun h => h⟩
  · exact ⟨rfl, Or.inl rfl, fun h => clampTocIdx_ok lowerRune _ h.2.2⟩
  · exact ⟨rfl, Or.inl rfl, fun h => clampTocIdx_ok lowerRune _ h.2.2⟩
  · exact ⟨rfl, Or.inl rfl, fun h => clampTocIdx_ok lowerRune _ h.2.2⟩
  · exact ⟨rfl, Or.inl rfl, fun h => clampTocIdx_ok lowerRune _ h.2.2⟩


theorem tocIdxOk_of (lowerRune : Char → Char) (m m' : model) (h : TocIdxOk lowerRune m)
    (hi : m'.tocIdx = m.tocIdx)
    (hf : m'.tocFilteredHeadings lowerRune = m.tocFilteredHeadings lowerRune)
    (hm : m'.tocFilterMode = false) : TocIdxOk lowerRune m' := by
  unfold TocIdxOk
  rw [hi, hf, hm]
  exact ⟨h.1, h.2.1, fun hc => Bool.noConfusion hc⟩

theorem tocFiltered_mode_false (lowerRune : Char → Char) (m : model)
    (hm : m.tocFilterMode = false) :
    m.tocFilteredHeadings lowerRune =
      if trimSpace m.tocFilter = [] then m.headings
      else m.headings.filter (fun h =>
        (newSearchMatcher lowerRune (trimSpace m.tocFilter)).Contains lowerRune h.Text) := by
  rw [tocFilteredHeadings_eq, hm]
  simp only [Bool.false_eq_true, if_false]

theorem syncTOCLoop_bound :
    ∀ (hs : List heading) (mdLine i j : Int), syncTOCLoop hs mdLine i = some j →
      i ≤ j ∧ j < i + hs.length := by
  intro hs
  induction hs with
  | nil =>
    intro mdLine i j h
    simp [syncTOCLoop] at h
  | cons x xs ih =>
    intro mdLine i j h
    unfold syncTOCLoop at h
    by_cases c : x.Line = mdLine
    · rw [if_pos c] at h
      have := Option.some.inj h
      simp only [List.length_cons, Nat.cast_add, Nat.cast_one]
      omega
    · rw [if_neg c] at h
      have := ih mdLine (i + 1) j h
      simp only [List.length_cons, Nat.cast_add, Nat.cast_one]
      omega

theorem syncTOC_idx (lowerRune : Char → Char) (m m' : model)
    (h : m.syncTOCToCurrentHeading lowerRune = some m') :
    ∃ i : Int, m' = { m with tocIdx := i } ∧
      (i = m.tocIdx ∨ (0 ≤ i ∧ i < (m.tocFilteredHeadings lowerRune).length)) := by
  unfold model.syncTOCToCurrentHeading at h
  split at h
  · cases h
  · split_ifs at h
    · cases h
      exact ⟨m.tocIdx, rfl, Or.inl rfl⟩
    · split at h
      · cases h
        exact ⟨m.tocIdx, rfl, Or.inl rfl⟩
      · rename_i i hi
        cases h
        have hb := syncTOCLoop_bound _ _ _ _ hi
        exact ⟨i, rfl, Or.inr ⟨hb.1, by omega⟩⟩

theorem handleTOCKey_navStep (render : Renderer) (lowerRune : Char → Char) (m m' : model)
    (msg : KeyMsg) (hshow : m.showTOC = true)
    (h : m.handleTOCKey render lowerRune msg = some m') : NavStep lowerRune m m' := by
  unfold model.handleTOCKey at h
  by_cases c0 : m.tocFilterMode = true
  · rw [if_pos c0] at h
    cases h
    exact handleTOCFilterKey_navStep lowerRune m msg
  rw [if_neg c0] at h
  have hmode : m.tocFilterMode = false := by
    cases hb : m.tocFilterMode with
    | false => rfl
    | true => exact absurd hb c0
  by_cases c1 : msg.name = "esc" ∨ msg.name = "q" ∨ msg.name = "t"
  · rw [if_pos c1] at h
    cases h
    exact ⟨rfl, Or.inl rfl, fun hok => tocIdxOk_of lowerRune m _ hok rfl rfl hmode⟩
  rw [if_neg c1] at h
  by_cases c2 : msg.name = "/"
  · rw [if_pos c2] at h
    cases h
    refine ⟨rfl, Or.inl rfl, fun hok => ?_⟩
    have hf : model.tocFilteredHeadings lowerRune
        { m with tocFilterMode := true, tocFilterDraft := m.tocFilter } =
        m.tocFilteredHeadings lowerRune := by
      rw [tocFiltered_mode_false lowerRune m hmode, tocFilteredHeadings_eq]
      simp only [if_true]
    unfold TocIdxOk
    rw [hf]
    exact ⟨hok.1, hok.2.1, fun _ => hshow⟩
  rw [if_neg c2] at h
  by_cases c3 : msg.name = "j" ∨ msg.name = "down"
  · rw [if_pos c3] at h
    cases h
    exact ⟨rfl, Or.inl rfl, fun hok => clampTocIdx_ok lowerRune _ hok.2.2⟩
  rw [if_neg c3] at h
  by_cases c4 : msg.name = "k" ∨ msg.name = "up"
  · rw [if_pos c4] at h
    cases h
    exact ⟨rfl, Or.inl rfl, fun hok => clampTocIdx_ok lowerRune _ hok.2.2⟩
  rw [if_neg c4] at h
  by_cases c5 : msg.name = "home" ∨ msg.name = "g"
  · rw [if_pos c5] at h
    cases h
    exact ⟨rfl, Or.inl rfl, fun hok => clampTocIdx_ok lowerRune _ hok.2.2⟩
  rw [if_neg c5] at h
  by_cases c6 : msg.name = "end" ∨ msg.name = "G"
  · rw [if_pos c6] at h
    cases h
    exact ⟨rfl, Or.inl rfl, fun hok => clampTocIdx_ok lowerRune _ hok.2.2⟩
  rw [if_neg c6] at h
  by_cases c7 : msg.name = "enter"
  · rw [if_pos c7] at h
    split at h
    · cases h
    · rename_i m1 hm1
      cases h
      have hv := jumpToHeading_nav render lowerRune m m1 hm1
      have hd : docKey m1 = docKey m := congrArg (fun t => t.1) hv
      have ht : tocKey m1 = tocKey m := congrArg (fun t => t.2.1) hv
      have hs : searchKey m1 = searchKey m := congrArg (fun t => t.2.2) hv
      refine ⟨hd, Or.inl hs, fun hok => ?_⟩
      have hok1 := tocIdxOk_congr lowerRune m m1 hd ht hok
      have hm1mode : m1.tocFilterMode = false :=
        (congrArg (fun t => t.2.2.2.1) ht).trans hmode
      exact tocIdxOk_of lowerRune m1 _ hok1 rfl rfl hm1mode
  rw [if_neg c7] at h
  cases h
  exact ⟨rfl, Or.inl rfl, fun hok => clampTocIdx_ok lowerRune _ hok.2.2⟩


theorem updateKeyMain_navStep (lowerRune : Char → Char) (m : model) (msg : KeyMsg)
    (m' : model) (cmd : Cmd)
    (h : m.updateKeyMain lowerRune msg = some (m', cmd)) : NavStep lowerRune m m' := by
  unfold model.updateKeyMain at h
  by_cases c0 : msg.name = "0"
  · rw [if_pos c0] at h
    simp only at h
    split at h
    · cases h
    · rename_i m1 hm1
      cases h
      have h2 := rebuildDisplay_nav _ m1 hm1
      exact NavStep.of_nav lowerRune h2
  rw [if_neg c0] at h
  by_cases c1 : msg.name = "j" ∨ msg.name = "down"
  · rw [if_pos c1] at h
    have h2 := finish_nav _ _ _ h
    exact NavStep.of_nav lowerRune h2
  rw [if_neg c1] at h
  by_cases c2 : msg.name = "k" ∨ msg.name = "up"
  · rw [if_pos c2] at h
    have h2 := finish_nav _ _ _ h
    exact NavStep.of_nav lowerRune h2
  rw [if_neg c2] at h
  by_cases c3 : msg.name = "1" ∨ msg.name = "2" ∨ msg.name = "3" ∨ msg.name = "4" ∨
      msg.name = "5" ∨ msg.name = "6"
  · rw [if_pos c3] at h
    simp only at h
    split at h
    · cases h
    · rename_i m1 hm1
      cases h
      have h2 := rebuildDisplay_nav _ m1 hm1
      exact NavStep.of_nav lowerRune h2
  rw [if_neg c3] at h
  by_cases c4 : msg.name = "d"
  · rw [if_pos c4] at h
    have h2 := finish_nav _ _ _ h
    exact NavStep.of_nav lowerRune h2
  rw [if_neg c4] at h
  by_cases c5 : msg.name = "u"
  · rw [if_pos c5] at h
    have h2 := finish_nav _ _ _ h
    exact NavStep.of_nav lowerRune h2
  rw [if_neg c5] at h
  by_cases c6 : msg.name = "pgdown" ∨ msg.name = "f" ∨ msg.name = " "
  · rw [if_pos c6] at h
    have h2 := finish_nav _ _ _ h
    exact NavStep.of_nav lowerRune h2
  rw [if_neg c6] at h
  by_cases c7 : msg.name = "pgup" ∨ msg.name = "b"
  · rw [if_pos c7] at h
    have h2 := finish_nav _ _ _ h
    exact NavStep.of_nav lowerRune h2
  rw [if_neg c7] at h
  by_cases c8 : msg.name = "home" ∨ msg.name = "g"
  · rw [if_pos c8] at h
    have h2 := finish_nav _ _ _ h
    exact NavStep.of_nav lowerRune h2
  rw [if_neg c8] at h
  by_cases c9 : msg.name = "end" ∨ msg.name = "G"
  · rw [if_pos c9] at h
    have h2 := finish_nav _ _ _ h
    exact NavStep.of_nav lowerRune h2
  rw [if_neg c9] at h
  by_cases c10 : msg.name = "]"
  · rw [if_pos c10] at h
    split at h
    · cases h
    · rename_i m1 hm1
      exact NavStep.of_nav lowerRune ((finish_nav _ _ _ h).trans (jumpHeading_nav _ _ _ hm1))
  rw [if_neg c10] at h
  by_cases c11 : msg.name = "["
  · rw [if_pos c11] at h
    split at h
    · cases h
    · rename_i m1 hm1
      exact NavStep.of_nav lowerRune ((finish_nav _ _ _ h).trans (jumpHeading_nav _ _ _ hm1))
  rw [if_neg c11] at h
  by_cases c12 : msg.name = "n"
  · rw [if_pos c12] at h
    split at h
    · cases h
    · rename_i m1 hm1
      exact NavStep.of_nav lowerRune ((finish_nav _ _ _ h).trans (jumpNextMatch_nav _ _ _ hm1))
  rw [if_neg c12] at h
  by_cases c13 : msg.name = "N"
  · rw [if_pos c13] at h
    split at h
    · cases h
    · rename_i m1 hm1
      exact NavStep.of_nav lowerRune ((finish_nav _ _ _ h).trans (jumpNextMatch_nav _ _ _ hm1))
  rw [if_neg c13] at h
  by_cases c14 : msg.name = "c"
  · rw [if_pos c14] at h
    split at h
    · cases h
    · rename_i m1 hm1
      have h1 := setSearchQuery_keys lowerRune _ _ _ hm1
      have h2 := finish_nav _ _ _ h
      exact NavStep.of_search lowerRune ((congrArg (fun t => t.1) h2).trans h1.1)
        ((congrArg (fun t => t.2.1) h2).trans h1.2.1)
        (Or.inr ⟨_, (congrArg (fun t => t.2.2) h2).trans h1.2.2⟩)
  rw [if_neg c14] at h
  exact NavStep.of_nav lowerRune (finish_nav _ _ _ h)

theorem updateKey_navStep (render : Renderer) (lowerRune : Char → Char) (m : model)
    (msg : KeyMsg) (m' : model) (cmd : Cmd)
    (h : m.updateKey render lowerRune msg = some (m', cmd)) : NavStep lowerRune m m' := by
  unfold model.updateKey at h
  by_cases c0 : m.searchMode = true
  · rw [if_pos c0] at h
    split at h
    · cases h
    · rename_i m1 hm1
      cases h
      have h2 := handleSearchKey_navStep lowerRune _ _ _ hm1
      exact ⟨h2.1, h2.2.1, fun hok => h2.2.2 hok⟩
  rw [if_neg c0] at h
  by_cases c1 : m.showTOC = true
  · rw [if_pos c1] at h
    split at h
    · cases h
    · rename_i m1 hm1
      cases h
      have h2 := handleTOCKey_navStep render lowerRune _ _ _ c1 hm1
      exact ⟨h2.1, h2.2.1, fun hok => h2.2.2 hok⟩
  rw [if_neg c1] at h
  have hshow : m.showTOC = false := by
    cases hb : m.showTOC with
    | false => rfl
    | true => exact absurd hb c1
  by_cases c2 : msg.name = "q" ∨ msg.name = "esc" ∨ msg.name = "ctrl+c"
  · rw [if_pos c2] at h
    cases h
    exact NavStep.of_nav lowerRune rfl
  rw [if_neg c2] at h
  by_cases c3 : msg.name = "?"
  · rw [if_pos c3] at h
    cases h
    exact NavStep.of_nav lowerRune rfl
  rw [if_neg c3] at h
  by_cases c4 : msg.name = "t"
  · rw [if_pos c4] at h
    simp only [hshow, Bool.not_false, if_true] at h
    split at h
    · cases h
    · rename_i m1 hm1
      cases h
      obtain ⟨i, hm1eq, hi⟩ := syncTOC_idx lowerRune _ _ hm1
      subst hm1eq
      refine ⟨rfl, Or.inl rfl, fun hok => ?_⟩
      have hmode : m.tocFilterMode = false := by
        cases hb : m.tocFilterMode with
        | false => rfl
        | true =>
          have := hok.2.2 hb
          rw [hshow] at this
          exact Bool.noConfusion this
      have hfm := tocFiltered_mode_false lowerRune m hmode
      refine ⟨?_, ?_, fun hc => Bool.noConfusion hc⟩
      · show 0 ≤ i
        rcases hi with hi | hi
        · rw [hi]
          exact (clamp_bounds _ _ _ (by rw [imax_eq]; exact le_max_left _ _)).1
        · exact hi.1
      · have hf1 : model.tocFilteredHeadings lowerRune
            { m with showTOC := true, showHelp := false,
                     tocIdx := i, tocFilterMode := false, tocFilterDraft := m.tocFilter } =
            m.tocFilteredHeadings lowerRune := by
          rw [hfm, tocFilteredHeadings_eq]
          simp only [Bool.false_eq_true, if_false]
        have hf2 : model.tocFilteredHeadings lowerRune
            { m with showTOC := true, showHelp := false,
                     tocIdx := clamp m.tocIdx 0 (imax 0 ((m.headings.length : Int) - 1)) } =
            m.tocFilteredHeadings lowerRune := by
          rw [hfm, tocFilteredHeadings_eq]
          simp only [hmode, Bool.false_eq_true, if_false]
        show i ≤ max 0 (((model.tocFilteredHeadings lowerRune
            { m with showTOC := true, showHelp := false,
                     tocIdx := i, tocFilterMode := false,
                     tocFilterDraft := m.tocFilter }).length : Int) - 1)
        rw [hf1]
        rcases hi with hi | hi
        · rw [hi]
          have h0 := hok.1
          have h1 := hok.2.1
          have hc : clamp m.tocIdx 0 (imax 0 ((m.headings.length : Int) - 1)) ≤ m.tocIdx := by
            unfold clamp imax
            split_ifs <;> omega
          exact le_trans hc h1
        · rw [hf2] at hi
          have := le_max_right (0 : Int)
            (((m.tocFilteredHeadings lowerRune).length : Int) - 1)
          omega
  rw [if_neg c4] at h
  by_cases c5 : msg.name = "/"
  · rw [if_pos c5] at h
    simp only at h
    split at h
    · cases h
    · rename_i m1 hm1
      cases h
      obtain ⟨hd, ht, hs⟩ := setSearchQueryNoJump_keys lowerRune _ _ _ hm1
      refine ⟨hd, Or.inr ⟨_, hs⟩, fun hok => ?_⟩
      have hok1 := tocIdxOk_congr lowerRune m m1 hd ht hok
      have hmode : m.tocFilterMode = false := by
        cases hb : m.tocFilterMode with
        | false => rfl
        | true =>
          have := hok.2.2 hb
          rw [hshow] at this
          exact Bool.noConfusion this
      have hm1mode : m1.tocFilterMode = false :=
        (congrArg (fun t => t.2.2.2.1) ht).trans hmode
      exact tocIdxOk_of lowerRune m1 _ hok1 rfl rfl hm1mode
  rw [if_neg c5] at h
  by_cases c6 : m.showHelp = true
  · rw [if_pos c6] at h
    cases h
    exact NavStep.of_nav lowerRune rfl
  rw [if_neg c6] at h
  exact updateKeyMain_navStep lowerRune m msg m' cmd h

theorem Update_navStep (render : Renderer) (lowerRune : Char → Char) (m : model) (msg : Msg)
    (m' : model) (cmd : Cmd)
    (h : m.Update render lowerRune msg = some (m', cmd)) : NavStep lowerRune m m' := by
  cases msg with
  | KeyMsg k => exact updateKey_navStep render lowerRune m k m' cmd h
  | MouseMsg t =>
    change m.updateMouse t = some (m', cmd) at h
    unfold model.updateMouse at h
    split_ifs at h
    · cases h
      exact NavStep.of_nav lowerRune rfl
    · cases t <;>
        (have h2 := finish_nav _ _ _ h
         exact NavStep.of_nav lowerRune h2)
  | WindowSizeMsg w ht =>
    change m.updateWindowSize render lowerRune w ht = some (m', cmd) at h
    unfold model.updateWindowSize at h
    simp only at h
    split at h
    · cases h
    · rename_i m1 hm1
      have h1 := reRender_nav render lowerRune _ _ hm1
      exact NavStep.of_nav lowerRune ((finish_nav _ _ _ h).trans h1)
  | clearStatusMsg =>
    have h2 := finish_nav _ _ _ h
    exact NavStep.of_nav lowerRune h2
  | otherMsg => exact NavStep.of_nav lowerRune (finish_nav _ _ _ h)


/-! ## toc.go: the prefix slice of a TOC jump -/

theorem parseHeadings_line_range (md : Str) (h : heading) (hh : h ∈ parseHeadings md) :
    0 ≤ h.Line ∧ h.Line < ((splitNL (replaceCRLF md)).length : Int) := by
  rw [parseHeadings_eq_spec, mem_specHeadings] at hh
  obtain ⟨k, ln, hk, _, hol⟩ := hh
  have hl := (headingOfLine_line k ln h hol).1
  have hlt : k < (splitNL (replaceCRLF md)).length := by
    by_contra hc
    rw [List.getElem?_eq_none (by omega)] at hk
    cases hk
  rw [hl]
  omega

theorem computeOffset_total (render : Renderer) (m : model) (line : Int)
    (h0 : 0 ≤ line) (h1 : line < ((splitNL (replaceCRLF m.md)).length : Int)) :
    ∃ off : Int, m.computeOffsetForMarkdownLine render line = some off := by
  unfold model.computeOffsetForMarkdownLine
  simp only
  rw [if_neg (by omega), if_neg (by omega), if_neg (by omega)]
  split
  · exact ⟨_, rfl⟩
  · exact ⟨_, rfl⟩

theorem tocFiltered_sublist (lowerRune : Char → Char) (m : model) :
    (m.tocFilteredHeadings lowerRune).Sublist m.headings := by
  rw [tocFilteredHeadings_eq]
  by_cases c : trimSpace (if m.tocFilterMode then m.tocFilterDraft else m.tocFilter) = []
  · rw [if_pos c]
  · rw [if_neg c]
    exact List.filter_sublist _

theorem jumpToHeading_total (render : Renderer) (lowerRune : Char → Char) (m : model)
    (hh : m.headings = parseHeadings m.md) :
    ∃ m' : model, m.jumpToHeading render lowerRune = some m' := by
  unfold model.jumpToHeading
  simp only
  by_cases c : (m.tocFilteredHeadings lowerRune).length = 0 ∨ m.tocIdx < 0 ∨
      m.tocIdx ≥ (m.tocFilteredHeadings lowerRune).length
  · rw [if_pos c]
    exact ⟨m, rfl⟩
  rw [if_neg c]
  have h0 : 0 ≤ m.tocIdx := by
    by_contra hc
    exact c (Or.inr (Or.inl (by omega)))
  have h1 : m.tocIdx < (m.tocFilteredHeadings lowerRune).length := by
    by_contra hc
    exact c (Or.inr (Or.inr (by omega)))
  obtain ⟨n, hn⟩ : ∃ n : Nat, m.tocIdx = (n : Int) := ⟨m.tocIdx.toNat, by omega⟩
  have hnlt : n < (m.tocFilteredHeadings lowerRune).length := by omega
  have hsel : idx? (m.tocFilteredHeadings lowerRune) m.tocIdx =
      some ((m.tocFilteredHeadings lowerRune).get ⟨n, hnlt⟩) := by
    rw [hn]
    exact idx?_eq_some _ n hnlt
  rw [hsel]
  simp only
  have hmem : (m.tocFilteredHeadings lowerRune).get ⟨n, hnlt⟩ ∈ parseHeadings m.md := by
    have hsub : (m.tocFilteredHeadings lowerRune).Sublist m.headings :=
      tocFiltered_sublist lowerRune m
    rw [← hh]
    exact hsub.subset (List.get_mem _ _ _)
  obtain ⟨hl0, hl1⟩ := parseHeadings_line_range m.md _ hmem
  split
  · exact ⟨_, (setOffsetForRenderedLine_total m _).choose_spec.2⟩
  · by_cases c2 : m.tocOffsetCache.get? ((m.tocFilteredHeadings lowerRune).get ⟨n, hnlt⟩).Line = none ∨
        m.tocOffsetCacheWidth ≠ m.currentRenderWidth
    · rw [if_pos c2]
      obtain ⟨off, hoff⟩ := computeOffset_total render
        { m with tocOffsetCacheWidth := m.currentRenderWidth }
        ((m.tocFilteredHeadings lowerRune).get ⟨n, hnlt⟩).Line hl0 hl1
      rw [hoff]
      exact ⟨_, (setOffsetForRenderedLine_total _ _).choose_spec.2⟩
    · rw [if_neg c2]
      exact ⟨_, (setOffsetForRenderedLine_total m _).choose_spec.2⟩

/-- C34. For every document `md` and every heading `h` of `parseHeadings md`,
`0 ≤ h.Line < len(raw)`, where `raw` is `md` split on newlines after CRLF
normalisation; so `computeOffsetForMarkdownLine` returns for the line of every
parsed heading (the slice `raw[:line+1]` is in range), `jumpToHeading` returns in
every state whose heading list is the parsed one, and every reachable state is
such a state. -/
theorem toc_prefix_in_range (md : Str) :
    (∀ h ∈ parseHeadings md,
      0 ≤ h.Line ∧ h.Line < ((splitNL (replaceCRLF md)).length : Int)) ∧
    (∀ (render : Renderer) (m : model), m.md = md → ∀ h ∈ parseHeadings md,
      ∃ off : Int, m.computeOffsetForMarkdownLine render h.Line = some off) ∧
    (∀ (render : Renderer) (lowerRune : Char → Char) (m : model), m.md = md →
      m.headings = parseHeadings md →
      ∃ m' : model, m.jumpToHeading render lowerRune = some m') ∧
    (∀ (title : Str) (opts : Options) (m : model), Reachable title md opts m →
      m.md = md ∧ m.headings = parseHeadings md) := by
  refine ⟨fun h hh => parseHeadings_line_range md h hh, ?_, ?_, ?_⟩
  · intro render m hmd h hh
    obtain ⟨h0, h1⟩ := parseHeadings_line_range md h hh
    rw [← hmd] at h1
    exact computeOffset_total render m h.Line h0 h1
  · intro render lowerRune m hmd hh
    rw [← hmd] at hh
    exact jumpToHeading_total render lowerRune m hh
  · intro title opts m hr
    induction hr with
    | init => exact ⟨rfl, rfl⟩
    | step render lowerRune msg m m' cmd _ hstep ih =>
      have hd := (Update_navStep render lowerRune m msg m' cmd hstep).1
      have h1 : m'.md = m.md := congrArg (fun t => t.1) hd
      have h2 : m'.headings = m.headings := congrArg (fun t => t.2) hd
      exact ⟨h1.trans ih.1, h2.trans ih.2⟩

theorem toc_prefix_in_range_witness :
    (0 : Int) ≤ 2 ∧ (2 : Int) < ((splitNL (replaceCRLF "a\r\nb\n## H".data)).length : Int) :=
  (toc_prefix_in_range "a\r\nb\n## H".data).1 { Level := 2, Text := ['H'], Line := 2 }
    (by decide)


/-! ## search.go: the draft of the search prompt -/

/-- C35. In every reachable state the search draft equals the query and the
query has no leading or trailing white space; every key handled by the search
prompt returns and keeps this. A space typed at the end of the draft is
discarded: after `/`, `a`, space the draft is `a`, and after a further `b` the
query and the draft are `ab`. -/
theorem search_draft_trimmed :
    (∀ (title md : Str) (opts : Options) (m : model), Reachable title md opts m →
      m.searchDraft = m.searchQuery ∧ trimSpace m.searchQuery = m.searchQuery) ∧
    (∀ (lowerRune : Char → Char) (m : model) (msg : KeyMsg),
      m.searchDraft = m.searchQuery → trimSpace m.searchQuery = m.searchQuery →
      ∃ m' : model, m.handleSearchKey lowerRune msg = some m' ∧
        m'.searchDraft = m'.searchQuery ∧ trimSpace m'.searchQuery = m'.searchQuery) ∧
    (∃ m1 m2 : model,
      Reachable ['t'] ['x'] { Style := [], Width := 0 } m1 ∧ m1.searchMode = true ∧
      m1.searchDraft = ['a'] ∧ m1.searchQuery = ['a'] ∧
      m1.Update headingAndBodyRenderer Char.toLower (Msg.KeyMsg ⟨"b", ['b']⟩) =
        some (m2, Cmd.nil) ∧
      m2.searchDraft = ['a', 'b'] ∧ m2.searchQuery = ['a', 'b']) := by
  refine ⟨?_, ?_, ?_⟩
  · intro title md opts m hr
    have h : SearchTextOk m := by
      induction hr with
      | init => exact ⟨rfl, rfl⟩
      | step render lowerRune msg m m' cmd _ hstep ih =>
        exact (Update_navStep render lowerRune m msg m' cmd hstep).2.1.ok ih
    exact h
  · intro lowerRune m msg h1 h2
    obtain ⟨m', hm', _⟩ := handleSearchKey_ok lowerRune m msg
    exact ⟨m', hm', (handleSearchKey_navStep lowerRune m m' msg hm').2.1.ok ⟨h1, h2⟩⟩
  · exact ⟨_, _,
      Reachable.step headingAndBodyRenderer Char.toLower
        (Msg.KeyMsg { name := " ", Runes := [' '] }) _ _ _
      (Reachable.step headingAndBodyRenderer Char.toLower
        (Msg.KeyMsg { name := "a", Runes := ['a'] }) _ _ _
      (Reachable.step headingAndBodyRenderer Char.toLower
        (Msg.KeyMsg { name := "/", Runes := ['/'] }) _ _ _ Reachable.init rfl) rfl) rfl,
      rfl, rfl, rfl, rfl, rfl, rfl⟩

theorem search_draft_trimmed_witness :
    ∃ m' : model,
      model.handleSearchKey Char.toLower
        { initialModel ['t'] ['x'] { Style := [], Width := 0 } with
          searchMode := true, searchDraft := ['a'], searchQuery := ['a'] }
        ⟨" ", [' ']⟩ = some m' ∧
      m'.searchDraft = m'.searchQuery ∧ trimSpace m'.searchQuery = m'.searchQuery :=
  search_draft_trimmed.2.1 Char.toLower
    { initialModel ['t'] ['x'] { Style := [], Width := 0 } with
      searchMode := true, searchDraft := ['a'], searchQuery := ['a'] }
    ⟨" ", [' ']⟩ rfl (by decide)

/-! ## toc.go: the TOC selection -/

/-- C36. With one renderer and one rune lower-casing, in every reachable state
`0 ≤ tocIdx ≤ max 0 (len(tocFilteredHeadings()) - 1)`, so the selected entry
exists whenever the filtered heading list is non-empty; and every `Update`
that returns keeps the selection in range (together with the fact that the
filter input is open only while the TOC is open). -/
theorem toc_selection_in_range (render : Renderer) (lowerRune : Char → Char) :
    (∀ (title md : Str) (opts : Options) (m : model),
      ReachableBy render lowerRune title md opts m →
      0 ≤ m.tocIdx ∧
      m.tocIdx ≤ max 0 (((m.tocFilteredHeadings lowerRune).length : Int) - 1) ∧
      (m.tocFilteredHeadings lowerRune ≠ [] →
        ∃ h : heading, idx? (m.tocFilteredHeadings lowerRune) m.tocIdx = some h)) ∧
    (∀ (m : model) (msg : Msg) (m' : model) (cmd : Cmd), TocIdxOk lowerRune m →
      m.Update render lowerRune msg = some (m', cmd) → TocIdxOk lowerRune m') := by
  refine ⟨?_, fun m msg m' cmd hok h => (Update_navStep render lowerRune m msg m' cmd h).2.2 hok⟩
  intro title md opts m hr
  have hok : TocIdxOk lowerRune m := by
    induction hr with
    | init => exact ⟨le_refl _, le_max_left _ _, fun hc => Bool.noConfusion hc⟩
    | step msg m m' cmd _ hstep ih =>
      exact (Update_navStep render lowerRune m msg m' cmd hstep).2.2 ih
  refine ⟨hok.1, hok.2.1, ?_⟩
  intro hne
  have hpos : 0 < (m.tocFilteredHeadings lowerRune).length := List.length_pos.mpr hne
  have h1 := hok.1
  have h2 := hok.2.1
  have hmax : max 0 (((m.tocFilteredHeadings lowerRune).length : Int) - 1) =
      ((m.tocFilteredHeadings lowerRune).length : Int) - 1 := max_eq_right (by omega)
  rw [hmax] at h2
  obtain ⟨n, hn⟩ : ∃ n : Nat, m.tocIdx = (n : Int) := ⟨m.tocIdx.toNat, by omega⟩
  have hnlt : n < (m.tocFilteredHeadings lowerRune).length := by omega
  exact ⟨_, by rw [hn]; exact idx?_eq_some _ n hnlt⟩

theorem toc_selection_in_range_witness :
    ∃ m : model,
      ReachableBy headingAndBodyRenderer Char.toLower ['t'] "# A\n# B".data
        { Style := [], Width := 0 } m ∧
      m.showTOC = true ∧ m.tocIdx = 1 ∧
      0 ≤ m.tocIdx ∧
      m.tocIdx ≤ max 0 (((m.tocFilteredHeadings Char.toLower).length : Int) - 1) :=
  have hr : ReachableBy headingAndBodyRenderer Char.toLower ['t'] "# A\n# B".data
      { Style := [], Width := 0 } _ :=
    ReachableBy.step (Msg.KeyMsg { name := "j", Runes := ['j'] }) _ _ _
      (ReachableBy.step (Msg.KeyMsg { name := "j", Runes := ['j'] }) _ _ _
        (ReachableBy.step (Msg.KeyMsg { name := "t", Runes := ['t'] }) _ _ _
          ReachableBy.init rfl) rfl) rfl
  have h := (toc_selection_in_range headingAndBodyRenderer Char.toLower).1 _ _ _ _ hr
  ⟨_, hr, rfl, rfl, h.1, h.2.1⟩

end Md
